import Mathlib

/-!
# Expression parser of fcc (`src/parser-value.c`)

A shallow embedding of the ten parsing routines of `parser-value.c`
(`parserValue`, `parserAssign`, `parserTernary`, `parserBool`,
`parserEquality`, `parserRel`, `parserExpr`, `parserTerm`, `parserUnary`,
`parserObject`, `parserFactor`) together with theorems about the trees they
build.

The C routines mutate one `parserCtx`; here the context is passed and
returned explicitly.  The C routines are mutually recursive without a bound,
so every routine takes a fuel argument that decreases at each call and
returns `none` when it runs out; the theorems give an explicit amount of fuel
from which on the result is the stated one.

Integer literals carry the C `int` that `atoi` yields for the token text.

Source locations are left out of the tree: in `astCreateBOP(ctx->location,
Node, o, parserX(ctx))` the location is read in an argument list next to a
call that moves the cursor, so its value depends on the C compiler's order of
evaluation.
-/

namespace Fcc

/-! ## Tokens, diagnostics and the parser context -/

/-- Token classes of the lexer (`ctx->lexer->token`). -/
inductive TokenKind where
  | other
  | eof
  | ident
  | int
deriving DecidableEq, Repr

/-- One token: its class and its raw text (`ctx->lexer->buffer`). -/
structure Token where
  kind : TokenKind
  text : String
deriving DecidableEq, Repr

/-- Modelled from the spec: the symbol record of `sym.h`, which the parser
only stores as a non-owning reference and never inspects. -/
structure Sym where
  handle : Nat
deriving DecidableEq, Repr

/-- Modelled from the spec: the type descriptor of `type.h` returned by
`parserType`, opaque to the expression parser. -/
structure TypeDesc where
  handle : Nat
deriving DecidableEq, Repr

/-- Diagnostics reported through `errorExpected` and `errorUndefSym`. -/
inductive Diag where
  | expected (what : String)
  | undefSym (name : String)
deriving DecidableEq, Repr

/-- The mutable part of `parserCtx`: the tokens from the cursor on (the head
is the current token) and the diagnostics reported so far, oldest first. -/
structure ParserCtx where
  tokens : List Token
  errors : List Diag
deriving DecidableEq, Repr

/-- The external collaborators of `parser-value.c`: `symFind` on the current
scope, the classifier `tokenIsDecl` and the type parser `parserType`. -/
structure Env where
  symFind : String → Option Sym
  tokenIsDecl : ParserCtx → Bool
  parserType : ParserCtx → TypeDesc × ParserCtx

/-- The tree built by the parser (`ast.h`), one constructor per node class
and literal class.  The value of `literalInt` is a C `int`: the parser only
stores what `tokenMatchInt` returns, which is in the 32-bit range
(`atoi_range`). -/
inductive Ast where
  | invalid : Ast
  | bop (l : Ast) (o : String) (r : Ast) : Ast
  | uop (o : String) (r : Ast) : Ast
  | top (cond : Ast) (l : Ast) (r : Ast) : Ast
  | index (l : Ast) (r : Ast) : Ast
  | call (callee : Ast) (args : List Ast) : Ast
  | cast (dt : TypeDesc) (r : Ast) : Ast
  | literalInt (value : Int) : Ast
  | literalBool (value : Bool) : Ast
  | literalIdent (name : String) (symbol : Option Sym) : Ast
  | literalArray (children : List Ast) : Ast
deriving Repr

/-- Modelled from the spec: `astAddChild`, the append-child operation on the
two node classes with a child list. -/
def astAddChild : Ast → Ast → Ast
  | .call callee args, child => .call callee (args ++ [child])
  | .literalArray children, child => .literalArray (children ++ [child])
  | node, _ => node

/-! ## Token cursor helpers (`parser-helpers.h`) -/

/-- The token the lexer yields once the input is used up. -/
def Token.eof : Token := ⟨.eof, ""⟩

/-- The current token: the head of the remaining input, or end of file. -/
def ParserCtx.cur (ctx : ParserCtx) : Token := ctx.tokens.headD Token.eof

/-- Modelled from the spec: `tokenIs`, test-if-current-token-equals. -/
def tokenIs (ctx : ParserCtx) (s : String) : Bool := ctx.cur.text == s

/-- Modelled from the spec: `tokenIsIdent`, classify-current-as identifier. -/
def tokenIsIdent (ctx : ParserCtx) : Bool := ctx.cur.kind == .ident

/-- Modelled from the spec: `tokenIsInt`, classify-current-as integer. -/
def tokenIsInt (ctx : ParserCtx) : Bool := ctx.cur.kind == .int

/-- Modelled from the spec: `tokenNext`, advance-by-one-token; at end of file
the cursor stays where it is. -/
def tokenNext (ctx : ParserCtx) : ParserCtx := { ctx with tokens := ctx.tokens.tail }

/-- Modelled from the spec: `tokenMatch`, consume the current token. -/
def tokenMatch (ctx : ParserCtx) : ParserCtx := tokenNext ctx

/-- Modelled from the spec: `tokenDupMatch`,
consume-and-return-copy-of-current-token-text. -/
def tokenDupMatch (ctx : ParserCtx) : String × ParserCtx := (ctx.cur.text, tokenMatch ctx)

/-- Modelled from the spec: `errorExpected`, the report of a missing
construct. -/
def errorExpected (ctx : ParserCtx) (what : String) : ParserCtx :=
  { ctx with errors := ctx.errors ++ [Diag.expected what] }

/-- Modelled from the spec: `errorUndefSym`, the report of an identifier
without a binding; the name is the current token's text. -/
def errorUndefSym (ctx : ParserCtx) : ParserCtx :=
  { ctx with errors := ctx.errors ++ [Diag.undefSym ctx.cur.text] }

/-- Modelled from the spec: `tokenMatchStr`, require-and-consume; on a
mismatch it reports and advances exactly one token. -/
def tokenMatchStr (ctx : ParserCtx) (s : String) : ParserCtx :=
  if tokenIs ctx s then tokenMatch ctx else tokenNext (errorExpected ctx s)

/-- Modelled from the spec: `tokenTryMatchStr`,
conditionally-consume-if-equals. -/
def tokenTryMatchStr (ctx : ParserCtx) (s : String) : Bool × ParserCtx :=
  if tokenIs ctx s then (true, tokenMatch ctx) else (false, ctx)

/-- Conversion to the C type `int`: 32 bits, two's complement. -/
def wrapInt (n : Int) : Int := (n + 2147483648) % 4294967296 - 2147483648

/-- Saturation to the range of the C type `long` (64 bits), as `strtol` does
on overflow. -/
def clampLong (n : Int) : Int :=
  if n < -9223372036854775808 then -9223372036854775808
  else if 9223372036854775807 < n then 9223372036854775807
  else n

/-- White space as the C function `isspace` sees it. -/
def isSpace (c : Char) : Bool :=
  c == ' ' || c == '\t' || c == '\n' || c == '\r' || c.toNat == 11 || c.toNat == 12

/-- Modelled from the spec: the C library function `atoi`, which is
`(int) strtol(s, 0, 10)`: white space is skipped, an optional sign is read,
then the leading decimal digits, most significant first; the value is
saturated to the range of `long` and converted to the 32-bit `int`. -/
def atoi (s : String) : Int :=
  let cs := s.data.dropWhile isSpace
  let neg := cs.head? == some '-'
  let ds := (if cs.head? == some '-' || cs.head? == some '+' then cs.tail else cs).takeWhile
    Char.isDigit
  let v : Nat := ds.foldl (fun a c => 10 * a + (c.toNat - 48)) 0
  wrapInt (clampLong (if neg then -(v : Int) else (v : Int)))

/-- Modelled from the spec: `tokenMatchInt`,
consume-and-return-integer-value; the value is a C `int`, which
`parserFactor` stores in the `int` payload of the literal node. -/
def tokenMatchInt (ctx : ParserCtx) : Int × ParserCtx := (atoi ctx.cur.text, tokenMatch ctx)

/-! ## The parsing routines -/

/-- What a routine returns: the node and the context after it, or `none`
when the fuel ran out. -/
abbrev Result := Option (Ast × ParserCtx)

/-- The postfix loop of `parserUnary`:
`while (tokenIs "++" || tokenIs "--") Node = UOP(tokenDupMatch, Node)`. -/
def parserUnaryPostfix : Nat → Ast → ParserCtx → Result
  | 0, _, _ => none
  | n + 1, node, ctx =>
    if tokenIs ctx "++" || tokenIs ctx "--" then
      parserUnaryPostfix n (.uop (tokenDupMatch ctx).1 node) (tokenDupMatch ctx).2
    else some (node, ctx)

mutual

/-- Value = Assign -/
def parserValue (env : Env) : Nat → ParserCtx → Result
  | 0, _ => none
  | n + 1, ctx => parserAssign env n ctx

/-- Assign = Ternary [ "=" | "+=" | "-=" | "*=" | "/=" Assign ] -/
def parserAssign (env : Env) : Nat → ParserCtx → Result
  | 0, _ => none
  | n + 1, ctx =>
    match parserTernary env n ctx with
    | none => none
    | some (node, ctx1) =>
      if tokenIs ctx1 "=" || tokenIs ctx1 "+=" || tokenIs ctx1 "-="
          || tokenIs ctx1 "*=" || tokenIs ctx1 "/=" then
        match parserAssign env n (tokenDupMatch ctx1).2 with
        | none => none
        | some (r, ctx2) => some (.bop node (tokenDupMatch ctx1).1 r, ctx2)
      else some (node, ctx1)

/-- Ternary = Bool [ "?" Ternary ":" Ternary ] -/
def parserTernary (env : Env) : Nat → ParserCtx → Result
  | 0, _ => none
  | n + 1, ctx =>
    match parserBool env n ctx with
    | none => none
    | some (node, ctx1) =>
      if (tokenTryMatchStr ctx1 "?").1 then
        match parserTernary env n (tokenTryMatchStr ctx1 "?").2 with
        | none => none
        | some (l, ctx2) =>
          match parserTernary env n (tokenMatchStr ctx2 ":") with
          | none => none
          | some (r, ctx3) => some (.top node l r, ctx3)
      else some (node, (tokenTryMatchStr ctx1 "?").2)

/-- Bool = Equality [{ "&&" | "||" Equality }] -/
def parserBool (env : Env) : Nat → ParserCtx → Result
  | 0, _ => none
  | n + 1, ctx =>
    match parserEquality env n ctx with
    | none => none
    | some (node, ctx1) => parserBoolLoop env n node ctx1

/-- The `while` loop of `parserBool`. -/
def parserBoolLoop (env : Env) : Nat → Ast → ParserCtx → Result
  | 0, _, _ => none
  | n + 1, node, ctx =>
    if tokenIs ctx "&&" || tokenIs ctx "||" then
      match parserEquality env n (tokenDupMatch ctx).2 with
      | none => none
      | some (r, ctx1) => parserBoolLoop env n (.bop node (tokenDupMatch ctx).1 r) ctx1
    else some (node, ctx)

/-- Equality = Rel [{ "==" | "!=" Rel }] -/
def parserEquality (env : Env) : Nat → ParserCtx → Result
  | 0, _ => none
  | n + 1, ctx =>
    match parserRel env n ctx with
    | none => none
    | some (node, ctx1) => parserEqualityLoop env n node ctx1

/-- The `while` loop of `parserEquality`. -/
def parserEqualityLoop (env : Env) : Nat → Ast → ParserCtx → Result
  | 0, _, _ => none
  | n + 1, node, ctx =>
    if tokenIs ctx "==" || tokenIs ctx "!=" then
      match parserRel env n (tokenDupMatch ctx).2 with
      | none => none
      | some (r, ctx1) => parserEqualityLoop env n (.bop node (tokenDupMatch ctx).1 r) ctx1
    else some (node, ctx)

/-- Rel = Expr [{ ">" | ">=" | "<" | "<=" Expr }] -/
def parserRel (env : Env) : Nat → ParserCtx → Result
  | 0, _ => none
  | n + 1, ctx =>
    match parserExpr env n ctx with
    | none => none
    | some (node, ctx1) => parserRelLoop env n node ctx1

/-- The `while` loop of `parserRel`. -/
def parserRelLoop (env : Env) : Nat → Ast → ParserCtx → Result
  | 0, _, _ => none
  | n + 1, node, ctx =>
    if tokenIs ctx ">" || tokenIs ctx ">=" || tokenIs ctx "<" || tokenIs ctx "<=" then
      match parserExpr env n (tokenDupMatch ctx).2 with
      | none => none
      | some (r, ctx1) => parserRelLoop env n (.bop node (tokenDupMatch ctx).1 r) ctx1
    else some (node, ctx)

/-- Expr = Term [{ "+" | "-" Term }] -/
def parserExpr (env : Env) : Nat → ParserCtx → Result
  | 0, _ => none
  | n + 1, ctx =>
    match parserTerm env n ctx with
    | none => none
    | some (node, ctx1) => parserExprLoop env n node ctx1

/-- The `while` loop of `parserExpr`. -/
def parserExprLoop (env : Env) : Nat → Ast → ParserCtx → Result
  | 0, _, _ => none
  | n + 1, node, ctx =>
    if tokenIs ctx "+" || tokenIs ctx "-" then
      match parserTerm env n (tokenDupMatch ctx).2 with
      | none => none
      | some (r, ctx1) => parserExprLoop env n (.bop node (tokenDupMatch ctx).1 r) ctx1
    else some (node, ctx)

/-- Term = Unary [{ "*" | "/" Unary }] -/
def parserTerm (env : Env) : Nat → ParserCtx → Result
  | 0, _ => none
  | n + 1, ctx =>
    match parserUnary env n ctx with
    | none => none
    | some (node, ctx1) => parserTermLoop env n node ctx1

/-- The `while` loop of `parserTerm`. -/
def parserTermLoop (env : Env) : Nat → Ast → ParserCtx → Result
  | 0, _, _ => none
  | n + 1, node, ctx =>
    if tokenIs ctx "*" || tokenIs ctx "/" then
      match parserUnary env n (tokenDupMatch ctx).2 with
      | none => none
      | some (r, ctx1) => parserTermLoop env n (.bop node (tokenDupMatch ctx).1 r) ctx1
    else some (node, ctx)

/-- Unary = ( "!" | "-" | "*" | "&" Unary ) | Object [{ "++" | "--" }] -/
def parserUnary (env : Env) : Nat → ParserCtx → Result
  | 0, _ => none
  | n + 1, ctx =>
    if tokenIs ctx "!" || tokenIs ctx "-" || tokenIs ctx "*" || tokenIs ctx "&" then
      match parserUnary env n (tokenDupMatch ctx).2 with
      | none => none
      | some (r, ctx1) => parserUnaryPostfix n (.uop (tokenDupMatch ctx).1 r) ctx1
    else
      match parserObject env n ctx with
      | none => none
      | some (node, ctx1) => parserUnaryPostfix n node ctx1

/-- Object = Factor [{ ( "[" Value "]" ) | ( "." <Ident> ) | ( "->" <Ident> ) }] -/
def parserObject (env : Env) : Nat → ParserCtx → Result
  | 0, _ => none
  | n + 1, ctx =>
    match parserFactor env n ctx with
    | none => none
    | some (node, ctx1) => parserObjectLoop env n node ctx1

/-- The `while` loop of `parserObject`.  In the member branch the field name
is the text of the token after the operator, read before that token is
classified. -/
def parserObjectLoop (env : Env) : Nat → Ast → ParserCtx → Result
  | 0, _, _ => none
  | n + 1, node, ctx =>
    if tokenIs ctx "[" || tokenIs ctx "." || tokenIs ctx "->" then
      if (tokenTryMatchStr ctx "[").1 then
        match parserValue env n (tokenTryMatchStr ctx "[").2 with
        | none => none
        | some (i, ctx1) =>
          parserObjectLoop env n (.index node i) (tokenMatchStr ctx1 "]")
      else
        let ctx1 := (tokenDupMatch (tokenTryMatchStr ctx "[").2).2
        let node1 := Ast.bop node (tokenDupMatch (tokenTryMatchStr ctx "[").2).1
                      (.literalIdent ctx1.cur.text none)
        if tokenIsIdent ctx1 then
          parserObjectLoop env n node1 (tokenMatch ctx1)
        else
          parserObjectLoop env n node1 (tokenNext (errorExpected ctx1 "field name"))
    else some (node, ctx)

/-- Factor =   ( "(" Value ")" )
            | ( "(" Type ")" Object )
            | ( "{" [ Value [{ "," Value }] ] "}" )
            | <Int>
            | <Bool>
            | ( <Ident> [ "(" [ Value [{ "," Value }] ] ")" ] ) -/
def parserFactor (env : Env) : Nat → ParserCtx → Result
  | 0, _ => none
  | n + 1, ctx =>
    /- Cast or parenthesized expression -/
    if (tokenTryMatchStr ctx "(").1 then
      let ctx1 := (tokenTryMatchStr ctx "(").2
      if env.tokenIsDecl ctx1 then
        match parserObject env n (tokenMatchStr (env.parserType ctx1).2 ")") with
        | none => none
        | some (r, ctx2) => some (.cast (env.parserType ctx1).1 r, ctx2)
      else
        match parserValue env n ctx1 with
        | none => none
        | some (node, ctx2) => some (node, tokenMatchStr ctx2 ")")
    /- Struct/array literal -/
    else if (tokenTryMatchStr ctx "\x7b").1 then
      match parserChildren env n (.literalArray []) (tokenTryMatchStr ctx "\x7b").2 with
      | none => none
      | some (node, ctx1) => some (node, tokenMatchStr ctx1 "\x7d")
    /- Integer literal: the payload is the C `int` returned by `tokenMatchInt` -/
    else if tokenIsInt ctx then
      some (.literalInt (tokenMatchInt ctx).1, (tokenMatchInt ctx).2)
    /- Boolean literal -/
    else if tokenIs ctx "true" || tokenIs ctx "false" then
      some (.literalBool (tokenIs ctx "true"), tokenMatch ctx)
    /- Identifier or function call -/
    else if tokenIsIdent ctx then
      let node := Ast.literalIdent ctx.cur.text (env.symFind ctx.cur.text)
      let ctx1 := if (env.symFind ctx.cur.text).isSome then tokenMatch ctx
                  else tokenNext (errorUndefSym ctx)
      /- Actually it was a function call -/
      if tokenIs ctx1 "(" then
        if !tokenIs (tokenMatch ctx1) ")" then
          match parserChildren env n (.call node []) (tokenMatch ctx1) with
          | none => none
          | some (call, ctx2) => some (call, tokenMatchStr ctx2 ")")
        else some (.call node [], tokenMatchStr (tokenMatch ctx1) ")")
      else some (node, ctx1)
    else
      some (.invalid, tokenNext (errorExpected ctx "expression"))

/-- The loop shared by the aggregate literal and the call arguments:
`do astAddChild(Node, parserValue(ctx)); while (tokenTryMatchStr(ctx, ","));`. -/
def parserChildren (env : Env) : Nat → Ast → ParserCtx → Result
  | 0, _, _ => none
  | n + 1, node, ctx =>
    match parserValue env n ctx with
    | none => none
    | some (child, ctx1) =>
      if (tokenTryMatchStr ctx1 ",").1 then
        parserChildren env n (astAddChild node child) (tokenTryMatchStr ctx1 ",").2
      else some (astAddChild node child, (tokenTryMatchStr ctx1 ",").2)

end

/-! ## Reading the parser on well-formed input -/

/-- Text of the first token of a token list (the empty text at end of file). -/
def peek (ts : List Token) : String := (ts.headD Token.eof).text

/-- An operator or punctuation token with the given text. -/
def opTok (s : String) : Token := ⟨.other, s⟩

/-- `Parses p c cont seg node d`: from fuel `c` on, routine `p` started on the
tokens `seg` followed by anything whose first token is not in `cont` consumes
exactly `seg`, returns `node` and reports the diagnostics `d`. -/
def Parses (p : Nat → ParserCtx → Result) (c : Nat) (cont : List String)
    (seg : List Token) (node : Ast) (d : List Diag) : Prop :=
  ∀ (k : Nat) (rest : List Token) (errs : List Diag), peek rest ∉ cont →
    p (c + k) ⟨seg ++ rest, errs⟩ = some (node, ⟨rest, errs ++ d⟩)

/-- The common shape of the five binary-operator loops. -/
def binLoop (ops : List String) (next : Nat → ParserCtx → Result) :
    Nat → Ast → ParserCtx → Result
  | 0, _, _ => none
  | n + 1, node, ctx =>
    if ops.any (tokenIs ctx) then
      match next n (tokenDupMatch ctx).2 with
      | none => none
      | some (r, ctx1) => binLoop ops next n (.bop node (tokenDupMatch ctx).1 r) ctx1
    else some (node, ctx)

/-- The common shape of the five binary-operator levels. -/
def binLevel (ops : List String) (next : Nat → ParserCtx → Result) :
    Nat → ParserCtx → Result
  | 0, _ => none
  | n + 1, ctx =>
    match next n ctx with
    | none => none
    | some (node, ctx1) => binLoop ops next n node ctx1

/-- One further operand of a binary chain: operator text, operand tokens and
the operand's tree. -/
abbrev Item := String × List Token × Ast

/-- The tokens of a list of chain items. -/
def flatItems : List Item → List Token
  | [] => []
  | it :: its => opTok it.1 :: (it.2.1 ++ flatItems its)

/-- Left fold of chain items onto a first operand. -/
def foldItems (acc : Ast) (items : List Item) : Ast :=
  items.foldl (fun a it => Ast.bop a it.1 it.2.2) acc

/-! ### Primary tokens -/

/-- The texts `parserUnary` and `parserFactor` test before they look at the
class of the token: the prefix operators and the two opening brackets. -/
def leading : List String := ["!", "-", "*", "&", "(", "\x7b"]

/-- An integer literal token: class `int`; its text is none of `leading`. -/
def Token.isIntLit (t : Token) : Bool := t.kind == .int && !leading.contains t.text

/-- An identifier token: class `ident`; its text is none of `leading` and
not one of the boolean literals `true` and `false`. -/
def Token.isIdent (t : Token) : Bool :=
  t.kind == .ident && !leading.contains t.text && t.text != "true" && t.text != "false"

/-- An integer literal or an identifier with a binding in scope. -/
def operand (env : Env) (t : Token) : Bool :=
  t.isIntLit || (t.isIdent && (env.symFind t.text).isSome)

/-- The leaf built for a primary token. -/
def primaryNode (env : Env) (t : Token) : Ast :=
  if t.kind = .int then .literalInt (atoi t.text)
  else .literalIdent t.text (env.symFind t.text)

/-- The diagnostics of a primary token: one undefined-symbol report for an
identifier without a binding, none otherwise. -/
def primaryDiag (env : Env) (t : Token) : List Diag :=
  if t.kind = .int then []
  else if (env.symFind t.text).isSome then [] else [Diag.undefSym t.text]

/-- The tokens at which a bare primary continues into a larger unary
expression: a call, a postfix step, or `++`/`--`. -/
def contUnary : List String := ["++", "--", "[", ".", "->", "("]

/-! ### The precedence ladder -/

/-- Operator sets of the five binary levels, tightest first:
Term, Expr, Rel, Equality, Bool. -/
def levelOps : Nat → List String
  | 0 => ["*", "/"]
  | 1 => ["+", "-"]
  | 2 => [">", ">=", "<", "<="]
  | 3 => ["==", "!="]
  | _ => ["&&", "||"]

/-- The routine below and at each binary level: `0` is `parserUnary`,
`1` is `parserTerm`, and so on up to `5`, `parserBool`. -/
def parserLevel (env : Env) : Nat → Nat → ParserCtx → Result
  | 0 => parserUnary env
  | i + 1 => binLevel (levelOps i) (parserLevel env i)

/-- The tokens that continue an expression of the given level. -/
def contLevel : Nat → List String
  | 0 => contUnary
  | i + 1 => levelOps i ++ contLevel i

/-- The assignment operators. -/
def assignOps : List String := ["=", "+=", "-=", "*=", "/="]

/-- The tokens that continue an expression of Ternary level. -/
def contTernary : List String := "?" :: contLevel 5

/-- The tokens that continue an expression of Assign (and Value) level. -/
def contAssign : List String := assignOps ++ contTernary

/-! ### Statements about binary chains -/

/-- The five binary levels of the ladder. -/
inductive Level where
  | term
  | expr
  | rel
  | equality
  | bool
deriving DecidableEq, Repr

/-- Position in the ladder, the tightest level first. -/
def Level.rank : Level → Nat
  | .term => 0
  | .expr => 1
  | .rel => 2
  | .equality => 3
  | .bool => 4

/-- Operator set of a level, as tested by the loop of its routine. -/
def Level.ops (L : Level) : List String := levelOps L.rank

/-- The leaf of an integer literal token. -/
def intNode (t : Token) : Ast := .literalInt (atoi t.text)

/-- Tokens `o1 x1 ... on xn` of a chain of operators and single-token
operands. -/
def chainTokens : List (String × Token) → List Token
  | [] => []
  | s :: ss => opTok s.1 :: s.2 :: chainTokens ss

/-- `BinaryOp(on, BinaryOp(..., BinaryOp(o1, acc, x1) ...), xn)`. -/
def leftFold (leaf : Token → Ast) (acc : Ast) (steps : List (String × Token)) : Ast :=
  steps.foldl (fun a s => Ast.bop a s.1 (leaf s.2)) acc

/-- Items of a chain whose operands are single operand tokens. -/
def stepItems (env : Env) (steps : List (String × Token)) : List Item :=
  steps.map (fun s => (s.1, [s.2], primaryNode env s.2))

/-- `BinaryOp(o1, x0, BinaryOp(o2, x1, ... BinaryOp(on, x(n-1), xn)))`. -/
def rightFold (leaf : Token → Ast) : Token → List (String × Token) → Ast
  | x0, [] => leaf x0
  | x0, s :: ss => .bop (leaf x0) s.1 (rightFold leaf s.2 ss)

/-- Tokens `c1 ? t1 : c2 ? t2 : ... cn ? tn : f` of a chain of conditionals
over single-token operands. -/
def ternaryTokens : List (Token × Token) → Token → List Token
  | [], f => [f]
  | b :: bs, f => b.1 :: opTok "?" :: b.2 :: opTok ":" :: ternaryTokens bs f

/-- `TernaryOp(c1, t1, TernaryOp(c2, t2, ... TernaryOp(cn, tn, f)))`. -/
def ternaryTree (leaf : Token → Ast) : List (Token × Token) → Token → Ast
  | [], f => leaf f
  | b :: bs, f => .top (leaf b.1) (leaf b.2) (ternaryTree leaf bs f)

/-- The prefix operators of `parserUnary`. -/
def prefixOps : List String := ["!", "-", "*", "&"]

/-- The postfix operators of `parserUnary`. -/
def postfixOps : List String := ["++", "--"]

/-- `UnaryOp(p1, ... UnaryOp(pn, UnaryOp(qm, ... UnaryOp(q1, x) ...)) ...)`. -/
def unaryTree (ps : List String) (x : Ast) (qs : List String) : Ast :=
  ps.foldr (fun p a => Ast.uop p a) (qs.foldl (fun a q => Ast.uop q a) x)

/-- One postfix step of `parserObject`: `[ i ]` with a single-token
subscript, or a member access `. f` / `-> f`. -/
inductive Step where
  | index (i : Token)
  | member (op : String) (f : Token)
deriving DecidableEq, Repr

/-- The tokens of one postfix step. -/
def Step.tokens : Step → List Token
  | .index i => [opTok "[", i, opTok "]"]
  | .member op f => [opTok op, f]

/-- The node of one postfix step over its base: `Index(base, i)` or
`BinaryOp(op, base, Literal(Ident f))`, the field name without a symbol
reference. -/
def Step.node (base : Ast) : Step → Ast
  | .index i => .index base (intNode i)
  | .member op f => .bop base op (.literalIdent f.text none)

/-- A well-formed step: the subscript is an integer literal; the member
operator is `.` or `->` and the field name is a token of class `ident`. -/
def Step.ok : Step → Bool
  | .index i => i.isIntLit
  | .member op f => (op == "." || op == "->") && f.kind == .ident

/-- The tokens of a list of postfix steps, in source order. -/
def stepsTokens (steps : List Step) : List Token :=
  steps.foldr (fun s ts => s.tokens ++ ts) []

/-- The left-nested chain of postfix steps over a base. -/
def stepsTree (base : Ast) (steps : List Step) : Ast :=
  steps.foldl (fun a s => s.node a) base

/-- The tokens that continue a postfix chain, and `(`, which turns a bare
identifier into a call. -/
def contObject : List String := ["[", ".", "->", "("]

/-- The diagnostics of an identifier primary: one undefined-symbol report
when the lookup fails, none when it succeeds. -/
def undefDiag (env : Env) (t : Token) : List Diag :=
  if (env.symFind t.text).isSome then [] else [Diag.undefSym t.text]

/-- `ParsesBefore p c stops seg node d`: from fuel `c` on, routine `p`
started on the tokens `seg` followed by a token whose text is in `stops`
consumes exactly `seg`, returns `node` and reports the diagnostics `d`. -/
def ParsesBefore (p : Nat → ParserCtx → Result) (c : Nat) (stops : List String)
    (seg : List Token) (node : Ast) (d : List Diag) : Prop :=
  ∀ (k : Nat) (rest : List Token) (errs : List Diag), peek rest ∈ stops →
    p (c + k) ⟨seg ++ rest, errs⟩ = some (node, ⟨rest, errs ++ d⟩)

/-- One element of a comma-separated list: its tokens, the node
`parserValue` returns for them and the diagnostics it reports. -/
abbrev Arg := List Token × Ast × List Diag

/-- The tokens `e1 , e2 , ... , en` of a comma-separated list. -/
def argTokens : List Arg → List Token
  | [] => []
  | a :: as =>
    match as with
    | [] => a.1
    | _ :: _ => a.1 ++ opTok "," :: argTokens as

/-- The nodes of the elements, in source order. -/
def argNodes (args : List Arg) : List Ast := args.map (fun a => a.2.1)

/-- The diagnostics of the elements, in source order. -/
def argDiags : List Arg → List Diag
  | [] => []
  | a :: as => a.2.2 ++ argDiags as

/-- The diagnostics of a member access whose field token is `t`: one
missing-field-name report unless `t` is an identifier. -/
def fieldDiag (t : Token) : List Diag :=
  if t.kind = .ident then [] else [Diag.expected "field name"]

/-- A type accepted by the classifier: whenever the tokens `ty` are at the
cursor, `tokenIsDecl` says yes and `parserType` consumes exactly `ty`,
returns the descriptor `dt` and reports nothing. -/
def AcceptsType (env : Env) (ty : List Token) (dt : TypeDesc) : Prop :=
  ∀ (rest : List Token) (errs : List Diag),
    env.tokenIsDecl ⟨ty ++ rest, errs⟩ = true ∧ env.parserType ⟨ty ++ rest, errs⟩ = (dt, ⟨rest, errs⟩)

/-- The operator tags a `BinaryOp` may carry. -/
def binTags : List String :=
  ["=", "+=", "-=", "*=", "/=", "&&", "||", "==", "!=", ">", ">=", "<", "<=",
   "+", "-", "*", "/", ".", "->"]

/-- The operator tags a `UnaryOp` may carry. -/
def unTags : List String := ["!", "-", "*", "&", "++", "--"]

mutual

/-- Every operator node of the tree carries a tag of the fixed sets. -/
def Ast.tagsOk : Ast → Bool
  | .invalid => true
  | .bop l o r => binTags.contains o && l.tagsOk && r.tagsOk
  | .uop o r => unTags.contains o && r.tagsOk
  | .top c l r => c.tagsOk && l.tagsOk && r.tagsOk
  | .index l r => l.tagsOk && r.tagsOk
  | .call callee args => callee.tagsOk && tagsOkList args
  | .cast _ r => r.tagsOk
  | .literalInt _ => true
  | .literalBool _ => true
  | .literalIdent _ _ => true
  | .literalArray children => tagsOkList children

/-- `Ast.tagsOk` on every tree of a list. -/
def tagsOkList : List Ast → Bool
  | [] => true
  | a :: as => a.tagsOk && tagsOkList as

end

mutual

/-- The tree has no `Invalid` node and every `Literal(Ident)` other than the
right operand of a `.`/`->` node has a symbol reference.  The flag says that
the tree is the right operand of a `.`/`->` node. -/
def Ast.cleanAux : Bool → Ast → Bool
  | _, .invalid => false
  | _, .bop l o r => l.cleanAux false && r.cleanAux (o == "." || o == "->")
  | _, .uop _ r => r.cleanAux false
  | _, .top c l r => c.cleanAux false && l.cleanAux false && r.cleanAux false
  | _, .index l r => l.cleanAux false && r.cleanAux false
  | _, .call callee args => callee.cleanAux false && cleanList args
  | _, .cast _ r => r.cleanAux false
  | _, .literalInt _ => true
  | _, .literalBool _ => true
  | field, .literalIdent _ symbol => field || symbol.isSome
  | _, .literalArray children => cleanList children

/-- `Ast.cleanAux false` on every tree of a list. -/
def cleanList : List Ast → Bool
  | [] => true
  | a :: as => a.cleanAux false && cleanList as

end

/-- No `Invalid` node and no unresolved primary identifier. -/
def Ast.clean (a : Ast) : Bool := a.cleanAux false

/-- The cursor only moves forward and diagnostics are only added. -/
def IsStep (a b : ParserCtx) : Prop :=
  b.tokens <:+ a.tokens ∧ ∃ d, b.errors = a.errors ++ d

/-- The type parser only moves the cursor forward and only adds
diagnostics. -/
def EnvOk (env : Env) : Prop := ∀ ctx, IsStep ctx (env.parserType ctx).2

/-- What holds of the result `r` of a routine started at `ctx`: the rest is a
suffix of the input and strictly shorter unless the input was used up, the
token at the cursor is not in `E`, the operator tags are from the fixed
sets, and without new diagnostics the tree is clean. -/
structure Post (E : List String) (ctx : ParserCtx) (r : Ast × ParserCtx) : Prop where
  step : IsStep ctx r.2
  progress : ctx.tokens ≠ [] → r.2.tokens.length < ctx.tokens.length
  exit : peek r.2.tokens ∉ E
  tags : r.1.tagsOk = true
  clean : r.2.errors = ctx.errors → r.1.clean = true

/-- What holds of the result `r` of a loop started at `ctx` with the tree
`acc` built so far. -/
structure LoopPost (E0 E : List String) (acc : Ast) (ctx : ParserCtx)
    (r : Ast × ParserCtx) : Prop where
  step : IsStep ctx r.2
  exit : peek ctx.tokens ∉ E0 → peek r.2.tokens ∉ E
  tags : acc.tagsOk = true → r.1.tagsOk = true
  clean : acc.clean = true → r.2.errors = ctx.errors → r.1.clean = true

/-- Routine `p` returns at fuel `n` on every context whose remaining input
is short enough for `n`, with a result satisfying `Post`. -/
def Returns (E : List String) (l : Nat) (p : Nat → ParserCtx → Result) (n : Nat) : Prop :=
  ∀ ctx : ParserCtx, 20 * ctx.tokens.length + l ≤ n → ∃ r, p n ctx = some r ∧ Post E ctx r

/-- Loop `p` returns at fuel `n` on every context whose remaining input is
short enough for `n`, with a result satisfying `LoopPost`. -/
def ReturnsLoop (E0 E : List String) (l : Nat) (p : Nat → Ast → ParserCtx → Result)
    (n : Nat) : Prop :=
  ∀ (acc : Ast) (ctx : ParserCtx), 20 * ctx.tokens.length + l ≤ n →
    ∃ r, p n acc ctx = some r ∧ LoopPost E0 E acc ctx r

/-- The tokens before which `parserUnary` and each binary level stop. -/
def exitLevel : Nat → List String
  | 0 => ["++", "--"]
  | i + 1 => levelOps i ++ exitLevel i

/-- The tokens before which `parserTernary` stops. -/
def exitTernary : List String := "?" :: exitLevel 5

/-- The tokens before which `parserAssign` and `parserValue` stop. -/
def exitAssign : List String := assignOps ++ exitTernary

/-- All routines return at fuel `n` on inputs short enough for `n`; the
number next to each routine is its grammar level. -/
structure AllReturn (env : Env) (n : Nat) : Prop where
  factor : Returns [] 1 (parserFactor env) n
  objectLoop : ReturnsLoop [] [] 2 (parserObjectLoop env) n
  object : Returns [] 3 (parserObject env) n
  level : ∀ i, i ≤ 5 → Returns (exitLevel i) (5 + 2 * i) (parserLevel env i) n
  levelLoop : ∀ i, i < 5 → ReturnsLoop (exitLevel i) (exitLevel (i + 1)) (6 + 2 * i)
    (binLoop (levelOps i) (parserLevel env i)) n
  ternary : Returns exitTernary 16 (parserTernary env) n
  assign : Returns exitAssign 17 (parserAssign env) n
  value : Returns exitAssign 18 (parserValue env) n
  children : ReturnsLoop [] [] 19 (parserChildren env) n

/-- The context after the identifier of a primary: the token is consumed by
`tokenMatch` when the lookup succeeded, by `errorUndefSym` and `tokenNext`
when it failed. -/
def afterIdent (env : Env) (ctx : ParserCtx) : ParserCtx :=
  if (env.symFind ctx.cur.text).isSome then tokenMatch ctx else tokenNext (errorUndefSym ctx)

/-- Every call of a parsing routine other than the first descent to the
next-tighter routine at the same cursor: the equation shows the call and the
context it is made at, and that context is strictly shorter than the context
the calling routine (or loop iteration) was started on.  Where the context
of the call depends on the result of an earlier call, the fuel is assumed
large enough for that earlier call. -/
structure Reentries (env : Env) : Prop where
  /-- `parserAssign` calls itself after the assignment operator. -/
  assign : ∀ (n : Nat) (ctx : ParserCtx) (r : Ast × ParserCtx),
    20 * ctx.tokens.length + 16 ≤ n → parserTernary env n ctx = some r →
    (tokenIs r.2 "=" || tokenIs r.2 "+=" || tokenIs r.2 "-="
      || tokenIs r.2 "*=" || tokenIs r.2 "/=") = true →
    parserAssign env (n + 1) ctx
        = (match parserAssign env n (tokenDupMatch r.2).2 with
          | none => none
          | some (x, ctx2) => some (.bop r.1 (tokenDupMatch r.2).1 x, ctx2))
      ∧ (tokenDupMatch r.2).2.tokens.length < ctx.tokens.length
  /-- `parserTernary` calls itself for the true branch after `?`. -/
  ternaryThen : ∀ (n : Nat) (ctx : ParserCtx) (r : Ast × ParserCtx),
    20 * ctx.tokens.length + 15 ≤ n → parserBool env n ctx = some r →
    tokenIs r.2 "?" = true →
    parserTernary env (n + 1) ctx
        = (match parserTernary env n (tokenMatch r.2) with
          | none => none
          | some (l, ctx2) =>
            match parserTernary env n (tokenMatchStr ctx2 ":") with
            | none => none
            | some (x, ctx3) => some (.top r.1 l x, ctx3))
      ∧ (tokenMatch r.2).tokens.length < ctx.tokens.length
  /-- `parserTernary` calls itself for the false branch after the `:`. -/
  ternaryElse : ∀ (n : Nat) (ctx : ParserCtx) (r l : Ast × ParserCtx),
    20 * ctx.tokens.length + 15 ≤ n → parserBool env n ctx = some r →
    tokenIs r.2 "?" = true → parserTernary env n (tokenMatch r.2) = some l →
    (tokenMatchStr l.2 ":").tokens.length < ctx.tokens.length
  /-- The loop of `parserBool` calls `parserEquality` after the operator. -/
  boolLoop : ∀ (n : Nat) (acc : Ast) (ctx : ParserCtx),
    (tokenIs ctx "&&" || tokenIs ctx "||") = true →
    parserBoolLoop env (n + 1) acc ctx
        = (match parserEquality env n (tokenDupMatch ctx).2 with
          | none => none
          | some (x, ctx1) => parserBoolLoop env n (.bop acc (tokenDupMatch ctx).1 x) ctx1)
      ∧ (tokenDupMatch ctx).2.tokens.length < ctx.tokens.length
  /-- The loop of `parserEquality` calls `parserRel` after the operator. -/
  equalityLoop : ∀ (n : Nat) (acc : Ast) (ctx : ParserCtx),
    (tokenIs ctx "==" || tokenIs ctx "!=") = true →
    parserEqualityLoop env (n + 1) acc ctx
        = (match parserRel env n (tokenDupMatch ctx).2 with
          | none => none
          | some (x, ctx1) => parserEqualityLoop env n (.bop acc (tokenDupMatch ctx).1 x) ctx1)
      ∧ (tokenDupMatch ctx).2.tokens.length < ctx.tokens.length
  /-- The loop of `parserRel` calls `parserExpr` after the operator. -/
  relLoop : ∀ (n : Nat) (acc : Ast) (ctx : ParserCtx),
    (tokenIs ctx ">" || tokenIs ctx ">=" || tokenIs ctx "<" || tokenIs ctx "<=") = true →
    parserRelLoop env (n + 1) acc ctx
        = (match parserExpr env n (tokenDupMatch ctx).2 with
          | none => none
          | some (x, ctx1) => parserRelLoop env n (.bop acc (tokenDupMatch ctx).1 x) ctx1)
      ∧ (tokenDupMatch ctx).2.tokens.length < ctx.tokens.length
  /-- The loop of `parserExpr` calls `parserTerm` after the operator. -/
  exprLoop : ∀ (n : Nat) (acc : Ast) (ctx : ParserCtx),
    (tokenIs ctx "+" || tokenIs ctx "-") = true →
    parserExprLoop env (n + 1) acc ctx
        = (match parserTerm env n (tokenDupMatch ctx).2 with
          | none => none
          | some (x, ctx1) => parserExprLoop env n (.bop acc (tokenDupMatch ctx).1 x) ctx1)
      ∧ (tokenDupMatch ctx).2.tokens.length < ctx.tokens.length
  /-- The loop of `parserTerm` calls `parserUnary` after the operator. -/
  termLoop : ∀ (n : Nat) (acc : Ast) (ctx : ParserCtx),
    (tokenIs ctx "*" || tokenIs ctx "/") = true →
    parserTermLoop env (n + 1) acc ctx
        = (match parserUnary env n (tokenDupMatch ctx).2 with
          | none => none
          | some (x, ctx1) => parserTermLoop env n (.bop acc (tokenDupMatch ctx).1 x) ctx1)
      ∧ (tokenDupMatch ctx).2.tokens.length < ctx.tokens.length
  /-- `parserUnary` calls itself after the prefix operator. -/
  unary : ∀ (n : Nat) (ctx : ParserCtx),
    (tokenIs ctx "!" || tokenIs ctx "-" || tokenIs ctx "*" || tokenIs ctx "&") = true →
    parserUnary env (n + 1) ctx
        = (match parserUnary env n (tokenDupMatch ctx).2 with
          | none => none
          | some (x, ctx1) => parserUnaryPostfix n (.uop (tokenDupMatch ctx).1 x) ctx1)
      ∧ (tokenDupMatch ctx).2.tokens.length < ctx.tokens.length
  /-- The loop of `parserObject` calls `parserValue` after `[`. -/
  index : ∀ (n : Nat) (acc : Ast) (ctx : ParserCtx), tokenIs ctx "[" = true →
    parserObjectLoop env (n + 1) acc ctx
        = (match parserValue env n (tokenMatch ctx) with
          | none => none
          | some (i, ctx1) => parserObjectLoop env n (.index acc i) (tokenMatchStr ctx1 "]"))
      ∧ (tokenMatch ctx).tokens.length < ctx.tokens.length
  /-- `parserFactor` calls `parserValue` after `(`. -/
  paren : ∀ (n : Nat) (ctx : ParserCtx), tokenIs ctx "(" = true →
    env.tokenIsDecl (tokenMatch ctx) = false →
    parserFactor env (n + 1) ctx
        = (match parserValue env n (tokenMatch ctx) with
          | none => none
          | some (node, ctx2) => some (node, tokenMatchStr ctx2 ")"))
      ∧ (tokenMatch ctx).tokens.length < ctx.tokens.length
  /-- `parserFactor` calls `parserObject` after `(`, the type and `)`. -/
  cast : ∀ (n : Nat) (ctx : ParserCtx), tokenIs ctx "(" = true →
    env.tokenIsDecl (tokenMatch ctx) = true →
    parserFactor env (n + 1) ctx
        = (match parserObject env n (tokenMatchStr (env.parserType (tokenMatch ctx)).2 ")") with
          | none => none
          | some (x, ctx2) => some (.cast (env.parserType (tokenMatch ctx)).1 x, ctx2))
      ∧ (tokenMatchStr (env.parserType (tokenMatch ctx)).2 ")").tokens.length
          < ctx.tokens.length
  /-- `parserFactor` starts the element loop after the opening brace. -/
  array : ∀ (n : Nat) (ctx : ParserCtx), tokenIs ctx "\x7b" = true →
    parserFactor env (n + 1) ctx
        = (match parserChildren env n (.literalArray []) (tokenMatch ctx) with
          | none => none
          | some (node, ctx1) => some (node, tokenMatchStr ctx1 "\x7d"))
      ∧ (tokenMatch ctx).tokens.length < ctx.tokens.length
  /-- `parserFactor` starts the argument loop after the identifier and `(`. -/
  call : ∀ (n : Nat) (ctx : ParserCtx), tokenIs ctx "(" = false → tokenIs ctx "\x7b" = false →
    tokenIsInt ctx = false → (tokenIs ctx "true" || tokenIs ctx "false") = false →
    tokenIsIdent ctx = true → tokenIs (afterIdent env ctx) "(" = true →
    tokenIs (tokenMatch (afterIdent env ctx)) ")" = false →
    parserFactor env (n + 1) ctx
        = (match parserChildren env n
              (.call (.literalIdent ctx.cur.text (env.symFind ctx.cur.text)) [])
              (tokenMatch (afterIdent env ctx)) with
          | none => none
          | some (node, ctx2) => some (node, tokenMatchStr ctx2 ")"))
      ∧ (tokenMatch (afterIdent env ctx)).tokens.length < ctx.tokens.length
  /-- The element loop calls `parserValue` at the context it is started on,
  and for a further element after the comma. -/
  element : ∀ (n : Nat) (node : Ast) (ctx : ParserCtx) (r : Ast × ParserCtx),
    20 * ctx.tokens.length + 18 ≤ n → parserValue env n ctx = some r →
    tokenIs r.2 "," = true →
    parserChildren env (n + 1) node ctx
        = parserChildren env n (astAddChild node r.1) (tokenMatch r.2)
      ∧ (tokenMatch r.2).tokens.length < ctx.tokens.length

/-! ## Theorems -/

theorem parserTermLoop_eq (env : Env) (n : Nat) (node : Ast) (ctx : ParserCtx) :
    parserTermLoop env n node ctx = binLoop ["*", "/"] (parserUnary env) n node ctx := by
  induction n generalizing node ctx with
  | zero => simp [parserTermLoop, binLoop]
  | succ n ih => simp [parserTermLoop, binLoop, ih]

theorem parserExprLoop_eq (env : Env) (n : Nat) (node : Ast) (ctx : ParserCtx) :
    parserExprLoop env n node ctx = binLoop ["+", "-"] (parserTerm env) n node ctx := by
  induction n generalizing node ctx with
  | zero => simp [parserExprLoop, binLoop]
  | succ n ih => simp [parserExprLoop, binLoop, ih]

theorem parserRelLoop_eq (env : Env) (n : Nat) (node : Ast) (ctx : ParserCtx) :
    parserRelLoop env n node ctx =
      binLoop [">", ">=", "<", "<="] (parserExpr env) n node ctx := by
  induction n generalizing node ctx with
  | zero => simp [parserRelLoop, binLoop]
  | succ n ih => simp [parserRelLoop, binLoop, ih, Bool.or_assoc]

theorem parserEqualityLoop_eq (env : Env) (n : Nat) (node : Ast) (ctx : ParserCtx) :
    parserEqualityLoop env n node ctx = binLoop ["==", "!="] (parserRel env) n node ctx := by
  induction n generalizing node ctx with
  | zero => simp [parserEqualityLoop, binLoop]
  | succ n ih => simp [parserEqualityLoop, binLoop, ih]

theorem parserBoolLoop_eq (env : Env) (n : Nat) (node : Ast) (ctx : ParserCtx) :
    parserBoolLoop env n node ctx = binLoop ["&&", "||"] (parserEquality env) n node ctx := by
  induction n generalizing node ctx with
  | zero => simp [parserBoolLoop, binLoop]
  | succ n ih => simp [parserBoolLoop, binLoop, ih]

theorem parserTerm_eq (env : Env) (n : Nat) (ctx : ParserCtx) :
    parserTerm env n ctx = binLevel ["*", "/"] (parserUnary env) n ctx := by
  cases n with
  | zero => simp [parserTerm, binLevel]
  | succ n => simp only [parserTerm, binLevel, parserTermLoop_eq]

theorem parserExpr_eq (env : Env) (n : Nat) (ctx : ParserCtx) :
    parserExpr env n ctx = binLevel ["+", "-"] (parserTerm env) n ctx := by
  cases n with
  | zero => simp [parserExpr, binLevel]
  | succ n => simp only [parserExpr, binLevel, parserExprLoop_eq]

theorem parserRel_eq (env : Env) (n : Nat) (ctx : ParserCtx) :
    parserRel env n ctx = binLevel [">", ">=", "<", "<="] (parserExpr env) n ctx := by
  cases n with
  | zero => simp [parserRel, binLevel]
  | succ n => simp only [parserRel, binLevel, parserRelLoop_eq]

theorem parserEquality_eq (env : Env) (n : Nat) (ctx : ParserCtx) :
    parserEquality env n ctx = binLevel ["==", "!="] (parserRel env) n ctx := by
  cases n with
  | zero => simp [parserEquality, binLevel]
  | succ n => simp only [parserEquality, binLevel, parserEqualityLoop_eq]

theorem parserBool_eq (env : Env) (n : Nat) (ctx : ParserCtx) :
    parserBool env n ctx = binLevel ["&&", "||"] (parserEquality env) n ctx := by
  cases n with
  | zero => simp [parserBool, binLevel]
  | succ n => simp only [parserBool, binLevel, parserBoolLoop_eq]

@[simp] theorem peek_nil : peek [] = "" := rfl

@[simp] theorem peek_cons (t : Token) (ts : List Token) : peek (t :: ts) = t.text := rfl

@[simp] theorem tokenIs_mk (ts : List Token) (errs : List Diag) (s : String) :
    tokenIs ⟨ts, errs⟩ s = (peek ts == s) := rfl

@[simp] theorem tokenDupMatch_cons (t : Token) (ts : List Token) (errs : List Diag) :
    tokenDupMatch ⟨t :: ts, errs⟩ = (t.text, ⟨ts, errs⟩) := rfl

@[simp] theorem tokenMatch_cons (t : Token) (ts : List Token) (errs : List Diag) :
    tokenMatch ⟨t :: ts, errs⟩ = ⟨ts, errs⟩ := rfl

@[simp] theorem tokenNext_cons (t : Token) (ts : List Token) (errs : List Diag) :
    tokenNext ⟨t :: ts, errs⟩ = ⟨ts, errs⟩ := rfl

theorem any_tokenIs (ops : List String) (ts : List Token) (errs : List Diag) :
    ops.any (tokenIs ⟨ts, errs⟩) = decide (peek ts ∈ ops) := by
  rw [Bool.eq_iff_iff]
  simp [tokenIs, ParserCtx.cur, peek]

theorem peek_flatItems (items : List Item) (rest : List Token) :
    peek (flatItems items ++ rest) = match items with
      | [] => peek rest
      | it :: _ => it.1 := by
  cases items <;> simp [flatItems, opTok]

theorem Parses.mono {p : Nat → ParserCtx → Result} {c : Nat} {cont : List String}
    {seg : List Token} {node : Ast} {d : List Diag} (h : Parses p c cont seg node d)
    (j : Nat) : Parses p (c + j) cont seg node d := by
  intro k rest errs hk
  rw [Nat.add_assoc]
  exact h (j + k) rest errs hk

theorem Parses.weaken {p : Nat → ParserCtx → Result} {c : Nat} {cont cont1 : List String}
    {seg : List Token} {node : Ast} {d : List Diag} (h : Parses p c cont seg node d)
    (hsub : ∀ s, s ∈ cont → s ∈ cont1) : Parses p c cont1 seg node d := by
  intro k rest errs hk
  exact h k rest errs (fun hc => hk (hsub _ hc))

/-- The loop of a binary level folds the items to the left. -/
theorem binLoop_items (ops cont : List String) (next : Nat → ParserCtx → Result) (c : Nat)
    (hdisj : ∀ o, o ∈ ops → o ∉ cont) (items : List Item)
    (hitems : ∀ it, it ∈ items → it.1 ∈ ops ∧ Parses next c cont it.2.1 it.2.2 [])
    (acc : Ast) (k : Nat) (rest : List Token) (errs : List Diag)
    (hops : peek rest ∉ ops) (hcont : peek rest ∉ cont) :
    binLoop ops next (c + items.length + 1 + k) acc ⟨flatItems items ++ rest, errs⟩
      = some (foldItems acc items, ⟨rest, errs⟩) := by
  induction items generalizing acc with
  | nil =>
    have hf : c + ([] : List Item).length + 1 + k = (c + k) + 1 := by simp; omega
    rw [hf]
    simp [binLoop, any_tokenIs, flatItems, foldItems, hops]
  | cons it its ih =>
    have hf : c + (it :: its).length + 1 + k = (c + (its.length + 1 + k)) + 1 := by
      simp; omega
    obtain ⟨hop, hp⟩ := hitems it (List.mem_cons_self _ _)
    have hnext : peek (flatItems its ++ rest) ∉ cont := by
      rw [peek_flatItems]
      cases its with
      | nil => exact hcont
      | cons it2 _ =>
        exact hdisj _ (hitems it2 (List.mem_cons_of_mem _ (List.mem_cons_self _ _))).1
    have hstep := hp (its.length + 1 + k) (flatItems its ++ rest) errs hnext
    have ih2 := ih (fun it2 h2 => hitems it2 (List.mem_cons_of_mem _ h2))
      (Ast.bop acc it.1 it.2.2)
    rw [hf]
    simp only [binLoop, any_tokenIs, flatItems, List.cons_append, peek_cons, opTok, hop,
      decide_True, if_true, tokenDupMatch_cons, List.append_assoc, hstep, List.append_nil]
    rw [show c + (its.length + 1 + k) = c + its.length + 1 + k by omega]
    rw [ih2]
    simp [foldItems]

/-- A binary level parses a first operand followed by items as their left
fold, stopping before any token that continues neither this level nor the
operand level. -/
theorem binLevel_parses (ops cont : List String) (next : Nat → ParserCtx → Result) (c : Nat)
    (hdisj : ∀ o, o ∈ ops → o ∉ cont) (seg0 : List Token) (node0 : Ast)
    (h0 : Parses next c cont seg0 node0 []) (items : List Item)
    (hitems : ∀ it, it ∈ items → it.1 ∈ ops ∧ Parses next c cont it.2.1 it.2.2 []) :
    Parses (binLevel ops next) (c + items.length + 2) (ops ++ cont)
      (seg0 ++ flatItems items) (foldItems node0 items) [] := by
  intro k rest errs hk
  have hops : peek rest ∉ ops := fun h => hk (List.mem_append_left _ h)
  have hcont : peek rest ∉ cont := fun h => hk (List.mem_append_right _ h)
  have hf : c + items.length + 2 + k = (c + (items.length + 1 + k)) + 1 := by omega
  have hnext : peek (flatItems items ++ rest) ∉ cont := by
    rw [peek_flatItems]
    cases items with
    | nil => exact hcont
    | cons it2 _ => exact hdisj _ (hitems it2 (List.mem_cons_self _ _)).1
  have hstep := h0 (items.length + 1 + k) (flatItems items ++ rest) errs hnext
  rw [hf]
  simp only [binLevel, List.append_assoc, hstep, List.append_nil]
  rw [show c + (items.length + 1 + k) = c + items.length + 1 + k by omega]
  exact binLoop_items ops cont next c hdisj items hitems node0 k rest errs hops hcont

theorem operand_diag {env : Env} {t : Token} (h : operand env t = true) :
    primaryDiag env t = [] := by
  unfold operand Token.isIntLit Token.isIdent at h
  unfold primaryDiag
  by_cases hk : t.kind = .int
  · simp [hk]
  · simp [hk] at h ⊢
    intro hn
    simp [hn] at h

theorem operand_primary {env : Env} {t : Token} (h : operand env t = true) :
    (t.isIntLit || t.isIdent) = true := by
  unfold operand at h
  cases h1 : t.isIntLit <;> simp_all

theorem parserFactor_primary (env : Env) (t : Token)
    (ht : (t.isIntLit || t.isIdent) = true) :
    Parses (parserFactor env) 1 ["("] [t] (primaryNode env t) (primaryDiag env t) := by
  intro k rest errs hk
  have hk1 : ¬ peek rest = "(" := by simpa using hk
  rw [Nat.add_comm 1 k]
  by_cases hint : t.kind = .int
  · have h1 : t.isIntLit = true := by
      cases h : t.isIntLit
      · simp [h, Token.isIdent, hint] at ht
      · rfl
    simp [Token.isIntLit, leading] at h1
    simp [parserFactor, tokenTryMatchStr, tokenIsInt, tokenMatchInt, ParserCtx.cur, hint, h1,
      primaryNode, primaryDiag]
  · have h1 : t.isIdent = true := by
      cases h : t.isIdent
      · simp [h, Token.isIntLit, hint] at ht
      · rfl
    simp [Token.isIdent, leading] at h1
    by_cases hs : (env.symFind t.text).isSome = true
    · simp [parserFactor, tokenTryMatchStr, tokenIsInt, tokenIsIdent, ParserCtx.cur, hint, h1,
        primaryNode, primaryDiag, hs, hk1]
    · simp [parserFactor, tokenTryMatchStr, tokenIsInt, tokenIsIdent, ParserCtx.cur, hint, h1,
        primaryNode, primaryDiag, hs, hk1, errorUndefSym, tokenNext]

/-- With no postfix step after it, `parserObject` returns what `parserFactor`
returns. -/
theorem parserObject_pass (env : Env) {c : Nat} {cont : List String} {seg : List Token}
    {node : Ast} {d : List Diag} (h : Parses (parserFactor env) c cont seg node d) :
    Parses (parserObject env) (c + 2) ("[" :: "." :: "->" :: cont) seg node d := by
  intro k rest errs hk
  simp only [List.mem_cons, not_or] at hk
  have hstep := h (1 + k) rest errs hk.2.2.2
  have hf : c + 2 + k = (c + (1 + k)) + 1 := by omega
  rw [hf]
  simp only [parserObject, hstep]
  rw [show c + (1 + k) = (c + k) + 1 by omega]
  simp [parserObjectLoop, hk.1, hk.2.1, hk.2.2.1]

/-- With no prefix operator before it and no `++`/`--` after it,
`parserUnary` returns what `parserObject` returns. -/
theorem parserUnary_pass (env : Env) {c : Nat} {cont : List String} {t : Token}
    {seg : List Token} {node : Ast} {d : List Diag}
    (ht : t.text ∉ ["!", "-", "*", "&"])
    (h : Parses (parserObject env) c cont (t :: seg) node d) :
    Parses (parserUnary env) (c + 2) ("++" :: "--" :: cont) (t :: seg) node d := by
  intro k rest errs hk
  simp only [List.mem_cons, not_or] at hk
  simp only [List.mem_cons, not_or, List.mem_nil_iff, not_false_eq_true, and_true] at ht
  have hstep := h (1 + k) rest errs hk.2.2
  have hf : c + 2 + k = (c + (1 + k)) + 1 := by omega
  rw [hf]
  simp only [parserUnary, tokenIs_mk, List.cons_append, peek_cons] at hstep ⊢
  have hp : (t.text == "!" || t.text == "-" || t.text == "*" || t.text == "&") = false := by
    simp [ht]
  rw [if_neg (by simp [hp]), hstep]
  rw [show c + (1 + k) = (c + k) + 1 by omega]
  simp [parserUnaryPostfix, hk.1, hk.2.1]

theorem primary_not_prefixOp {t : Token} (ht : (t.isIntLit || t.isIdent) = true) :
    t.text ∉ ["!", "-", "*", "&"] := by
  simp only [Token.isIntLit, Token.isIdent, leading] at ht
  intro hmem
  simp only [List.mem_cons, List.mem_nil_iff, or_false] at hmem
  rcases hmem with h | h | h | h <;> simp [h] at ht

theorem parserUnary_primary (env : Env) (t : Token)
    (ht : (t.isIntLit || t.isIdent) = true) :
    Parses (parserUnary env) 5 contUnary [t] (primaryNode env t) (primaryDiag env t) :=
  parserUnary_pass env (primary_not_prefixOp ht)
    (parserObject_pass env (parserFactor_primary env t ht))

theorem parserLevel_one (env : Env) : parserLevel env 1 = parserTerm env := by
  funext n ctx
  simp [parserLevel, levelOps, parserTerm_eq]

theorem parserLevel_two (env : Env) : parserLevel env 2 = parserExpr env := by
  funext n ctx
  rw [parserExpr_eq, ← parserLevel_one]
  rfl

theorem parserLevel_three (env : Env) : parserLevel env 3 = parserRel env := by
  funext n ctx
  rw [parserRel_eq, ← parserLevel_two]
  rfl

theorem parserLevel_four (env : Env) : parserLevel env 4 = parserEquality env := by
  funext n ctx
  rw [parserEquality_eq, ← parserLevel_three]
  rfl

theorem parserLevel_five (env : Env) : parserLevel env 5 = parserBool env := by
  funext n ctx
  rw [parserBool_eq, ← parserLevel_four]
  rfl

theorem levelOps_disjoint (i : Nat) (hi : i < 5) (o : String) (ho : o ∈ levelOps i) :
    o ∉ contLevel i := by
  have h5 : i = 0 ∨ i = 1 ∨ i = 2 ∨ i = 3 ∨ i = 4 := by omega
  revert o
  rcases h5 with h | h | h | h | h <;> subst h <;> decide

/-- An operand chain of one level, read at that level. -/
theorem parserLevel_chain (env : Env) (i : Nat) (hi : i < 5) (c : Nat) (seg0 : List Token)
    (node0 : Ast) (h0 : Parses (parserLevel env i) c (contLevel i) seg0 node0 [])
    (items : List Item)
    (hitems : ∀ it, it ∈ items →
      it.1 ∈ levelOps i ∧ Parses (parserLevel env i) c (contLevel i) it.2.1 it.2.2 []) :
    Parses (parserLevel env (i + 1)) (c + items.length + 2) (contLevel (i + 1))
      (seg0 ++ flatItems items) (foldItems node0 items) [] :=
  binLevel_parses (levelOps i) (contLevel i) (parserLevel env i) c (levelOps_disjoint i hi)
    seg0 node0 h0 items hitems

/-- What a level parses, every looser level parses the same way. -/
theorem parserLevel_lift (env : Env) (i j : Nat) (hij : i + j ≤ 5) (c : Nat)
    (seg : List Token) (node : Ast)
    (h : Parses (parserLevel env i) c (contLevel i) seg node []) :
    Parses (parserLevel env (i + j)) (c + 2 * j) (contLevel (i + j)) seg node [] := by
  induction j with
  | zero => simpa using h
  | succ j ih =>
    have h1 := parserLevel_chain env (i + j) (by omega) (c + 2 * j) seg node
      (ih (by omega)) [] (by simp)
    simpa [flatItems, foldItems, Nat.mul_succ, Nat.add_assoc] using h1

theorem Parses.of_le {p : Nat → ParserCtx → Result} {c c1 : Nat} {cont : List String}
    {seg : List Token} {node : Ast} {d : List Diag} (h : Parses p c cont seg node d)
    (hle : c ≤ c1) : Parses p c1 cont seg node d := by
  obtain ⟨j, rfl⟩ := Nat.exists_eq_add_of_le hle
  exact h.mono j

theorem Parses.to {p : Nat → ParserCtx → Result} {c : Nat} {cont : List String}
    {seg : List Token} {node : Ast} {d : List Diag} (c1 : Nat)
    (h : Parses p c cont seg node d) (hle : c ≤ c1) : Parses p c1 cont seg node d :=
  h.of_le hle

/-- Without a `?` after it, `parserTernary` returns what `parserBool` returns. -/
theorem parserTernary_pass (env : Env) {c : Nat} {seg : List Token} {node : Ast}
    (h : Parses (parserBool env) c (contLevel 5) seg node []) :
    Parses (parserTernary env) (c + 1) contTernary seg node [] := by
  intro k rest errs hk
  simp only [contTernary, List.mem_cons, not_or] at hk
  have hstep := h k rest errs hk.2
  rw [show c + 1 + k = (c + k) + 1 by omega]
  simp only [parserTernary, hstep]
  simp [tokenTryMatchStr, hk.1]

/-- Without an assignment operator after it, `parserAssign` returns what
`parserTernary` returns. -/
theorem parserAssign_pass (env : Env) {c : Nat} {seg : List Token} {node : Ast}
    (h : Parses (parserTernary env) c contTernary seg node []) :
    Parses (parserAssign env) (c + 1) contAssign seg node [] := by
  intro k rest errs hk
  simp only [contAssign, List.mem_append, not_or] at hk
  have hstep := h k rest errs hk.2
  rw [show c + 1 + k = (c + k) + 1 by omega]
  simp only [parserAssign, hstep]
  have ha := hk.1
  simp only [assignOps, List.mem_cons, List.mem_nil_iff, or_false, not_or] at ha
  simp [ha]

theorem parserValue_of_assign (env : Env) {c : Nat} {cont : List String} {seg : List Token}
    {node : Ast} {d : List Diag} (h : Parses (parserAssign env) c cont seg node d) :
    Parses (parserValue env) (c + 1) cont seg node d := by
  intro k rest errs hk
  rw [show c + 1 + k = (c + k) + 1 by omega]
  simp only [parserValue]
  exact h k rest errs hk

/-- What a binary level parses, `parserValue` parses the same way. -/
theorem parserValue_of_level (env : Env) (i : Nat) (hi : i ≤ 5) (c : Nat) (seg : List Token)
    (node : Ast) (h : Parses (parserLevel env i) c (contLevel i) seg node []) :
    Parses (parserValue env) (c + 13) contAssign seg node [] := by
  have h5 := parserLevel_lift env i (5 - i) (by omega) c seg node h
  rw [show i + (5 - i) = 5 by omega, parserLevel_five] at h5
  exact (parserValue_of_assign env
    (parserAssign_pass env (parserTernary_pass env h5))).of_le (by omega)

theorem peek_nil_not_contAssign : peek [] ∉ contAssign := by decide

theorem Level.rank_lt (L : Level) : L.rank < 5 := by cases L <;> decide

theorem primaryNode_int {env : Env} {t : Token} (h : t.isIntLit = true) :
    primaryNode env t = intNode t := by
  simp only [Token.isIntLit, Bool.and_eq_true, beq_iff_eq] at h
  simp [primaryNode, intNode, h.1]

theorem operand_of_int (env : Env) {t : Token} (h : t.isIntLit = true) :
    operand env t = true := by simp [operand, h]

/-- A single operand token, read at any level of the ladder. -/
theorem parserLevel_operand (env : Env) (i : Nat) (hi : i ≤ 5) (t : Token)
    (ht : operand env t = true) :
    Parses (parserLevel env i) (5 + 2 * i) (contLevel i) [t] (primaryNode env t) [] := by
  have h0 : Parses (parserLevel env 0) 5 (contLevel 0) [t] (primaryNode env t) [] := by
    have h := parserUnary_primary env t (operand_primary ht)
    rw [operand_diag ht] at h
    exact h
  have h1 := parserLevel_lift env 0 i (by omega) 5 [t] (primaryNode env t) h0
  simpa using h1

theorem flatItems_stepItems (env : Env) (steps : List (String × Token)) :
    flatItems (stepItems env steps) = chainTokens steps := by
  induction steps with
  | nil => rfl
  | cons s ss ih => simp [stepItems, flatItems, chainTokens] at ih ⊢; exact ih

theorem foldItems_stepItems (env : Env) (steps : List (String × Token)) (acc : Ast) :
    foldItems acc (stepItems env steps) = leftFold (primaryNode env) acc steps := by
  simp [foldItems, stepItems, leftFold, List.foldl_map]

theorem leftFold_congr (f g : Token → Ast) (steps : List (String × Token))
    (h : ∀ s, s ∈ steps → f s.2 = g s.2) (acc : Ast) :
    leftFold f acc steps = leftFold g acc steps := by
  induction steps generalizing acc with
  | nil => rfl
  | cons s ss ih =>
    simp only [leftFold, List.foldl_cons] at ih ⊢
    rw [h s (List.mem_cons_self _ _)]
    exact ih (fun s2 h2 => h s2 (List.mem_cons_of_mem _ h2)) _

/-- A chain `x0 o1 x1 ... on xn` of operand tokens joined by operators of
level `i`, read at level `i + 1`. -/
theorem parserLevel_steps (env : Env) (i : Nat) (hi : i < 5) (x0 : Token)
    (steps : List (String × Token)) (hx0 : operand env x0 = true)
    (hsteps : ∀ s, s ∈ steps → s.1 ∈ levelOps i ∧ operand env s.2 = true) :
    Parses (parserLevel env (i + 1)) (5 + 2 * i + steps.length + 2) (contLevel (i + 1))
      (x0 :: chainTokens steps)
      (leftFold (primaryNode env) (primaryNode env x0) steps) [] := by
  have h := parserLevel_chain env i hi (5 + 2 * i) [x0] (primaryNode env x0)
    (parserLevel_operand env i (by omega) x0 hx0) (stepItems env steps) (by
      intro it hit
      simp only [stepItems, List.mem_map] at hit
      obtain ⟨s, hs, rfl⟩ := hit
      exact ⟨(hsteps s hs).1, parserLevel_operand env i (by omega) s.2 (hsteps s hs).2⟩)
  rw [flatItems_stepItems, foldItems_stepItems] at h
  simpa [stepItems] using h

/-- C1: for operators `p` of a strictly tighter level than `q` and integer
literals `x`, `y`, `z`, `parserValue` on `x q y p z` returns
`BinaryOp(q, x, BinaryOp(p, y, z))` and on `x p y q z` returns
`BinaryOp(q, BinaryOp(p, x, y), z)`, consuming all five tokens and
reporting no diagnostic. -/
theorem parserValue_precedence (env : Env) (P Q : Level) (hPQ : P.rank < Q.rank)
    (p q : String) (hp : p ∈ P.ops) (hq : q ∈ Q.ops) (x y z : Token)
    (hx : x.isIntLit = true) (hy : y.isIntLit = true) (hz : z.isIntLit = true)
    (k : Nat) (errs : List Diag) :
    parserValue env (40 + k) ⟨[x, opTok q, y, opTok p, z], errs⟩
        = some (.bop (intNode x) q (.bop (intNode y) p (intNode z)), ⟨[], errs⟩)
    ∧ parserValue env (40 + k) ⟨[x, opTok p, y, opTok q, z], errs⟩
        = some (.bop (.bop (intNode x) p (intNode y)) q (intNode z), ⟨[], errs⟩) := by
  have hP := P.rank_lt
  have hQ := Q.rank_lt
  have ox := operand_of_int env hx
  have oy := operand_of_int env hy
  have oz := operand_of_int env hz
  obtain ⟨j, hj⟩ : ∃ j, Q.rank = P.rank + 1 + j := ⟨Q.rank - (P.rank + 1), by omega⟩
  constructor
  · -- the tighter chain `y p z` is the right operand of `q`
    have hin := parserLevel_steps env P.rank hP y [(p, z)] oy (by
      intro s hs
      simp only [List.mem_singleton] at hs
      subst hs
      exact ⟨hp, oz⟩)
    have hin2 := parserLevel_lift env (P.rank + 1) j (by omega) _ _ _ hin
    rw [← hj] at hin2
    have hout := parserLevel_chain env Q.rank hQ 20 [x] (primaryNode env x)
      ((parserLevel_operand env Q.rank (by omega) x ox).of_le (by omega))
      [(q, y :: chainTokens [(p, z)],
        leftFold (primaryNode env) (primaryNode env y) [(p, z)])] (by
      intro it hit
      simp only [List.mem_singleton] at hit
      subst hit
      exact ⟨hq, hin2.of_le (by simp; omega)⟩)
    have hv := (parserValue_of_level env (Q.rank + 1) (by omega) _ _ _ hout).to 40
      (by simp)
    have := hv k [] errs peek_nil_not_contAssign
    simpa [flatItems, foldItems, leftFold, chainTokens, primaryNode_int, hx, hy, hz] using this
  · -- the tighter chain `x p y` is the left operand of `q`
    have hin := parserLevel_steps env P.rank hP x [(p, y)] ox (by
      intro s hs
      simp only [List.mem_singleton] at hs
      subst hs
      exact ⟨hp, oy⟩)
    have hin2 := parserLevel_lift env (P.rank + 1) j (by omega) _ _ _ hin
    rw [← hj] at hin2
    have hout := parserLevel_chain env Q.rank hQ 20 (x :: chainTokens [(p, y)]) _
      (hin2.of_le (by simp; omega))
      [(q, [z], primaryNode env z)] (by
      intro it hit
      simp only [List.mem_singleton] at hit
      subst hit
      exact ⟨hq, (parserLevel_operand env Q.rank (by omega) z oz).of_le (by omega)⟩)
    have hv := (parserValue_of_level env (Q.rank + 1) (by omega) _ _ _ hout).to 40
      (by simp)
    have := hv k [] errs peek_nil_not_contAssign
    simpa [flatItems, foldItems, leftFold, chainTokens, primaryNode_int, hx, hy, hz] using this

/-- Witness of C1: `1+2*3` has `+` as root with `*` over 2, 3 as right child,
and `2*1+3` has `+` as root with `*` as left child. -/
theorem parserValue_precedence_witness :
    parserValue ⟨fun _ => none, fun _ => false, fun c => (⟨0⟩, c)⟩ (40 + 0)
        ⟨[⟨.int, "1"⟩, opTok "+", ⟨.int, "2"⟩, opTok "*", ⟨.int, "3"⟩], []⟩
        = some (.bop (intNode ⟨.int, "1"⟩) "+"
            (.bop (intNode ⟨.int, "2"⟩) "*" (intNode ⟨.int, "3"⟩)), ⟨[], []⟩)
    ∧ parserValue ⟨fun _ => none, fun _ => false, fun c => (⟨0⟩, c)⟩ (40 + 0)
        ⟨[⟨.int, "1"⟩, opTok "*", ⟨.int, "2"⟩, opTok "+", ⟨.int, "3"⟩], []⟩
        = some (.bop (.bop (intNode ⟨.int, "1"⟩) "*" (intNode ⟨.int, "2"⟩)) "+"
            (intNode ⟨.int, "3"⟩), ⟨[], []⟩) :=
  parserValue_precedence _ Level.term Level.expr (by decide) "*" "+" (by decide) (by decide)
    ⟨.int, "1"⟩ ⟨.int, "2"⟩ ⟨.int, "3"⟩ (by decide) (by decide) (by decide) 0 []

/-- C2: for every binary level and every chain `x0 o1 x1 ... on xn` of
integer literals joined by operators of that level (mixed freely),
`parserValue` returns the left fold
`BinaryOp(on, BinaryOp(..., BinaryOp(o1, x0, x1) ...), xn)`, consuming all
tokens and reporting no diagnostic. -/
theorem parserValue_left_assoc (env : Env) (L : Level) (x0 : Token)
    (steps : List (String × Token)) (hx0 : x0.isIntLit = true)
    (hsteps : ∀ s, s ∈ steps → s.1 ∈ L.ops ∧ s.2.isIntLit = true)
    (k : Nat) (errs : List Diag) :
    parserValue env (steps.length + 30 + k) ⟨x0 :: chainTokens steps, errs⟩
      = some (leftFold intNode (intNode x0) steps, ⟨[], errs⟩) := by
  have hL := L.rank_lt
  have h := parserLevel_steps env L.rank hL x0 steps (operand_of_int env hx0)
    (fun s hs => ⟨(hsteps s hs).1, operand_of_int env (hsteps s hs).2⟩)
  have hv := (parserValue_of_level env (L.rank + 1) (by omega) _ _ _ h).to
    (steps.length + 30) (by omega)
  have := hv k [] errs peek_nil_not_contAssign
  rw [primaryNode_int hx0, leftFold_congr (primaryNode env) intNode steps
    (fun s hs => primaryNode_int (hsteps s hs).2)] at this
  simpa using this

/-- Witness of C2: `1 && 2 || 3` is `(1 && 2) || 3`. -/
theorem parserValue_left_assoc_witness :
    parserValue ⟨fun _ => none, fun _ => false, fun c => (⟨0⟩, c)⟩
        ([("&&", (⟨.int, "2"⟩ : Token)), ("||", ⟨.int, "3"⟩)].length + 30 + 0)
        ⟨⟨.int, "1"⟩ :: chainTokens [("&&", ⟨.int, "2"⟩), ("||", ⟨.int, "3"⟩)], []⟩
      = some (leftFold intNode (intNode ⟨.int, "1"⟩)
          [("&&", ⟨.int, "2"⟩), ("||", ⟨.int, "3"⟩)], ⟨[], []⟩) :=
  parserValue_left_assoc _ Level.bool ⟨.int, "1"⟩ [("&&", ⟨.int, "2"⟩), ("||", ⟨.int, "3"⟩)]
    (by decide) (by decide) 0 []

@[simp] theorem opTok_text (s : String) : (opTok s).text = s := rfl

/-- A single operand token, read by `parserBool`. -/
theorem parserBool_operand (env : Env) (t : Token) (ht : operand env t = true) :
    Parses (parserBool env) 15 (contLevel 5) [t] (primaryNode env t) [] := by
  have h := parserLevel_operand env 5 (by omega) t ht
  rw [parserLevel_five] at h
  exact h

/-- A single operand token, read by `parserTernary`. -/
theorem parserTernary_operand (env : Env) (t : Token) (ht : operand env t = true) :
    Parses (parserTernary env) 16 contTernary [t] (primaryNode env t) [] :=
  parserTernary_pass env (parserBool_operand env t ht)

theorem assignOps_not_contTernary (o : String) (ho : o ∈ assignOps) : o ∉ contTernary := by
  revert o
  decide

theorem peek_chainTokens (steps : List (String × Token)) (rest : List Token) :
    peek (chainTokens steps ++ rest) = match steps with
      | [] => peek rest
      | s :: _ => s.1 := by
  cases steps <;> simp [chainTokens, opTok]

/-- A chain of assignments over operand tokens, read by `parserAssign`. -/
theorem parserAssign_steps (env : Env) (steps : List (String × Token)) (x0 : Token)
    (hx0 : operand env x0 = true)
    (hsteps : ∀ s, s ∈ steps → s.1 ∈ assignOps ∧ operand env s.2 = true) :
    Parses (parserAssign env) (17 + steps.length) contAssign (x0 :: chainTokens steps)
      (rightFold (primaryNode env) x0 steps) [] := by
  induction steps generalizing x0 with
  | nil =>
    simpa [chainTokens, rightFold] using
      parserAssign_pass env (parserTernary_operand env x0 hx0)
  | cons s ss ih =>
    obtain ⟨hop, hs2⟩ := hsteps s (List.mem_cons_self _ _)
    have ih2 := ih s.2 hs2 (fun s2 h2 => hsteps s2 (List.mem_cons_of_mem _ h2))
    intro k rest errs hk
    have hf : 17 + (s :: ss).length + k = (16 + (1 + ss.length + k)) + 1 := by
      simp; omega
    have h1 := parserTernary_operand env x0 hx0 (1 + ss.length + k)
      (opTok s.1 :: s.2 :: (chainTokens ss ++ rest)) errs
      (by simpa [opTok] using assignOps_not_contTernary s.1 hop)
    have h2 := ih2 k rest errs hk
    have hcond : (s.1 == "=" || s.1 == "+=" || s.1 == "-=" || s.1 == "*=" || s.1 == "/=")
        = true := by
      simpa [assignOps, or_assoc] using hop
    rw [hf]
    simp only [parserAssign, chainTokens, List.cons_append, List.singleton_append,
      List.nil_append, List.append_nil] at h1 h2 ⊢
    rw [h1]
    simp only [tokenIs_mk, peek_cons, opTok_text, hcond, if_true, tokenDupMatch_cons]
    rw [show 16 + (1 + ss.length + k) = 17 + ss.length + k by omega, h2]
    simp [rightFold]

/-- C3: for operands `x0..xn` that are integer literals or declared
identifiers and operators `o1..on` among `=`, `+=`, `-=`, `*=`, `/=`,
`parserValue` on `x0 o1 x1 ... on xn` returns the right fold
`BinaryOp(o1, x0, BinaryOp(o2, x1, ...))`, consuming all tokens and reporting
no diagnostic, whatever the left operands are. -/
theorem parserValue_assign_right_assoc (env : Env) (x0 : Token)
    (steps : List (String × Token)) (hx0 : operand env x0 = true)
    (hsteps : ∀ s, s ∈ steps → s.1 ∈ assignOps ∧ operand env s.2 = true)
    (k : Nat) (errs : List Diag) :
    parserValue env (steps.length + 18 + k) ⟨x0 :: chainTokens steps, errs⟩
      = some (rightFold (primaryNode env) x0 steps, ⟨[], errs⟩) := by
  have hv := (parserValue_of_assign env (parserAssign_steps env steps x0 hx0 hsteps)).to
    (steps.length + 18) (by omega)
  simpa using hv k [] errs peek_nil_not_contAssign

/-- Witness of C3: with `a`, `b`, `c` declared, `a = b = c` is
`Assign(a, Assign(b, c))`, and the literal `1` is accepted on the left of
`+=`. -/
theorem parserValue_assign_right_assoc_witness :
    (parserValue ⟨fun s => if s = "a" ∨ s = "b" ∨ s = "c" then some ⟨0⟩ else none,
          fun _ => false, fun c => (⟨0⟩, c)⟩ (2 + 18 + 0)
        ⟨[⟨.ident, "a"⟩, opTok "=", ⟨.ident, "b"⟩, opTok "=", ⟨.ident, "c"⟩], []⟩
      = some (.bop (.literalIdent "a" (some ⟨0⟩)) "="
          (.bop (.literalIdent "b" (some ⟨0⟩)) "=" (.literalIdent "c" (some ⟨0⟩))), ⟨[], []⟩))
    ∧ (parserValue ⟨fun _ => none, fun _ => false, fun c => (⟨0⟩, c)⟩ (1 + 18 + 0)
        ⟨[⟨.int, "1"⟩, opTok "+=", ⟨.int, "2"⟩], []⟩
      = some (.bop (.literalInt 1) "+=" (.literalInt 2), ⟨[], []⟩)) :=
  ⟨parserValue_assign_right_assoc
      ⟨fun s => if s = "a" ∨ s = "b" ∨ s = "c" then some ⟨0⟩ else none,
        fun _ => false, fun c => (⟨0⟩, c)⟩
      ⟨.ident, "a"⟩ [("=", ⟨.ident, "b"⟩), ("=", ⟨.ident, "c"⟩)] (by decide) (by decide) 0 [],
   parserValue_assign_right_assoc ⟨fun _ => none, fun _ => false, fun c => (⟨0⟩, c)⟩
      ⟨.int, "1"⟩ [("+=", ⟨.int, "2"⟩)] (by decide) (by decide) 0 []⟩

theorem question_not_contLevel : "?" ∉ contLevel 5 := by decide

theorem colon_not_contTernary : ":" ∉ contTernary := by decide

/-- A chain of conditionals over operand tokens, read by `parserTernary`. -/
theorem parserTernary_chain (env : Env) (bs : List (Token × Token)) (f : Token)
    (hbs : ∀ b, b ∈ bs → operand env b.1 = true ∧ operand env b.2 = true)
    (hf : operand env f = true) :
    Parses (parserTernary env) (16 + bs.length) contTernary (ternaryTokens bs f)
      (ternaryTree (primaryNode env) bs f) [] := by
  induction bs with
  | nil => simpa [ternaryTokens, ternaryTree] using parserTernary_operand env f hf
  | cons b bs ih =>
    obtain ⟨hb1, hb2⟩ := hbs b (List.mem_cons_self _ _)
    have ih2 := ih (fun b2 h2 => hbs b2 (List.mem_cons_of_mem _ h2))
    intro k rest errs hk
    have hfuel : 16 + (b :: bs).length + k = (15 + (1 + bs.length + k)) + 1 := by
      simp; omega
    have h1 := parserBool_operand env b.1 hb1 (1 + bs.length + k)
      (opTok "?" :: b.2 :: opTok ":" :: (ternaryTokens bs f ++ rest)) errs
      (by simpa [opTok] using question_not_contLevel)
    have h2 := parserTernary_operand env b.2 hb2 (bs.length + k)
      (opTok ":" :: (ternaryTokens bs f ++ rest)) errs
      (by simpa [opTok] using colon_not_contTernary)
    have h3 := ih2 k rest errs hk
    rw [hfuel]
    simp only [parserTernary, ternaryTokens, List.cons_append, List.singleton_append,
      List.nil_append, List.append_nil] at h1 h2 h3 ⊢
    rw [h1]
    simp only [tokenTryMatchStr, tokenIs_mk, peek_cons, opTok_text, beq_self_eq_true, if_true,
      tokenMatch_cons]
    rw [show 15 + (1 + bs.length + k) = 16 + (bs.length + k) by omega, h2]
    simp only [tokenMatchStr, tokenIs_mk, peek_cons, opTok_text, beq_self_eq_true, if_true,
      tokenMatch_cons]
    rw [show 16 + (bs.length + k) = 16 + bs.length + k by omega, h3]
    simp [ternaryTree]

/-- C4: for operands that are integer literals or declared identifiers,
`parserValue` on `c1 ? t1 : c2 ? t2 : ... cn ? tn : f` returns
`TernaryOp(c1, t1, TernaryOp(c2, t2, ... TernaryOp(cn, tn, f)))`, consuming
all tokens and reporting no diagnostic. -/
theorem parserValue_ternary_right_nested (env : Env) (bs : List (Token × Token)) (f : Token)
    (hbs : ∀ b, b ∈ bs → operand env b.1 = true ∧ operand env b.2 = true)
    (hf : operand env f = true) (k : Nat) (errs : List Diag) :
    parserValue env (bs.length + 18 + k) ⟨ternaryTokens bs f, errs⟩
      = some (ternaryTree (primaryNode env) bs f, ⟨[], errs⟩) := by
  have hv := (parserValue_of_assign env
    (parserAssign_pass env (parserTernary_chain env bs f hbs hf))).to
    (bs.length + 18) (by omega)
  simpa using hv k [] errs peek_nil_not_contAssign

/-- Witness of C4: `1 ? 2 : 3 ? 4 : 5` is `Ternary(1, 2, Ternary(3, 4, 5))`. -/
theorem parserValue_ternary_right_nested_witness :
    parserValue ⟨fun _ => none, fun _ => false, fun c => (⟨0⟩, c)⟩ (2 + 18 + 0)
        ⟨[⟨.int, "1"⟩, opTok "?", ⟨.int, "2"⟩, opTok ":",
          ⟨.int, "3"⟩, opTok "?", ⟨.int, "4"⟩, opTok ":", ⟨.int, "5"⟩], []⟩
      = some (.top (.literalInt 1) (.literalInt 2)
          (.top (.literalInt 3) (.literalInt 4) (.literalInt 5)), ⟨[], []⟩) :=
  parserValue_ternary_right_nested ⟨fun _ => none, fun _ => false, fun c => (⟨0⟩, c)⟩
    [(⟨.int, "1"⟩, ⟨.int, "2"⟩), (⟨.int, "3"⟩, ⟨.int, "4"⟩)] ⟨.int, "5"⟩
    (by decide) (by decide) 0 []

/-- The postfix loop wraps the node once per `++`/`--`, left to right. -/
theorem parserUnaryPostfix_ops (qs : List String) (hqs : ∀ q, q ∈ qs → q ∈ postfixOps)
    (node : Ast) (k : Nat) (rest : List Token) (errs : List Diag)
    (hrest : peek rest ∉ postfixOps) :
    parserUnaryPostfix (qs.length + 1 + k) node ⟨qs.map opTok ++ rest, errs⟩
      = some (qs.foldl (fun a q => Ast.uop q a) node, ⟨rest, errs⟩) := by
  induction qs generalizing node with
  | nil =>
    simp only [postfixOps, List.mem_cons, List.mem_nil_iff, or_false, not_or] at hrest
    rw [show ([] : List String).length + 1 + k = k + 1 by simp; omega]
    simp [parserUnaryPostfix, hrest]
  | cons q qs ih =>
    have hq := hqs q (List.mem_cons_self _ _)
    have hcond : (q == "++" || q == "--") = true := by
      simpa [postfixOps] using hq
    rw [show (q :: qs).length + 1 + k = (qs.length + 1 + k) + 1 by simp; omega]
    simp only [parserUnaryPostfix, List.map_cons, List.cons_append, tokenIs_mk, peek_cons,
      opTok_text, hcond, if_true, tokenDupMatch_cons]
    rw [ih (fun q2 h2 => hqs q2 (List.mem_cons_of_mem _ h2))]
    simp

/-- An operand followed by postfix operators, read by `parserUnary`. -/
theorem parserUnary_postfix (env : Env) (x : Token) (hx : operand env x = true)
    (qs : List String) (hqs : ∀ q, q ∈ qs → q ∈ postfixOps) :
    Parses (parserUnary env) (qs.length + 5) contUnary (x :: qs.map opTok)
      (qs.foldl (fun a q => Ast.uop q a) (primaryNode env x)) [] := by
  intro k rest errs hk
  have hobj := parserObject_pass env (parserFactor_primary env x (operand_primary hx))
  rw [operand_diag hx] at hobj
  have hnext : peek (qs.map opTok ++ rest) ∉ ["[", ".", "->", "("] := by
    cases qs with
    | nil =>
      intro h
      apply hk
      simp only [contUnary, List.mem_cons, List.mem_nil_iff, or_false] at h ⊢
      simp only [List.map_nil, List.nil_append] at h
      tauto
    | cons q qs2 =>
      have hq := hqs q (List.mem_cons_self _ _)
      simp only [postfixOps, List.mem_cons, List.mem_nil_iff, or_false] at hq
      rcases hq with h | h <;> subst h <;> simp
  have h1 := hobj (qs.length + 1 + k) (qs.map opTok ++ rest) errs hnext
  have hpost : peek rest ∉ postfixOps := by
    intro h
    apply hk
    simp only [postfixOps, contUnary, List.mem_cons, List.mem_nil_iff, or_false] at h ⊢
    tauto
  have hnp := primary_not_prefixOp (operand_primary hx)
  simp only [List.mem_cons, not_or, List.mem_nil_iff, not_false_eq_true, and_true] at hnp
  have hp : (x.text == "!" || x.text == "-" || x.text == "*" || x.text == "&") = false := by
    simp [hnp]
  rw [show qs.length + 5 + k = (1 + 2 + (qs.length + 1 + k)) + 1 by omega]
  simp only [parserUnary, tokenIs_mk, List.cons_append, peek_cons, List.singleton_append,
    List.append_nil, List.nil_append] at h1 ⊢
  rw [if_neg (by simp [hp]), h1]
  simp only []
  rw [show 1 + 2 + (qs.length + 1 + k) = qs.length + 1 + (3 + k) by omega]
  exact parserUnaryPostfix_ops qs hqs _ (3 + k) rest errs hpost

/-- Prefix operators, an operand and postfix operators, read by
`parserUnary`. -/
theorem parserUnary_prefix_postfix (env : Env) (ps : List String)
    (hps : ∀ p, p ∈ ps → p ∈ prefixOps) (x : Token) (hx : operand env x = true)
    (qs : List String) (hqs : ∀ q, q ∈ qs → q ∈ postfixOps) :
    Parses (parserUnary env) (ps.length + qs.length + 5) contUnary
      (ps.map opTok ++ x :: qs.map opTok) (unaryTree ps (primaryNode env x) qs) [] := by
  induction ps with
  | nil =>
    simpa [unaryTree] using parserUnary_postfix env x hx qs hqs
  | cons p ps ih =>
    have hp := hps p (List.mem_cons_self _ _)
    have ih2 := ih (fun p2 h2 => hps p2 (List.mem_cons_of_mem _ h2))
    intro k rest errs hk
    have hcond : (p == "!" || p == "-" || p == "*" || p == "&") = true := by
      simpa [prefixOps, or_assoc] using hp
    have h1 := ih2 k rest errs hk
    have hpost : peek rest ∉ postfixOps := by
      intro h
      apply hk
      simp only [postfixOps, contUnary, List.mem_cons, List.mem_nil_iff, or_false] at h ⊢
      tauto
    simp only [postfixOps, List.mem_cons, List.mem_nil_iff, or_false, not_or] at hpost
    rw [show (p :: ps).length + qs.length + 5 + k = (ps.length + qs.length + 5 + k) + 1 by
      simp; omega]
    simp only [parserUnary, List.map_cons, List.cons_append, tokenIs_mk, peek_cons,
      opTok_text, hcond, if_true, tokenDupMatch_cons, List.append_assoc] at h1 ⊢
    rw [h1]
    simp only []
    rw [show ps.length + qs.length + 5 + k = (ps.length + qs.length + 4 + k) + 1 by omega]
    simp [parserUnaryPostfix, hpost, unaryTree]

/-- C5: for prefix operators `p1..pn` among `!`, `-`, `*`, `&`, a primary
`x` (integer literal or declared identifier) and postfix operators `q1..qm`
among `++`, `--`, both `parserUnary` and `parserValue` on
`p1 ... pn x q1 ... qm` return
`UnaryOp(p1, ... UnaryOp(pn, UnaryOp(qm, ... UnaryOp(q1, x))))`, consuming
all tokens and reporting no diagnostic. -/
theorem parserUnary_nesting (env : Env) (ps : List String)
    (hps : ∀ p, p ∈ ps → p ∈ prefixOps) (x : Token) (hx : operand env x = true)
    (qs : List String) (hqs : ∀ q, q ∈ qs → q ∈ postfixOps) (k : Nat) (errs : List Diag) :
    parserUnary env (ps.length + qs.length + 5 + k)
        ⟨ps.map opTok ++ x :: qs.map opTok, errs⟩
      = some (unaryTree ps (primaryNode env x) qs, ⟨[], errs⟩)
    ∧ parserValue env (ps.length + qs.length + 18 + k)
        ⟨ps.map opTok ++ x :: qs.map opTok, errs⟩
      = some (unaryTree ps (primaryNode env x) qs, ⟨[], errs⟩) := by
  have hu := parserUnary_prefix_postfix env ps hps x hx qs hqs
  constructor
  · simpa using hu k [] errs (by decide)
  · have hv := (parserValue_of_level env 0 (by omega) _ _ _ hu).to
      (ps.length + qs.length + 18) (by omega)
    simpa using hv k [] errs peek_nil_not_contAssign

/-- Witness of C5: with `a` declared, `! ! a ++ --` is `!(!(--(++(a))))`. -/
theorem parserUnary_nesting_witness :
    parserUnary ⟨fun s => if s = "a" then some ⟨0⟩ else none, fun _ => false,
          fun c => (⟨0⟩, c)⟩ (2 + 2 + 5 + 0)
        ⟨[opTok "!", opTok "!", ⟨.ident, "a"⟩, opTok "++", opTok "--"], []⟩
      = some (.uop "!" (.uop "!" (.uop "--" (.uop "++" (.literalIdent "a" (some ⟨0⟩))))),
          ⟨[], []⟩)
    ∧ parserValue ⟨fun s => if s = "a" then some ⟨0⟩ else none, fun _ => false,
          fun c => (⟨0⟩, c)⟩ (2 + 2 + 18 + 0)
        ⟨[opTok "!", opTok "!", ⟨.ident, "a"⟩, opTok "++", opTok "--"], []⟩
      = some (.uop "!" (.uop "!" (.uop "--" (.uop "++" (.literalIdent "a" (some ⟨0⟩))))),
          ⟨[], []⟩) :=
  parserUnary_nesting ⟨fun s => if s = "a" then some ⟨0⟩ else none, fun _ => false,
      fun c => (⟨0⟩, c)⟩ ["!", "!"] (by decide) ⟨.ident, "a"⟩ (by decide) ["++", "--"]
    (by decide) 0 []

theorem peek_stepsTokens (steps : List Step) (rest : List Token) :
    peek (stepsTokens steps ++ rest) = match steps with
      | [] => peek rest
      | .index _ :: _ => "["
      | .member op _ :: _ => op := by
  cases steps with
  | nil => rfl
  | cons s ss => cases s <;> simp [stepsTokens, Step.tokens]

/-- A single operand token, read by `parserValue`. -/
theorem parserValue_operand (env : Env) (t : Token) (ht : operand env t = true) :
    Parses (parserValue env) 18 contAssign [t] (primaryNode env t) [] :=
  (parserValue_of_level env 0 (by omega) _ _ _
    (parserLevel_operand env 0 (by omega) t ht)).to 18 (by omega)

theorem bracket_not_contAssign : "]" ∉ contAssign := by decide

/-- The loop of `parserObject` applies the steps in source order. -/
theorem parserObjectLoop_steps (env : Env) (steps : List Step)
    (hsteps : ∀ s, s ∈ steps → s.ok = true) (acc : Ast) (k : Nat) (rest : List Token)
    (errs : List Diag) (hrest : peek rest ∉ ["[", ".", "->"]) :
    parserObjectLoop env (19 + steps.length + k) acc ⟨stepsTokens steps ++ rest, errs⟩
      = some (stepsTree acc steps, ⟨rest, errs⟩) := by
  induction steps generalizing acc with
  | nil =>
    simp only [List.mem_cons, List.mem_nil_iff, or_false, not_or] at hrest
    rw [show 19 + ([] : List Step).length + k = (18 + k) + 1 by simp; omega]
    simp [parserObjectLoop, stepsTokens, stepsTree, hrest]
  | cons s ss ih =>
    have hs := hsteps s (List.mem_cons_self _ _)
    have ih2 := ih (fun s2 h2 => hsteps s2 (List.mem_cons_of_mem _ h2))
    rw [show 19 + (s :: ss).length + k = (18 + (1 + ss.length + k)) + 1 by simp; omega]
    cases s with
    | index i =>
      simp only [Step.ok] at hs
      have h1 := parserValue_operand env i (operand_of_int env hs) (1 + ss.length + k)
        (opTok "]" :: (stepsTokens ss ++ rest)) errs
        (by simpa using bracket_not_contAssign)
      simp only [List.singleton_append, List.append_nil, primaryNode_int hs] at h1
      have htk : stepsTokens (Step.index i :: ss) ++ rest
          = opTok "[" :: i :: opTok "]" :: (stepsTokens ss ++ rest) := rfl
      rw [htk]
      simp only [parserObjectLoop, tokenIs_mk, peek_cons, opTok_text, tokenTryMatchStr,
        beq_self_eq_true, Bool.true_or, if_true, tokenMatch_cons]
      rw [h1]
      simp only [tokenMatchStr, tokenIs_mk, peek_cons, opTok_text, beq_self_eq_true, if_true,
        tokenMatch_cons]
      rw [show 18 + (1 + ss.length + k) = 19 + ss.length + k by omega]
      exact ih2 (Ast.index acc (intNode i))
    | member op f =>
      simp only [Step.ok, Bool.and_eq_true, Bool.or_eq_true, beq_iff_eq] at hs
      have hop : (op == "[") = false := by
        rcases hs.1 with h | h <;> subst h <;> decide
      have hcond : (op == "[" || op == "." || op == "->") = true := by
        rcases hs.1 with h | h <;> subst h <;> decide
      have htk : stepsTokens (Step.member op f :: ss) ++ rest
          = opTok op :: f :: (stepsTokens ss ++ rest) := rfl
      have hkind : (f.kind == TokenKind.ident) = true := by simp [hs.2]
      rw [htk]
      simp only [parserObjectLoop, tokenIs_mk, peek_cons, opTok_text, hcond, if_true]
      simp only [tokenTryMatchStr, tokenIs_mk, peek_cons, opTok_text, hop,
        Bool.false_eq_true, if_false, tokenDupMatch_cons, tokenIsIdent,
        ParserCtx.cur, List.headD_cons, hkind, if_true, tokenMatch_cons]
      rw [show 18 + (1 + ss.length + k) = 19 + ss.length + k by omega]
      exact ih2 (Ast.bop acc op (Ast.literalIdent f.text none))

/-- A declared identifier followed by postfix steps, read by
`parserObject`. -/
theorem parserObject_steps (env : Env) (b : Token)
    (hb : (b.isIdent && (env.symFind b.text).isSome) = true) (steps : List Step)
    (hsteps : ∀ s, s ∈ steps → s.ok = true) :
    Parses (parserObject env) (21 + steps.length) contObject (b :: stepsTokens steps)
      (stepsTree (primaryNode env b) steps) [] := by
  have hop : operand env b = true := by simp [operand, hb]
  intro k rest errs hk
  have hfac := parserFactor_primary env b (operand_primary hop)
  rw [operand_diag hop] at hfac
  have hnext : peek (stepsTokens steps ++ rest) ∉ ["("] := by
    rw [peek_stepsTokens]
    cases steps with
    | nil =>
      intro h
      apply hk
      simp only [contObject, List.mem_cons, List.mem_nil_iff, or_false] at h ⊢
      tauto
    | cons s ss =>
      have hs := hsteps s (List.mem_cons_self _ _)
      cases s with
      | index i => simp
      | member op f =>
        simp only [Step.ok, Bool.and_eq_true, Bool.or_eq_true, beq_iff_eq] at hs
        rcases hs.1 with h | h <;> subst h <;> simp
  have h1 := hfac (19 + steps.length + k) (stepsTokens steps ++ rest) errs hnext
  have hrest : peek rest ∉ ["[", ".", "->"] := by
    intro h
    apply hk
    simp only [contObject, List.mem_cons, List.mem_nil_iff, or_false] at h ⊢
    tauto
  rw [show 21 + steps.length + k = (1 + (19 + steps.length + k)) + 1 by omega]
  simp only [parserObject, List.cons_append, List.singleton_append, List.append_nil,
    List.nil_append] at h1 ⊢
  rw [h1]
  simp only []
  rw [show 1 + (19 + steps.length + k) = 19 + steps.length + (1 + k) by omega]
  exact parserObjectLoop_steps env steps hsteps _ (1 + k) rest errs hrest

/-- C6: for a declared identifier `b` and postfix steps `s1..sn`, each
`[ i ]` with `i` an integer literal or `. f` / `-> f` with `f` an identifier
token, both `parserObject` and `parserValue` on `b s1 ... sn` return the
left-nested chain in source order, `Index(base, i)` for an index step and
`BinaryOp(op, base, Literal(Ident f))` for a member step; the field-name
literal has no symbol reference, and whatever `symFind` says about `f` no
diagnostic is reported. -/
theorem parserObject_chain (env : Env) (b : Token)
    (hb : (b.isIdent && (env.symFind b.text).isSome) = true) (steps : List Step)
    (hsteps : ∀ s, s ∈ steps → s.ok = true) (k : Nat) (errs : List Diag) :
    parserObject env (21 + steps.length + k) ⟨b :: stepsTokens steps, errs⟩
      = some (stepsTree (.literalIdent b.text (env.symFind b.text)) steps, ⟨[], errs⟩)
    ∧ parserValue env (36 + steps.length + k) ⟨b :: stepsTokens steps, errs⟩
      = some (stepsTree (.literalIdent b.text (env.symFind b.text)) steps, ⟨[], errs⟩) := by
  have ho := parserObject_steps env b hb steps hsteps
  have hop : operand env b = true := by simp [operand, hb]
  have hnode : primaryNode env b = .literalIdent b.text (env.symFind b.text) := by
    simp only [Token.isIdent, Bool.and_eq_true, beq_iff_eq] at hb
    simp [primaryNode, hb.1.1.1.1]
  rw [hnode] at ho
  constructor
  · simpa using ho k [] errs (by decide)
  · have hu := parserUnary_pass env (primary_not_prefixOp (operand_primary hop)) ho
    have hv := (parserValue_of_level env 0 (by omega) _ _ _ hu).to
      (36 + steps.length) (by omega)
    simpa using hv k [] errs peek_nil_not_contAssign

/-- Witness of C6: with only `a` declared, `a . b . c` gives two nested
member nodes and `a [ 1 ] [ 2 ]` gives nested `Index`. -/
theorem parserObject_chain_witness :
    (parserValue ⟨fun s => if s = "a" then some ⟨7⟩ else none, fun _ => false,
          fun c => (⟨0⟩, c)⟩ (36 + 2 + 0)
        ⟨[⟨.ident, "a"⟩, opTok ".", ⟨.ident, "b"⟩, opTok ".", ⟨.ident, "c"⟩], []⟩
      = some (.bop (.bop (.literalIdent "a" (some ⟨7⟩)) "." (.literalIdent "b" none)) "."
          (.literalIdent "c" none), ⟨[], []⟩))
    ∧ (parserValue ⟨fun s => if s = "a" then some ⟨7⟩ else none, fun _ => false,
          fun c => (⟨0⟩, c)⟩ (36 + 2 + 0)
        ⟨[⟨.ident, "a"⟩, opTok "[", ⟨.int, "1"⟩, opTok "]",
          opTok "[", ⟨.int, "2"⟩, opTok "]"], []⟩
      = some (.index (.index (.literalIdent "a" (some ⟨7⟩)) (.literalInt 1)) (.literalInt 2),
          ⟨[], []⟩)) :=
  ⟨(parserObject_chain ⟨fun s => if s = "a" then some ⟨7⟩ else none, fun _ => false,
        fun c => (⟨0⟩, c)⟩ ⟨.ident, "a"⟩ (by decide)
      [.member "." ⟨.ident, "b"⟩, .member "." ⟨.ident, "c"⟩] (by decide) 0 []).2,
   (parserObject_chain ⟨fun s => if s = "a" then some ⟨7⟩ else none, fun _ => false,
        fun c => (⟨0⟩, c)⟩ ⟨.ident, "a"⟩ (by decide)
      [.index ⟨.int, "1"⟩, .index ⟨.int, "2"⟩] (by decide) 0 []).2⟩

/-- A parenthesized expression: when the classifier rejects what follows
`(`, `parserFactor` returns what `parserValue` returns for the tokens up to
the closing `)`. -/
theorem parserFactor_paren (env : Env) {c : Nat} {seg : List Token} {node : Ast}
    (hv : Parses (parserValue env) c contAssign seg node [])
    (hdecl : ∀ rest errs, env.tokenIsDecl ⟨seg ++ rest, errs⟩ = false) :
    Parses (parserFactor env) (c + 1) [] (opTok "(" :: (seg ++ [opTok ")"])) node [] := by
  intro k rest errs _
  have h1 := hv k (opTok ")" :: rest) errs (by simpa using (by decide : ")" ∉ contAssign))
  have h2 := hdecl (opTok ")" :: rest) errs
  rw [show c + 1 + k = (c + k) + 1 by omega]
  simp only [parserFactor, List.cons_append, List.append_assoc, List.singleton_append,
    List.nil_append, tokenTryMatchStr, tokenIs_mk, peek_cons, opTok_text, beq_self_eq_true,
    if_true, tokenMatch_cons]
  rw [h2]
  simp only [Bool.false_eq_true, if_false]
  rw [h1]
  simp [tokenMatchStr]

/-- C7: after a consumed `(` the classifier alone decides the production.
When it accepts, `parserFactor` returns a `Cast` whose type is the descriptor
returned by `parserType` and whose operand is what `parserObject` returns
after the required `)`.  When it rejects, `parserFactor` returns exactly the
node `parserValue` returns for the tokens up to `)`, without a wrapper, and
consumes the `)`.  With `a`, `b`, `c` declared and `c` not a type,
`a + b * (c - 1)` is `BinaryOp(+, a, BinaryOp(*, b, BinaryOp(-, c, 1)))` with
no diagnostic. -/
theorem parserFactor_paren_or_cast (env : Env) :
    (∀ (ts : List Token) (errs : List Diag) (n : Nat) (r : Ast) (ctx2 : ParserCtx),
      env.tokenIsDecl ⟨ts, errs⟩ = true →
      parserObject env n (tokenMatchStr (env.parserType ⟨ts, errs⟩).2 ")") = some (r, ctx2) →
      parserFactor env (n + 1) ⟨opTok "(" :: ts, errs⟩
        = some (.cast (env.parserType ⟨ts, errs⟩).1 r, ctx2))
    ∧ (∀ (ts rest : List Token) (errs errs1 : List Diag) (n : Nat) (node : Ast),
      env.tokenIsDecl ⟨ts, errs⟩ = false →
      parserValue env n ⟨ts, errs⟩ = some (node, ⟨opTok ")" :: rest, errs1⟩) →
      parserFactor env (n + 1) ⟨opTok "(" :: ts, errs⟩ = some (node, ⟨rest, errs1⟩))
    ∧ (∀ (a b c one : Token) (k : Nat) (errs : List Diag),
      operand env a = true → operand env b = true → operand env c = true →
      one.isIntLit = true → (∀ rest errs1, env.tokenIsDecl ⟨c :: rest, errs1⟩ = false) →
      parserValue env (60 + k)
          ⟨[a, opTok "+", b, opTok "*", opTok "(", c, opTok "-", one, opTok ")"], errs⟩
        = some (.bop (primaryNode env a) "+" (.bop (primaryNode env b) "*"
            (.bop (primaryNode env c) "-" (intNode one))), ⟨[], errs⟩)) := by
  refine ⟨?_, ?_, ?_⟩
  · intro ts errs n r ctx2 hdecl hobj
    simp [parserFactor, tokenTryMatchStr, hdecl, hobj]
  · intro ts rest errs errs1 n node hdecl hval
    simp [parserFactor, tokenTryMatchStr, hdecl, hval, tokenMatchStr]
  · intro a b c one k errs ha hb hc hone hdecl
    -- the inner expression `c - 1`, read by `parserValue`
    have hinner := parserValue_of_level env 2 (by omega) _ _ _
      (parserLevel_steps env 1 (by omega) c [("-", one)] hc (by
        intro s hs
        simp only [List.mem_singleton] at hs
        subst hs
        exact ⟨by simp [levelOps], operand_of_int env hone⟩))
    -- the parenthesized factor, read at Unary level
    have hfac := parserFactor_paren env hinner (fun rest errs1 => hdecl _ errs1)
    have hun : Parses (parserLevel env 0) 30 (contLevel 0)
        (opTok "(" :: (c :: chainTokens [("-", one)] ++ [opTok ")"]))
        (leftFold (primaryNode env) (primaryNode env c) [("-", one)]) [] :=
      ((parserUnary_pass env (by decide) (parserObject_pass env hfac)).weaken (by
        intro s hs
        simp only [contLevel, contUnary, List.mem_cons, List.mem_nil_iff, or_false] at hs ⊢
        tauto)).to 30 (by simp)
    -- `b * ( ... )` at Term level, then `a + ...` at Expr level
    have hterm := parserLevel_chain env 0 (by omega) 30 [b] (primaryNode env b)
      ((parserLevel_operand env 0 (by omega) b hb).to 30 (by omega))
      [("*", opTok "(" :: (c :: chainTokens [("-", one)] ++ [opTok ")"]),
        leftFold (primaryNode env) (primaryNode env c) [("-", one)])] (by
      intro it hit
      simp only [List.mem_singleton] at hit
      subst hit
      exact ⟨by simp [levelOps], hun⟩)
    have hexpr := parserLevel_chain env 1 (by omega) 40 [a] (primaryNode env a)
      ((parserLevel_operand env 1 (by omega) a ha).to 40 (by omega))
      [("+", _, _)] (by
      intro it hit
      simp only [List.mem_singleton] at hit
      subst hit
      exact ⟨by simp [levelOps], hterm.to 40 (by simp)⟩)
    have hv := (parserValue_of_level env 2 (by omega) _ _ _ hexpr).to 60 (by simp)
    have := hv k [] errs peek_nil_not_contAssign
    simpa [flatItems, foldItems, leftFold, chainTokens, primaryNode_int hone] using this

/-- Witness of C7, with `int` the only type and `a`, `b`, `c`, `x` declared:
`(int)x` is a `Cast` over `x`, `(x)` is `x` itself, and `a + b * (c - 1)`
nests as written. -/
theorem parserFactor_paren_or_cast_witness :
    parserFactor ⟨fun s => if s = "a" ∨ s = "b" ∨ s = "c" ∨ s = "x" then some ⟨1⟩ else none,
          fun ctx => ctx.cur.text == "int", fun ctx => (⟨9⟩, tokenNext ctx)⟩ (9 + 1)
        ⟨opTok "(" :: [⟨.ident, "int"⟩, opTok ")", ⟨.ident, "x"⟩], []⟩
      = some (.cast ⟨9⟩ (.literalIdent "x" (some ⟨1⟩)), ⟨[], []⟩)
    ∧ parserFactor ⟨fun s => if s = "a" ∨ s = "b" ∨ s = "c" ∨ s = "x" then some ⟨1⟩ else none,
          fun ctx => ctx.cur.text == "int", fun ctx => (⟨9⟩, tokenNext ctx)⟩ (25 + 1)
        ⟨opTok "(" :: [⟨.ident, "x"⟩, opTok ")"], []⟩
      = some (.literalIdent "x" (some ⟨1⟩), ⟨[], []⟩)
    ∧ parserValue ⟨fun s => if s = "a" ∨ s = "b" ∨ s = "c" ∨ s = "x" then some ⟨1⟩ else none,
          fun ctx => ctx.cur.text == "int", fun ctx => (⟨9⟩, tokenNext ctx)⟩ (60 + 0)
        ⟨[⟨.ident, "a"⟩, opTok "+", ⟨.ident, "b"⟩, opTok "*", opTok "(", ⟨.ident, "c"⟩,
          opTok "-", ⟨.int, "1"⟩, opTok ")"], []⟩
      = some (.bop (.literalIdent "a" (some ⟨1⟩)) "+" (.bop (.literalIdent "b" (some ⟨1⟩)) "*"
          (.bop (.literalIdent "c" (some ⟨1⟩)) "-" (.literalInt 1))), ⟨[], []⟩) :=
  ⟨(parserFactor_paren_or_cast _).1 [⟨.ident, "int"⟩, opTok ")", ⟨.ident, "x"⟩] [] 9
      (.literalIdent "x" (some ⟨1⟩)) ⟨[], []⟩ rfl rfl,
   (parserFactor_paren_or_cast _).2.1 [⟨.ident, "x"⟩, opTok ")"] [] [] [] 25
      (.literalIdent "x" (some ⟨1⟩)) rfl rfl,
   (parserFactor_paren_or_cast _).2.2 ⟨.ident, "a"⟩ ⟨.ident, "b"⟩ ⟨.ident, "c"⟩ ⟨.int, "1"⟩ 0 []
      (by decide) (by decide) (by decide) (by decide) (fun _ _ => rfl)⟩

/-- An identifier token not followed by `(`, read by `parserFactor`. -/
theorem parserFactor_ident (env : Env) (t : Token) (hkind : t.kind = .ident)
    (htext : t.text ∉ ["(", "\x7b", "true", "false"]) (rest : List Token) (errs : List Diag)
    (hrest : peek rest ≠ "(") (k : Nat) :
    parserFactor env (k + 1) ⟨t :: rest, errs⟩
      = some (.literalIdent t.text (env.symFind t.text), ⟨rest, errs ++ undefDiag env t⟩) := by
  simp only [List.mem_cons, List.mem_nil_iff, or_false, not_or] at htext
  by_cases hs : (env.symFind t.text).isSome = true
  · simp [parserFactor, tokenTryMatchStr, tokenIsInt, tokenIsIdent, ParserCtx.cur, hkind,
      htext, hs, hrest, undefDiag]
  · simp [parserFactor, tokenTryMatchStr, tokenIsInt, tokenIsIdent, ParserCtx.cur, hkind,
      htext, hs, hrest, undefDiag, errorUndefSym, tokenNext]

/-- C8: on an identifier token with text `n` not followed by `(`,
`parserFactor` consumes exactly that token and returns `Literal(Ident n)`
whose symbol reference is the result of `symFind`; it reports exactly one
undefined-symbol diagnostic when the lookup fails and none when it succeeds,
and the node is never `Invalid`. -/
theorem parserFactor_ident_lookup (env : Env) (t : Token) (hkind : t.kind = .ident)
    (htext : t.text ∉ ["(", "\x7b", "true", "false"]) (rest : List Token) (errs : List Diag)
    (hrest : peek rest ≠ "(") (k : Nat) :
    parserFactor env (k + 1) ⟨t :: rest, errs⟩
      = some (.literalIdent t.text (env.symFind t.text),
          ⟨rest, errs ++ (if (env.symFind t.text).isSome then []
            else [Diag.undefSym t.text])⟩)
    ∧ (∀ s, env.symFind t.text = some s →
        parserFactor env (k + 1) ⟨t :: rest, errs⟩
          = some (.literalIdent t.text (some s), ⟨rest, errs⟩))
    ∧ (env.symFind t.text = none →
        parserFactor env (k + 1) ⟨t :: rest, errs⟩
          = some (.literalIdent t.text none, ⟨rest, errs ++ [Diag.undefSym t.text]⟩)) := by
  have h := parserFactor_ident env t hkind htext rest errs hrest k
  refine ⟨h, ?_, ?_⟩
  · intro s hs
    rw [h]
    simp [undefDiag, hs]
  · intro hs
    rw [h]
    simp [undefDiag, hs]

/-- Witness of C8: with nothing declared, `y` yields `Literal(Ident y)`
without a symbol reference and one undefined-symbol diagnostic. -/
theorem parserFactor_ident_lookup_witness :
    parserFactor ⟨fun _ => none, fun _ => false, fun c => (⟨0⟩, c)⟩ (0 + 1)
        ⟨⟨.ident, "y"⟩ :: [opTok "+"], []⟩
      = some (.literalIdent "y" none, ⟨[opTok "+"], [] ++ [Diag.undefSym "y"]⟩) :=
  (parserFactor_ident_lookup ⟨fun _ => none, fun _ => false, fun c => (⟨0⟩, c)⟩
    ⟨.ident, "y"⟩ rfl (by decide) [opTok "+"] [] (by decide) 0).2.2 rfl

theorem Parses.before {p : Nat → ParserCtx → Result} {c : Nat} {cont stops : List String}
    {seg : List Token} {node : Ast} {d : List Diag} (h : Parses p c cont seg node d)
    (hdisj : ∀ s, s ∈ stops → s ∉ cont) : ParsesBefore p c stops seg node d := by
  intro k rest errs hk
  exact h k rest errs (hdisj _ hk)

theorem foldl_astAddChild_call (callee : Ast) (cs ds : List Ast) :
    ds.foldl astAddChild (.call callee cs) = .call callee (cs ++ ds) := by
  induction ds generalizing cs with
  | nil => simp
  | cons d ds ih => simp [astAddChild, ih]

theorem foldl_astAddChild_array (cs ds : List Ast) :
    ds.foldl astAddChild (.literalArray cs) = .literalArray (cs ++ ds) := by
  induction ds generalizing cs with
  | nil => simp
  | cons d ds ih => simp [astAddChild, ih]

/-- The element loop appends the node of every element, in source order, and
stops at the closing token. -/
theorem parserChildren_args (env : Env) (close : String) (hclose : close ≠ ",") (c : Nat)
    (a : Arg) (as : List Arg)
    (hargs : ∀ b, b ∈ a :: as →
      ParsesBefore (parserValue env) c [",", close] b.1 b.2.1 b.2.2)
    (node : Ast) (k : Nat) (rest : List Token) (errs : List Diag) :
    parserChildren env (c + as.length + 1 + k) node
        ⟨argTokens (a :: as) ++ opTok close :: rest, errs⟩
      = some ((argNodes (a :: as)).foldl astAddChild node,
          ⟨opTok close :: rest, errs ++ argDiags (a :: as)⟩) := by
  induction as generalizing a node errs with
  | nil =>
    have h1 := hargs a (List.mem_cons_self _ _) k (opTok close :: rest) errs (by simp)
    have hne : (close == ",") = false := by simpa using hclose
    rw [show c + ([] : List Arg).length + 1 + k = (c + k) + 1 by simp; omega]
    simp only [parserChildren, argTokens, h1]
    simp [tokenTryMatchStr, hne, argNodes, argDiags]
  | cons b bs ih =>
    have h1 := hargs a (List.mem_cons_self _ _) (bs.length + 1 + k)
      (opTok "," :: (argTokens (b :: bs) ++ opTok close :: rest)) errs (by simp)
    have ih2 := ih b (fun b2 h2 => hargs b2 (List.mem_cons_of_mem _ h2))
      (astAddChild node a.2.1) (errs ++ a.2.2)
    rw [show c + (b :: bs).length + 1 + k = (c + (bs.length + 1 + k)) + 1 by simp; omega]
    have htk : argTokens (a :: b :: bs) ++ opTok close :: rest
        = a.1 ++ opTok "," :: (argTokens (b :: bs) ++ opTok close :: rest) := by
      simp [argTokens]
    rw [htk]
    simp only [parserChildren]
    rw [h1]
    simp only [tokenTryMatchStr, tokenIs_mk, peek_cons, opTok_text, beq_self_eq_true, if_true,
      tokenMatch_cons]
    rw [show c + (bs.length + 1 + k) = c + bs.length + 1 + k by omega, ih2]
    simp [argNodes, argDiags, List.append_assoc]

/-- C9: for an identifier `f` (declared or not) followed by `(`, `n ≥ 0`
comma-separated argument expressions and `)`, `parserFactor` returns
`Call(Literal(Ident f), [a1, ..., an])`, where `ak` is the node
`parserValue` returns for the tokens of the k-th argument, in source order,
and consumes through the closing `)`; `f()` yields an empty argument list.
A first argument does not start with `)`.  The diagnostics are the undefined-symbol report for `f`, if any, followed by
those of the arguments. -/
theorem parserFactor_call (env : Env) (f : Token) (hkind : f.kind = .ident)
    (htext : f.text ∉ ["(", "\x7b", "true", "false"]) (c : Nat) (args : List Arg)
    (hargs : ∀ a, a ∈ args → ParsesBefore (parserValue env) c [",", ")"] a.1 a.2.1 a.2.2)
    (hfirst : args ≠ [] → peek (argTokens args ++ [opTok ")"]) ≠ ")")
    (k : Nat) (rest : List Token) (errs : List Diag) :
    parserFactor env (c + args.length + 1 + k)
        ⟨f :: opTok "(" :: (argTokens args ++ opTok ")" :: rest), errs⟩
      = some (.call (.literalIdent f.text (env.symFind f.text)) (argNodes args),
          ⟨rest, errs ++ undefDiag env f ++ argDiags args⟩) := by
  simp only [List.mem_cons, List.mem_nil_iff, or_false, not_or] at htext
  have hctx1 : (if (env.symFind f.text).isSome = true then
        tokenMatch ⟨f :: opTok "(" :: (argTokens args ++ opTok ")" :: rest), errs⟩
      else tokenNext (errorUndefSym
        ⟨f :: opTok "(" :: (argTokens args ++ opTok ")" :: rest), errs⟩))
      = ⟨opTok "(" :: (argTokens args ++ opTok ")" :: rest), errs ++ undefDiag env f⟩ := by
    by_cases hs : (env.symFind f.text).isSome = true
    · simp [hs, undefDiag]
    · simp [hs, undefDiag, errorUndefSym, tokenNext, ParserCtx.cur]
  have hhead : parserFactor env (c + args.length + 1 + k)
        ⟨f :: opTok "(" :: (argTokens args ++ opTok ")" :: rest), errs⟩
      = (if (!tokenIs ⟨argTokens args ++ opTok ")" :: rest, errs ++ undefDiag env f⟩ ")")
          = true then
          match parserChildren env (c + args.length + k)
              (.call (.literalIdent f.text (env.symFind f.text)) [])
              ⟨argTokens args ++ opTok ")" :: rest, errs ++ undefDiag env f⟩ with
          | none => none
          | some (call, ctx2) => some (call, tokenMatchStr ctx2 ")")
        else some (.call (.literalIdent f.text (env.symFind f.text)) [],
          tokenMatchStr ⟨argTokens args ++ opTok ")" :: rest, errs ++ undefDiag env f⟩ ")")) := by
    rw [show c + args.length + 1 + k = (c + args.length + k) + 1 by omega]
    simp only [parserFactor, tokenTryMatchStr, tokenIs_mk, peek_cons]
    simp only [tokenIsInt, tokenIsIdent, ParserCtx.cur, List.headD_cons, hkind, htext,
      beq_iff_eq, if_false, Bool.false_eq_true, Bool.or_self, reduceCtorEq, decide_False,
      decide_True, if_true, beq_self_eq_true]
    rw [hctx1]
    simp only [tokenIs_mk, peek_cons, opTok_text, beq_self_eq_true, if_true, tokenMatch_cons]
    simp [htext]
  rw [hhead]
  cases args with
  | nil =>
    simp [argTokens, tokenMatchStr, argNodes, argDiags]
  | cons a as =>
    have hne : peek (argTokens (a :: as) ++ opTok ")" :: rest) ≠ ")" := by
      have h := hfirst (by simp)
      cases hts : argTokens (a :: as) with
      | nil =>
        rw [hts] at h
        exact absurd rfl h
      | cons t ts =>
        rw [hts] at h
        simpa using h
    have hloop := parserChildren_args env ")" (by decide) c a as hargs
      (.call (.literalIdent f.text (env.symFind f.text)) []) k rest (errs ++ undefDiag env f)
    have hcond : (!tokenIs ⟨argTokens (a :: as) ++ opTok ")" :: rest,
        errs ++ undefDiag env f⟩ ")") = true := by
      simpa using hne
    rw [if_pos hcond]
    rw [show c + (a :: as).length + k = c + as.length + 1 + k by simp; omega, hloop]
    simp [tokenMatchStr, foldl_astAddChild_call, List.append_assoc]

theorem stops_not_contAssign (s : String) (hs : s ∈ [",", ")", "\x7d"]) : s ∉ contAssign := by
  revert s
  decide

/-- A single operand token as an element of a list closed by `)`. -/
theorem parserValue_operand_arg (env : Env) (t : Token) (ht : operand env t = true) :
    ParsesBefore (parserValue env) 30 [",", ")"] [t] (primaryNode env t) [] :=
  ((parserValue_operand env t ht).to 30 (by omega)).before (by
    intro s hs
    apply stops_not_contAssign
    simp only [List.mem_cons, List.mem_nil_iff, or_false] at hs ⊢
    tauto)

/-- A single operand token as an element of a list closed by `}`. -/
theorem parserValue_operand_elem (env : Env) (t : Token) (ht : operand env t = true) :
    ParsesBefore (parserValue env) 30 [",", "\x7d"] [t] (primaryNode env t) [] :=
  ((parserValue_operand env t ht).to 30 (by omega)).before (by
    intro s hs
    apply stops_not_contAssign
    simp only [List.mem_cons, List.mem_nil_iff, or_false] at hs ⊢
    tauto)

/-- A sum of two operand tokens as an element of a list closed by `)`. -/
theorem parserValue_sum_arg (env : Env) (x y : Token) (hx : operand env x = true)
    (hy : operand env y = true) :
    ParsesBefore (parserValue env) 30 [",", ")"] [x, opTok "+", y]
      (.bop (primaryNode env x) "+" (primaryNode env y)) [] := by
  have h := parserValue_of_level env 2 (by omega) _ _ _
    (parserLevel_steps env 1 (by omega) x [("+", y)] hx (by
      intro s hs
      simp only [List.mem_singleton] at hs
      subst hs
      exact ⟨by simp [levelOps], hy⟩))
  have h2 : ParsesBefore (parserValue env) 30 [",", ")"] _ _ [] := (h.to 30 (by simp)).before (by
    intro s hs
    apply stops_not_contAssign
    simp only [List.mem_cons, List.mem_nil_iff, or_false] at hs ⊢
    tauto)
  simpa [chainTokens, leftFold] using h2

/-- Witness of C9: with `foo` declared, `foo(1, 2+3)` is
`Call(foo, [1, BinaryOp(+, 2, 3)])` with no diagnostic. -/
theorem parserFactor_call_witness :
    parserFactor ⟨fun s => if s = "foo" then some ⟨3⟩ else none, fun _ => false,
          fun c => (⟨0⟩, c)⟩ (30 + 2 + 1 + 0)
        ⟨[⟨.ident, "foo"⟩, opTok "(", ⟨.int, "1"⟩, opTok ",",
          ⟨.int, "2"⟩, opTok "+", ⟨.int, "3"⟩, opTok ")"], []⟩
      = some (.call (.literalIdent "foo" (some ⟨3⟩))
          [.literalInt 1, .bop (.literalInt 2) "+" (.literalInt 3)], ⟨[], []⟩) :=
  parserFactor_call ⟨fun s => if s = "foo" then some ⟨3⟩ else none, fun _ => false,
      fun c => (⟨0⟩, c)⟩ ⟨.ident, "foo"⟩ rfl (by decide) 30
    [([⟨.int, "1"⟩], .literalInt 1, []),
     ([⟨.int, "2"⟩, opTok "+", ⟨.int, "3"⟩], .bop (.literalInt 2) "+" (.literalInt 3), [])]
    (fun a ha => by
      simp only [List.mem_cons, List.mem_nil_iff, or_false] at ha
      rcases ha with h | h
      · rw [h]
        exact parserValue_operand_arg _ ⟨.int, "1"⟩ (by decide)
      · rw [h]
        exact parserValue_sum_arg _ ⟨.int, "2"⟩ ⟨.int, "3"⟩ (by decide) (by decide))
    (fun _ => by decide) 0 [] []

/-- C10: for `n ≥ 1` element expressions, `parserFactor` on
`{ e1 , ... , en }` returns a `Literal(Array)` with exactly `n` children,
the k-th being the node `parserValue` returns for the tokens of `ek`, in
source order, and consumes through the closing `}`.  The diagnostics are
those of the elements, so none is reported when the elements report none. -/
theorem parserFactor_array (env : Env) (c : Nat) (a : Arg) (as : List Arg)
    (hargs : ∀ b, b ∈ a :: as →
      ParsesBefore (parserValue env) c [",", "\x7d"] b.1 b.2.1 b.2.2)
    (k : Nat) (rest : List Token) (errs : List Diag) :
    parserFactor env (c + as.length + 2 + k)
        ⟨opTok "\x7b" :: (argTokens (a :: as) ++ opTok "\x7d" :: rest), errs⟩
      = some (.literalArray (argNodes (a :: as)), ⟨rest, errs ++ argDiags (a :: as)⟩)
    ∧ (argNodes (a :: as)).length = as.length + 1 := by
  have hloop := parserChildren_args env "\x7d" (by decide) c a as hargs
    (.literalArray []) k rest errs
  refine ⟨?_, by simp [argNodes]⟩
  rw [show c + as.length + 2 + k = (c + as.length + 1 + k) + 1 by omega]
  have h1 : ("\x7b" == "(") = false := by decide
  simp only [parserFactor, tokenTryMatchStr, tokenIs_mk, peek_cons, opTok_text, h1,
    Bool.false_eq_true, if_false, beq_self_eq_true, if_true, tokenMatch_cons, hloop]
  simp [tokenMatchStr, foldl_astAddChild_array]

/-- Witness of C10: `{1,2,3}` yields exactly the three children 1, 2, 3 in
that order, with no diagnostic. -/
theorem parserFactor_array_witness :
    parserFactor ⟨fun _ => none, fun _ => false, fun c => (⟨0⟩, c)⟩ (30 + 2 + 2 + 0)
        ⟨[opTok "\x7b", ⟨.int, "1"⟩, opTok ",", ⟨.int, "2"⟩, opTok ",", ⟨.int, "3"⟩,
          opTok "\x7d"], []⟩
      = some (.literalArray [.literalInt 1, .literalInt 2, .literalInt 3], ⟨[], []⟩)
    ∧ (argNodes [(([⟨.int, "1"⟩], .literalInt 1, []) : Arg), ([⟨.int, "2"⟩], .literalInt 2, []),
        ([⟨.int, "3"⟩], .literalInt 3, [])]).length = 2 + 1 :=
  parserFactor_array ⟨fun _ => none, fun _ => false, fun c => (⟨0⟩, c)⟩ 30
    ([⟨.int, "1"⟩], .literalInt 1, [])
    [([⟨.int, "2"⟩], .literalInt 2, []), ([⟨.int, "3"⟩], .literalInt 3, [])]
    (fun b hb => by
      simp only [List.mem_cons, List.mem_nil_iff, or_false] at hb
      rcases hb with h | h | h
      · rw [h]
        exact parserValue_operand_elem _ ⟨.int, "1"⟩ (by decide)
      · rw [h]
        exact parserValue_operand_elem _ ⟨.int, "2"⟩ (by decide)
      · rw [h]
        exact parserValue_operand_elem _ ⟨.int, "3"⟩ (by decide))
    0 [] []

/-- Without an operator of its own after it, a binary level returns what the
next-tighter level returns, diagnostics included. -/
theorem binLevel_pass (ops cont : List String) (next : Nat → ParserCtx → Result) {c : Nat}
    {seg : List Token} {node : Ast} {d : List Diag} (h : Parses next c cont seg node d) :
    Parses (binLevel ops next) (c + 2) (ops ++ cont) seg node d := by
  intro k rest errs hk
  have hops : peek rest ∉ ops := fun h1 => hk (List.mem_append_left _ h1)
  have hcont : peek rest ∉ cont := fun h1 => hk (List.mem_append_right _ h1)
  have hstep := h (1 + k) rest errs hcont
  rw [show c + 2 + k = (c + (1 + k)) + 1 by omega]
  simp only [binLevel, hstep]
  rw [show c + (1 + k) = (c + k) + 1 by omega]
  simp [binLoop, any_tokenIs, hops]

/-- What a level parses, every looser level parses the same way, diagnostics
included. -/
theorem parserLevel_lift_diag (env : Env) (i j : Nat) (c : Nat) (seg : List Token)
    (node : Ast) (d : List Diag)
    (h : Parses (parserLevel env i) c (contLevel i) seg node d) :
    Parses (parserLevel env (i + j)) (c + 2 * j) (contLevel (i + j)) seg node d := by
  induction j with
  | zero => simpa using h
  | succ j ih =>
    have h1 := binLevel_pass (levelOps (i + j)) (contLevel (i + j)) (parserLevel env (i + j)) ih
    rw [show c + 2 * (j + 1) = c + 2 * j + 2 by omega]
    exact h1

/-- What `parserUnary` or a binary level parses without a continuation,
`parserValue` parses the same way, diagnostics included. -/
theorem parserValue_of_level_diag (env : Env) (i : Nat) (hi : i ≤ 5) (c : Nat)
    (seg : List Token) (node : Ast) (d : List Diag)
    (h : Parses (parserLevel env i) c (contLevel i) seg node d) :
    Parses (parserValue env) (c + 13) contAssign seg node d := by
  have h5 := parserLevel_lift_diag env i (5 - i) c seg node d h
  rw [show i + (5 - i) = 5 by omega, parserLevel_five] at h5
  intro k rest errs hk
  have hk2 : peek rest ∉ contAssign := hk
  simp only [contAssign, List.mem_append, not_or] at hk
  have ha := hk.1
  simp only [assignOps, List.mem_cons, List.mem_nil_iff, or_false, not_or] at ha
  have hk3 := hk.2
  simp only [contTernary, List.mem_cons, not_or] at hk3
  have hstep := h5 (2 * i + k) rest errs hk3.2
  rw [show c + 13 + k = ((c + 2 * (5 - i) + (2 * i + k)) + 1 + 1) + 1 by omega]
  simp only [parserValue, parserAssign, parserTernary, hstep]
  simp [tokenTryMatchStr, hk3.1, ha]

/-- A token that starts no production of Factor is skipped with one
expected-expression diagnostic and yields an `Invalid` node. -/
theorem parserFactor_noProduction (env : Env) (t : Token) (hint : t.kind ≠ .int)
    (hident : t.kind ≠ .ident) (htext : t.text ∉ ["(", "\x7b", "true", "false"])
    (rest : List Token) (errs : List Diag) (k : Nat) :
    parserFactor env (k + 1) ⟨t :: rest, errs⟩
      = some (.invalid, ⟨rest, errs ++ [Diag.expected "expression"]⟩) := by
  simp only [List.mem_cons, List.mem_nil_iff, or_false, not_or] at htext
  simp [parserFactor, tokenTryMatchStr, tokenIsInt, tokenIsIdent, ParserCtx.cur, hint, hident,
    htext, errorExpected, tokenNext]

/-- C13: when the token at the cursor starts no production of Factor (its
text is none of `(`, `{`, `true`, `false` and its class is neither integer
nor identifier), `parserFactor` reports exactly one expected-expression
diagnostic, consumes exactly that token and returns an `Invalid` node. -/
theorem parserFactor_invalid (env : Env) (t : Token) (hint : t.kind ≠ .int)
    (hident : t.kind ≠ .ident) (htext : t.text ∉ ["(", "\x7b", "true", "false"])
    (rest : List Token) (errs : List Diag) (k : Nat) :
    parserFactor env (k + 1) ⟨t :: rest, errs⟩
      = some (.invalid, ⟨rest, errs ++ [Diag.expected "expression"]⟩) :=
  parserFactor_noProduction env t hint hident htext rest errs k

/-- Witness of C13: on `) 1` the `)` is consumed as an unparseable primary. -/
theorem parserFactor_invalid_witness :
    parserFactor ⟨fun _ => none, fun _ => false, fun c => (⟨0⟩, c)⟩ (0 + 1)
        ⟨opTok ")" :: [⟨.int, "1"⟩], []⟩
      = some (.invalid, ⟨[⟨.int, "1"⟩], [] ++ [Diag.expected "expression"]⟩) :=
  parserFactor_invalid ⟨fun _ => none, fun _ => false, fun c => (⟨0⟩, c)⟩ (opTok ")")
    (by decide) (by decide) (by decide) [⟨.int, "1"⟩] [] 0

/-- One member-access step of the loop of `parserObject`. -/
theorem parserObjectLoop_memberStep (env : Env) (op : String) (hop : op ∈ [".", "->"])
    (t : Token) (base : Ast) (rest : List Token) (errs : List Diag) (m : Nat) :
    parserObjectLoop env (m + 1) base ⟨opTok op :: t :: rest, errs⟩
      = parserObjectLoop env m (.bop base op (.literalIdent t.text none))
          ⟨rest, errs ++ fieldDiag t⟩ := by
  have hop1 : (op == "[") = false := by
    simp only [List.mem_cons, List.mem_nil_iff, or_false] at hop
    rcases hop with h | h <;> subst h <;> decide
  have hcond : (op == "[" || op == "." || op == "->") = true := by
    simp only [List.mem_cons, List.mem_nil_iff, or_false] at hop
    rcases hop with h | h <;> subst h <;> decide
  by_cases hk : t.kind = .ident
  · have hkind : (t.kind == TokenKind.ident) = true := by simp [hk]
    simp only [parserObjectLoop, tokenIs_mk, peek_cons, opTok_text, hcond, if_true]
    simp only [tokenTryMatchStr, tokenIs_mk, peek_cons, opTok_text, hop1,
      Bool.false_eq_true, if_false, tokenDupMatch_cons, tokenIsIdent,
      ParserCtx.cur, List.headD_cons, hkind, if_true, tokenMatch_cons]
    simp [fieldDiag, hk]
  · have hkind : (t.kind == TokenKind.ident) = false := by simp [hk]
    simp only [parserObjectLoop, tokenIs_mk, peek_cons, opTok_text, hcond, if_true]
    simp only [tokenTryMatchStr, tokenIs_mk, peek_cons, opTok_text, hop1,
      Bool.false_eq_true, if_false, tokenDupMatch_cons, tokenIsIdent,
      ParserCtx.cur, List.headD_cons, hkind, tokenNext, errorExpected]
    simp [fieldDiag, hk]

/-- C14: after `.` or `->` the loop of `parserObject` consumes exactly one
token `t`, whatever its class, builds
`BinaryOp(op, base, Literal(Ident text(t)))` with the raw text of `t` as
field name and no symbol, reports one missing-field-name diagnostic exactly
when `t` is not an identifier, and continues from the token after `t`; when
no postfix step follows, that node is the result. -/
theorem parserObjectLoop_member (env : Env) (op : String) (hop : op ∈ [".", "->"])
    (t : Token) (base : Ast) (rest : List Token) (errs : List Diag) (n : Nat) :
    parserObjectLoop env (n + 1) base ⟨opTok op :: t :: rest, errs⟩
      = parserObjectLoop env n (.bop base op (.literalIdent t.text none))
          ⟨rest, errs ++ fieldDiag t⟩
    ∧ (peek rest ∉ ["[", ".", "->"] →
        parserObjectLoop env (n + 2) base ⟨opTok op :: t :: rest, errs⟩
          = some (.bop base op (.literalIdent t.text none), ⟨rest, errs ++ fieldDiag t⟩)) := by
  refine ⟨parserObjectLoop_memberStep env op hop t base rest errs n, ?_⟩
  intro hrest
  simp only [List.mem_cons, List.mem_nil_iff, or_false, not_or] at hrest
  rw [show n + 2 = (n + 1) + 1 by omega,
    parserObjectLoop_memberStep env op hop t base rest errs (n + 1)]
  simp [parserObjectLoop, hrest]

/-- Witness of C14: in `a . 1` the integer token `1` becomes the field name
and one missing-field-name diagnostic is reported. -/
theorem parserObjectLoop_member_witness :
    parserObjectLoop ⟨fun _ => none, fun _ => false, fun c => (⟨0⟩, c)⟩ (0 + 2)
        (.literalIdent "a" none) ⟨opTok "." :: ⟨.int, "1"⟩ :: [], []⟩
      = some (.bop (.literalIdent "a" none) "." (.literalIdent "1" none),
          ⟨[], [] ++ [Diag.expected "field name"]⟩) :=
  (parserObjectLoop_member ⟨fun _ => none, fun _ => false, fun c => (⟨0⟩, c)⟩ "." (by decide)
    ⟨.int, "1"⟩ (.literalIdent "a" none) [] [] 0).2 (by decide)

/-- A cast: after `( T )` the operand is what `parserObject` returns. -/
theorem parserFactor_cast (env : Env) (ty : List Token) (dt : TypeDesc)
    (hty : AcceptsType env ty dt) {c : Nat} {cont : List String} {seg : List Token}
    {node : Ast} {d : List Diag} (h : Parses (parserObject env) c cont seg node d) :
    Parses (parserFactor env) (c + 1) cont (opTok "(" :: (ty ++ opTok ")" :: seg))
      (.cast dt node) d := by
  intro k rest errs hk
  have h1 := h k rest errs hk
  obtain ⟨h2, h3⟩ := hty (opTok ")" :: (seg ++ rest)) errs
  rw [show c + 1 + k = (c + k) + 1 by omega]
  simp only [parserFactor, List.cons_append, List.append_assoc, tokenTryMatchStr, tokenIs_mk,
    peek_cons, opTok_text, beq_self_eq_true, if_true, tokenMatch_cons]
  rw [h2]
  simp only [if_true, h3, tokenMatchStr, tokenIs_mk, peek_cons, opTok_text, beq_self_eq_true,
    tokenMatch_cons, h1]

/-- The operand of a unary expression followed by postfix operators, read by
`parserUnary`. -/
theorem parserUnary_object_postfix (env : Env) {c : Nat} {t : Token} {seg : List Token}
    {node : Ast} {d : List Diag} (ht : t.text ∉ ["!", "-", "*", "&"])
    (h : Parses (parserObject env) c contObject (t :: seg) node d)
    (qs : List String) (hqs : ∀ q, q ∈ qs → q ∈ postfixOps) :
    Parses (parserUnary env) (c + qs.length + 2) contUnary (t :: seg ++ qs.map opTok)
      (qs.foldl (fun a q => Ast.uop q a) node) d := by
  intro k rest errs hk
  have hnext : peek (qs.map opTok ++ rest) ∉ contObject := by
    cases qs with
    | nil =>
      intro h1
      apply hk
      simp only [contObject, contUnary, List.mem_cons, List.mem_nil_iff, or_false] at h1 ⊢
      simp only [List.map_nil, List.nil_append] at h1
      tauto
    | cons q qs2 =>
      have hq := hqs q (List.mem_cons_self _ _)
      simp only [postfixOps, List.mem_cons, List.mem_nil_iff, or_false] at hq
      rcases hq with h1 | h1 <;> subst h1 <;> simp [contObject]
  have h1 := h (qs.length + 1 + k) (qs.map opTok ++ rest) errs hnext
  have hpost : peek rest ∉ postfixOps := by
    intro h2
    apply hk
    simp only [postfixOps, contUnary, List.mem_cons, List.mem_nil_iff, or_false] at h2 ⊢
    tauto
  simp only [List.mem_cons, not_or, List.mem_nil_iff, not_false_eq_true, and_true] at ht
  have hp : (t.text == "!" || t.text == "-" || t.text == "*" || t.text == "&") = false := by
    simp [ht]
  rw [show c + qs.length + 2 + k = (c + (qs.length + 1 + k)) + 1 by omega]
  simp only [parserUnary, tokenIs_mk, List.cons_append, peek_cons, List.append_assoc] at h1 ⊢
  rw [if_neg (by simp [hp]), h1]
  simp only []
  rw [show c + (qs.length + 1 + k) = qs.length + 1 + (c + k) by omega]
  exact parserUnaryPostfix_ops qs hqs _ (c + k) rest (errs ++ d) hpost

theorem contUnary_subset (s : String) (hs : s ∈ "++" :: "--" :: "[" :: "." :: "->" :: ["[", ".", "->"]) :
    s ∈ contLevel 0 := by
  simp only [contLevel, contUnary, List.mem_cons, List.mem_nil_iff, or_false] at hs ⊢
  tauto

theorem contObject_subset (s : String) (hs : s ∈ "[" :: "." :: "->" :: contObject) :
    s ∈ contObject := by
  simp only [contObject, List.mem_cons, List.mem_nil_iff, or_false] at hs ⊢
  tauto

/-- C15: for a type `T` accepted by the classifier, a prefix operator `p`
and a following token `x` that continues no expression (as every integer or
identifier token), `parserValue` on `( T ) p x` returns `Cast(T, Invalid)`,
reports one expected-expression diagnostic, consumes `p` as the unparseable
primary and leaves `x` at the cursor. -/
theorem parserValue_cast_prefixOp (env : Env) (ty : List Token) (dt : TypeDesc)
    (hty : AcceptsType env ty dt) (p : String) (hp : p ∈ prefixOps) (x : Token)
    (hx : x.text ∉ contAssign) (rest : List Token) (k : Nat) (errs : List Diag) :
    parserValue env (30 + k) ⟨opTok "(" :: (ty ++ opTok ")" :: opTok p :: x :: rest), errs⟩
      = some (.cast dt .invalid, ⟨x :: rest, errs ++ [Diag.expected "expression"]⟩) := by
  have hfac : Parses (parserFactor env) 1 [] [opTok p] .invalid [Diag.expected "expression"] := by
    intro k1 rest1 errs1 _
    rw [Nat.add_comm]
    refine parserFactor_noProduction env (opTok p) (by simp [opTok]) (by simp [opTok]) ?_ rest1 errs1 k1
    simp only [prefixOps, List.mem_cons, List.mem_nil_iff, or_false] at hp
    rcases hp with h | h | h | h <;> subst h <;> decide
  have hcast := parserFactor_cast env ty dt hty (parserObject_pass env hfac)
  have hun := (parserUnary_pass env (by decide) (parserObject_pass env hcast)).weaken
    contUnary_subset
  have hv := (parserValue_of_level_diag env 0 (by omega) _ _ _ _ hun).to 30 (by omega)
  have := hv k (x :: rest) errs (by simpa using hx)
  simpa using this

/-- Witness of C15, with `int` the only type: `( int ) - x` is
`Cast(int, Invalid)` with `x` left at the cursor. -/
theorem parserValue_cast_prefixOp_witness :
    parserValue ⟨fun _ => none, fun ctx => ctx.cur.text == "int",
          fun ctx => (⟨9⟩, tokenNext ctx)⟩ (30 + 0)
        ⟨opTok "(" :: ([⟨.ident, "int"⟩] ++ opTok ")" :: opTok "-" :: ⟨.ident, "x"⟩ :: []), []⟩
      = some (.cast ⟨9⟩ .invalid, ⟨⟨.ident, "x"⟩ :: [], [] ++ [Diag.expected "expression"]⟩) :=
  parserValue_cast_prefixOp ⟨fun _ => none, fun ctx => ctx.cur.text == "int",
      fun ctx => (⟨9⟩, tokenNext ctx)⟩ [⟨.ident, "int"⟩] ⟨9⟩ (fun _ _ => ⟨rfl, rfl⟩) "-"
    (by decide) ⟨.ident, "x"⟩ (by decide) [] 0 []

/-- C16: for a type `T` accepted by the classifier, a declared identifier
`x` and an integer literal `i`, `parserValue` on `( T ) x [ i ] ++` returns
`UnaryOp(++, Cast(T, Index(x, i)))` and on `( T ) x * i` returns
`BinaryOp(*, Cast(T, x), i)`, consuming all tokens with no diagnostic. -/
theorem parserValue_cast_operand (env : Env) (ty : List Token) (dt : TypeDesc)
    (hty : AcceptsType env ty dt) (x i : Token)
    (hx : (x.isIdent && (env.symFind x.text).isSome) = true) (hi : i.isIntLit = true)
    (k : Nat) (errs : List Diag) :
    parserValue env (60 + k)
        ⟨opTok "(" :: (ty ++ [opTok ")", x, opTok "[", i, opTok "]", opTok "++"]), errs⟩
      = some (.uop "++" (.cast dt (.index (.literalIdent x.text (env.symFind x.text))
          (intNode i))), ⟨[], errs⟩)
    ∧ parserValue env (60 + k) ⟨opTok "(" :: (ty ++ [opTok ")", x, opTok "*", i]), errs⟩
      = some (.bop (.cast dt (.literalIdent x.text (env.symFind x.text))) "*" (intNode i),
          ⟨[], errs⟩) := by
  have hop : operand env x = true := by simp [operand, hx]
  have hnode : primaryNode env x = .literalIdent x.text (env.symFind x.text) := by
    simp only [Token.isIdent, Bool.and_eq_true, beq_iff_eq] at hx
    simp [primaryNode, hx.1.1.1.1]
  constructor
  · have hobj := parserObject_steps env x hx [Step.index i] (by
      intro s hs
      simp only [List.mem_singleton] at hs
      subst hs
      simpa [Step.ok] using hi)
    have hcast := parserFactor_cast env ty dt hty hobj
    have hobj2 := (parserObject_pass env hcast).weaken contObject_subset
    have hun := parserUnary_object_postfix env (by decide) hobj2 ["++"] (by decide)
    have hv := (parserValue_of_level_diag env 0 (by omega) _ _ _ _ hun).to 60 (by simp)
    have := hv k [] errs peek_nil_not_contAssign
    simpa [stepsTokens, Step.tokens, stepsTree, Step.node, hnode] using this
  · have hfac := parserFactor_primary env x (operand_primary hop)
    rw [operand_diag hop, hnode] at hfac
    have hcast := parserFactor_cast env ty dt hty (parserObject_pass env hfac)
    have hobj2 := (parserObject_pass env hcast).weaken contObject_subset
    have hun := parserUnary_object_postfix env (by decide) hobj2 [] (by simp)
    have hterm := parserLevel_chain env 0 (by omega) 30 _ _ (hun.to 30 (by simp))
      [("*", [i], primaryNode env i)] (by
      intro it hit
      simp only [List.mem_singleton] at hit
      subst hit
      exact ⟨by simp [levelOps],
        (parserLevel_operand env 0 (by omega) i (operand_of_int env hi)).to 30 (by omega)⟩)
    have hv := (parserValue_of_level env 1 (by omega) _ _ _ hterm).to 60 (by simp)
    have := hv k [] errs peek_nil_not_contAssign
    simpa [flatItems, foldItems, primaryNode_int hi] using this

/-- Witness of C16, with `int` the only type and `x` declared. -/
theorem parserValue_cast_operand_witness :
    parserValue ⟨fun s => if s = "x" then some ⟨1⟩ else none, fun ctx => ctx.cur.text == "int",
          fun ctx => (⟨9⟩, tokenNext ctx)⟩ (60 + 0)
        ⟨opTok "(" :: ([⟨.ident, "int"⟩] ++ [opTok ")", ⟨.ident, "x"⟩, opTok "[", ⟨.int, "2"⟩,
          opTok "]", opTok "++"]), []⟩
      = some (.uop "++" (.cast ⟨9⟩ (.index (.literalIdent "x" (some ⟨1⟩))
          (intNode ⟨.int, "2"⟩))), ⟨[], []⟩)
    ∧ parserValue ⟨fun s => if s = "x" then some ⟨1⟩ else none, fun ctx => ctx.cur.text == "int",
          fun ctx => (⟨9⟩, tokenNext ctx)⟩ (60 + 0)
        ⟨opTok "(" :: ([⟨.ident, "int"⟩] ++ [opTok ")", ⟨.ident, "x"⟩, opTok "*",
          ⟨.int, "2"⟩]), []⟩
      = some (.bop (.cast ⟨9⟩ (.literalIdent "x" (some ⟨1⟩))) "*" (intNode ⟨.int, "2"⟩),
          ⟨[], []⟩) :=
  parserValue_cast_operand ⟨fun s => if s = "x" then some ⟨1⟩ else none,
      fun ctx => ctx.cur.text == "int", fun ctx => (⟨9⟩, tokenNext ctx)⟩ [⟨.ident, "int"⟩] ⟨9⟩
    (fun _ _ => ⟨rfl, rfl⟩) ⟨.ident, "x"⟩ ⟨.int, "2"⟩ (by decide) (by decide) 0 []

/-- The element loop adds at least one child to an aggregate literal. -/
theorem parserChildren_array_grows (env : Env) (n : Nat) (cs : List Ast) (ctx : ParserCtx)
    (r : Ast × ParserCtx) (h : parserChildren env n (.literalArray cs) ctx = some r) :
    ∃ cs1, r.1 = .literalArray cs1 ∧ cs.length < cs1.length := by
  induction n generalizing cs ctx with
  | zero => simp [parserChildren] at h
  | succ n ih =>
    simp only [parserChildren] at h
    cases hv : parserValue env n ctx with
    | none => simp [hv] at h
    | some v =>
      obtain ⟨child, ctx1⟩ := v
      simp only [hv] at h
      by_cases hc : (tokenTryMatchStr ctx1 ",").1 = true
      · rw [if_pos hc] at h
        obtain ⟨cs1, h1, h2⟩ := ih (cs ++ [child]) _ h
        exact ⟨cs1, h1, by simp at h2; omega⟩
      · rw [if_neg hc] at h
        simp only [Option.some.injEq] at h
        subst h
        exact ⟨cs ++ [child], rfl, by simp⟩

/-- C17: on the tokens `{` `}` `parserFactor` runs the element loop once:
the `}` is consumed as an unparseable primary, the closing `}` is then
missing, and the result is a `Literal(Array)` whose only child is `Invalid`,
with two diagnostics.  Whatever follows a `{`, a result of `parserFactor` is
a `Literal(Array)` with at least one child. -/
theorem parserFactor_empty_aggregate (env : Env) :
    (∀ (k : Nat) (errs : List Diag),
      parserFactor env (20 + k) ⟨[opTok "\x7b", opTok "\x7d"], errs⟩
        = some (.literalArray [.invalid],
            ⟨[], errs ++ [Diag.expected "expression", Diag.expected "\x7d"]⟩))
    ∧ (∀ (fuel : Nat) (ctx : ParserCtx) (r : Ast × ParserCtx),
      tokenIs ctx "\x7b" = true → parserFactor env fuel ctx = some r →
        ∃ cs, r.1 = .literalArray cs ∧ 0 < cs.length) := by
  constructor
  · intro k errs
    have hfac : Parses (parserFactor env) 1 [] [opTok "\x7d"] .invalid
        [Diag.expected "expression"] := by
      intro k1 rest1 errs1 _
      rw [Nat.add_comm]
      exact parserFactor_noProduction env (opTok "\x7d") (by simp [opTok]) (by simp [opTok])
        (by decide) rest1 errs1 k1
    have hun : Parses (parserLevel env 0) 5 (contLevel 0) [opTok "\x7d"] .invalid
        [Diag.expected "expression"] :=
      (parserUnary_pass env (by decide) (parserObject_pass env hfac)).weaken (by
      intro s hs
      simp only [contLevel, contUnary, List.mem_cons, List.mem_nil_iff, or_false] at hs ⊢
      tauto)
    have hv := parserValue_of_level_diag env 0 (by omega) _ _ _ _ hun
    have h1 := hv k [] errs peek_nil_not_contAssign
    simp only [List.append_nil] at h1
    have h0 : ("\x7b" == "(") = false := by decide
    rw [show 20 + k = ((1 + 2 + 2 + 13 + k) + 1) + 1 by omega]
    simp only [parserFactor, parserChildren, tokenTryMatchStr, tokenIs_mk, peek_cons,
      opTok_text, h0, Bool.false_eq_true, if_false, beq_self_eq_true, if_true, tokenMatch_cons,
      h1]
    simp [tokenMatchStr, astAddChild, errorExpected, tokenNext]
  · intro fuel ctx r hopen h
    cases fuel with
    | zero => simp [parserFactor] at h
    | succ n =>
      have h0 : tokenIs ctx "(" = false := by
        have h1 : ctx.cur.text = "\x7b" := by simpa [tokenIs] using hopen
        simp [tokenIs, h1]
      simp only [parserFactor, tokenTryMatchStr, h0, hopen, Bool.false_eq_true, if_false,
        if_true] at h
      cases hc : parserChildren env n (.literalArray []) (tokenMatch ctx) with
      | none => simp [hc] at h
      | some v =>
        obtain ⟨cs1, h1, h2⟩ := parserChildren_array_grows env n [] _ v hc
        simp only [hc, Option.some.injEq] at h
        subst h
        exact ⟨cs1, h1, by omega⟩

/-- Witness of C17: `{}` yields a `Literal(Array)` with the single child
`Invalid` and two diagnostics, so its child list is not empty. -/
theorem parserFactor_empty_aggregate_witness :
    parserFactor ⟨fun _ => none, fun _ => false, fun c => (⟨0⟩, c)⟩ (20 + 0)
        ⟨[opTok "\x7b", opTok "\x7d"], []⟩
      = some (.literalArray [.invalid],
          ⟨[], [] ++ [Diag.expected "expression", Diag.expected "\x7d"]⟩)
    ∧ ∃ cs, (Ast.literalArray [.invalid], (⟨[], [] ++ [Diag.expected "expression",
        Diag.expected "\x7d"]⟩ : ParserCtx)).1 = .literalArray cs ∧ 0 < cs.length :=
  ⟨(parserFactor_empty_aggregate ⟨fun _ => none, fun _ => false, fun c => (⟨0⟩, c)⟩).1 0 [],
   (parserFactor_empty_aggregate ⟨fun _ => none, fun _ => false, fun c => (⟨0⟩, c)⟩).2 20
      ⟨[opTok "\x7b", opTok "\x7d"], []⟩ _ rfl rfl⟩

theorem IsStep.refl (a : ParserCtx) : IsStep a a :=
  ⟨List.suffix_refl _, [], by simp⟩

theorem IsStep.trans {a b c : ParserCtx} (h1 : IsStep a b) (h2 : IsStep b c) : IsStep a c := by
  obtain ⟨s1, d1, e1⟩ := h1
  obtain ⟨s2, d2, e2⟩ := h2
  exact ⟨s2.trans s1, d1 ++ d2, by rw [e2, e1, List.append_assoc]⟩

theorem IsStep.len_le {a b : ParserCtx} (h : IsStep a b) :
    b.tokens.length ≤ a.tokens.length := h.1.length_le

theorem IsStep.errs_eq {a b c : ParserCtx} (h1 : IsStep a b) (h2 : IsStep b c)
    (h : c.errors = a.errors) : b.errors = a.errors ∧ c.errors = b.errors := by
  obtain ⟨_, d1, e1⟩ := h1
  obtain ⟨_, d2, e2⟩ := h2
  rw [e2, e1, List.append_assoc] at h
  have h3 : d1 ++ d2 = [] := by simpa using h
  have h4 : d1 = [] ∧ d2 = [] := by simpa using h3
  rw [e2, e1, h4.1, h4.2]
  simp

theorem isStep_tokenNext (ctx : ParserCtx) : IsStep ctx (tokenNext ctx) :=
  ⟨List.tail_suffix _, [], by simp [tokenNext]⟩

theorem isStep_tokenMatch (ctx : ParserCtx) : IsStep ctx (tokenMatch ctx) :=
  isStep_tokenNext ctx

theorem isStep_errorExpected (ctx : ParserCtx) (s : String) :
    IsStep ctx (errorExpected ctx s) :=
  ⟨List.suffix_refl _, [Diag.expected s], rfl⟩

theorem isStep_errorUndefSym (ctx : ParserCtx) : IsStep ctx (errorUndefSym ctx) :=
  ⟨List.suffix_refl _, [Diag.undefSym ctx.cur.text], rfl⟩

theorem isStep_tokenMatchStr (ctx : ParserCtx) (s : String) :
    IsStep ctx (tokenMatchStr ctx s) := by
  unfold tokenMatchStr
  split
  · exact isStep_tokenMatch ctx
  · exact (isStep_errorExpected ctx s).trans (isStep_tokenNext _)

theorem isStep_tokenTryMatchStr (ctx : ParserCtx) (s : String) :
    IsStep ctx (tokenTryMatchStr ctx s).2 := by
  unfold tokenTryMatchStr
  split
  · exact isStep_tokenMatch ctx
  · exact IsStep.refl ctx

theorem isStep_tokenDupMatch (ctx : ParserCtx) : IsStep ctx (tokenDupMatch ctx).2 :=
  isStep_tokenMatch ctx

theorem tokenNext_length (ctx : ParserCtx) :
    (tokenNext ctx).tokens.length = ctx.tokens.length - 1 := by
  simp [tokenNext]

theorem tokenNext_errors (ctx : ParserCtx) : (tokenNext ctx).errors = ctx.errors := rfl

theorem tokenIs_eq (ctx : ParserCtx) (s : String) : tokenIs ctx s = (peek ctx.tokens == s) := rfl

theorem tokens_ne_nil_of_peek {ts : List Token} {s : String} (h : peek ts = s) (hs : s ≠ "") :
    ts ≠ [] := by
  intro h1
  subst h1
  exact hs h.symm

theorem tokens_ne_nil_of_tokenIs {ctx : ParserCtx} {s : String} (h : tokenIs ctx s = true)
    (hs : s ≠ "") : ctx.tokens ≠ [] :=
  tokens_ne_nil_of_peek (by simpa [tokenIs_eq] using h) hs

theorem length_pos_of_ne_nil {ts : List Token} (h : ts ≠ []) : 0 < ts.length :=
  List.length_pos.mpr h

theorem tagsOkList_append (xs ys : List Ast) :
    tagsOkList (xs ++ ys) = (tagsOkList xs && tagsOkList ys) := by
  induction xs with
  | nil => simp [tagsOkList]
  | cons x xs ih => simp [tagsOkList, ih, Bool.and_assoc]

theorem cleanList_append (xs ys : List Ast) :
    cleanList (xs ++ ys) = (cleanList xs && cleanList ys) := by
  induction xs with
  | nil => simp [cleanList]
  | cons x xs ih => simp [cleanList, ih, Bool.and_assoc]

theorem tagsOk_astAddChild (node child : Ast) (h1 : node.tagsOk = true)
    (h2 : child.tagsOk = true) : (astAddChild node child).tagsOk = true := by
  cases node <;> simp_all [astAddChild, Ast.tagsOk, tagsOkList_append, tagsOkList]

theorem clean_astAddChild (node child : Ast) (h1 : node.clean = true)
    (h2 : child.clean = true) : (astAddChild node child).clean = true := by
  cases node <;> simp_all [astAddChild, Ast.clean, Ast.cleanAux, cleanList_append, cleanList]

/-- The postfix loop of `parserUnary` returns, stops before a token other
than `++`/`--`, and reports nothing. -/
theorem parserUnaryPostfix_returns (n : Nat) (acc : Ast) (ctx : ParserCtx)
    (h : ctx.tokens.length + 1 ≤ n) :
    ∃ r, parserUnaryPostfix n acc ctx = some r ∧ LoopPost [] (exitLevel 0) acc ctx r := by
  induction n generalizing acc ctx with
  | zero => omega
  | succ n ih =>
    by_cases hc : (tokenIs ctx "++" || tokenIs ctx "--") = true
    · have hne : ctx.tokens ≠ [] := by
        rcases Bool.or_eq_true _ _ ▸ hc with h1 | h1
        · exact tokens_ne_nil_of_tokenIs h1 (by decide)
        · exact tokens_ne_nil_of_tokenIs h1 (by decide)
      have hlen := length_pos_of_ne_nil hne
      have hl2 : (tokenDupMatch ctx).2.tokens.length = ctx.tokens.length - 1 :=
        tokenNext_length ctx
      obtain ⟨r, hr, hp⟩ := ih (.uop (tokenDupMatch ctx).1 acc) (tokenDupMatch ctx).2
        (by rw [hl2]; omega)
      refine ⟨r, ?_, ?_⟩
      · simp only [parserUnaryPostfix]
        rw [if_pos hc, hr]
      · have htag : (tokenDupMatch ctx).1 ∈ unTags := by
          have h2 : (tokenDupMatch ctx).1 = peek ctx.tokens := rfl
          rw [h2]
          simp only [tokenIs_eq, Bool.or_eq_true, beq_iff_eq] at hc
          rcases hc with h1 | h1 <;> rw [h1] <;> decide
        exact {
          step := (isStep_tokenDupMatch ctx).trans hp.step
          exit := fun _ => hp.exit (by simp)
          tags := fun ha => hp.tags (by simp [Ast.tagsOk, htag, ha])
          clean := fun ha he => hp.clean (by simpa [Ast.clean, Ast.cleanAux] using ha) he }
    · refine ⟨(acc, ctx), ?_, ?_⟩
      · simp only [parserUnaryPostfix]
        rw [if_neg hc]
      · exact {
          step := IsStep.refl ctx
          exit := fun _ => by
            simp only [tokenIs_eq, Bool.or_eq_true, beq_iff_eq, not_or] at hc
            simp [exitLevel, hc]
          tags := fun ha => ha
          clean := fun ha _ => ha }

theorem any_tokenIs_ctx (ops : List String) (ctx : ParserCtx) :
    ops.any (tokenIs ctx) = decide (peek ctx.tokens ∈ ops) := by
  cases ctx
  exact any_tokenIs _ _ _

theorem tokenDupMatch_length (ctx : ParserCtx) :
    (tokenDupMatch ctx).2.tokens.length = ctx.tokens.length - 1 := tokenNext_length ctx

/-- One more unit of fuel for the loop of a binary level. -/
theorem binLoop_step (ops E0 : List String)
    (hops : ∀ o, o ∈ ops → o ∈ binTags ∧ o ≠ "" ∧ o ≠ "." ∧ o ≠ "->")
    (next : Nat → ParserCtx → Result) (ln ll : Nat) (hln : ln ≤ 19) (n : Nat)
    (hnext : Returns E0 ln next n)
    (hloop : ReturnsLoop E0 (ops ++ E0) ll (binLoop ops next) n) :
    ReturnsLoop E0 (ops ++ E0) ll (binLoop ops next) (n + 1) := by
  intro acc ctx hb
  by_cases hc : ops.any (tokenIs ctx) = true
  · have hmem : peek ctx.tokens ∈ ops := by simpa [any_tokenIs_ctx] using hc
    obtain ⟨htag, hne1, hdot, harrow⟩ := hops _ hmem
    have hne := tokens_ne_nil_of_peek rfl hne1
    have hlen := length_pos_of_ne_nil hne
    have hl1 := tokenDupMatch_length ctx
    obtain ⟨r1, hr1, hp1⟩ := hnext (tokenDupMatch ctx).2 (by rw [hl1]; omega)
    have hle1 := hp1.step.len_le
    obtain ⟨r2, hr2, hp2⟩ := hloop (.bop acc (tokenDupMatch ctx).1 r1.1) r1.2 (by omega)
    refine ⟨r2, ?_, ?_⟩
    · simp only [binLoop]
      rw [if_pos hc, hr1]
      exact hr2
    · have ho : (tokenDupMatch ctx).1 = peek ctx.tokens := rfl
      exact {
        step := ((isStep_tokenDupMatch ctx).trans hp1.step).trans hp2.step
        exit := fun _ => hp2.exit hp1.exit
        tags := fun ha => hp2.tags (by simp [Ast.tagsOk, ho, htag, ha, hp1.tags])
        clean := fun ha he => by
          have he2 := ((isStep_tokenDupMatch ctx).trans hp1.step).errs_eq hp2.step he
          have hc1 := hp1.clean he2.1
          refine hp2.clean ?_ he2.2
          have hflag : (peek ctx.tokens == "." || peek ctx.tokens == "->") = false := by
            simp [hdot, harrow]
          simp only [Ast.clean] at ha hc1
          simp only [Ast.clean, Ast.cleanAux, ho, hflag, ha, hc1, Bool.and_self] }
  · refine ⟨(acc, ctx), ?_, ?_⟩
    · simp only [binLoop]
      rw [if_neg hc]
    · have hmem : peek ctx.tokens ∉ ops := by simpa [any_tokenIs_ctx] using hc
      exact {
        step := IsStep.refl ctx
        exit := fun h0 h1 => by
          rcases List.mem_append.mp h1 with h2 | h2
          · exact hmem h2
          · exact h0 h2
        tags := fun ha => ha
        clean := fun ha _ => ha }

/-- One more unit of fuel for a binary level. -/
theorem binLevel_step (ops E0 E : List String) (next : Nat → ParserCtx → Result)
    (ln ll l : Nat) (hln : ln < l) (hll : ll < l) (n : Nat) (hnext : Returns E0 ln next n)
    (hloop : ReturnsLoop E0 E ll (binLoop ops next) n) :
    Returns E l (binLevel ops next) (n + 1) := by
  intro ctx hb
  obtain ⟨r1, hr1, hp1⟩ := hnext ctx (by omega)
  have hle1 := hp1.step.len_le
  obtain ⟨r2, hr2, hp2⟩ := hloop r1.1 r1.2 (by omega)
  refine ⟨r2, ?_, ?_⟩
  · simp only [binLevel]
    rw [hr1]
    exact hr2
  · exact {
      step := hp1.step.trans hp2.step
      progress := fun hne => by
        have h1 := hp1.progress hne
        have h2 := hp2.step.len_le
        omega
      exit := hp2.exit hp1.exit
      tags := hp2.tags hp1.tags
      clean := fun he => by
        have he2 := hp1.step.errs_eq hp2.step he
        exact hp2.clean (hp1.clean he2.1) he2.2 }

/-- One more unit of fuel for `parserUnary`. -/
theorem parserUnary_step (env : Env) (n : Nat)
    (hun : Returns (exitLevel 0) 5 (parserUnary env) n)
    (hobj : Returns [] 3 (parserObject env) n) :
    Returns (exitLevel 0) 5 (parserUnary env) (n + 1) := by
  intro ctx hb
  by_cases hc : (tokenIs ctx "!" || tokenIs ctx "-" || tokenIs ctx "*" || tokenIs ctx "&") = true
  · have hmem : peek ctx.tokens ∈ prefixOps := by
      simpa [tokenIs_eq, prefixOps, or_assoc] using hc
    have hne1 : peek ctx.tokens ≠ "" := by
      intro h0
      rw [h0] at hmem
      exact absurd hmem (by decide)
    have hne := tokens_ne_nil_of_peek rfl hne1
    have hlen := length_pos_of_ne_nil hne
    have hl1 := tokenDupMatch_length ctx
    obtain ⟨r1, hr1, hp1⟩ := hun (tokenDupMatch ctx).2 (by rw [hl1]; omega)
    have hle1 := hp1.step.len_le
    obtain ⟨r2, hr2, hp2⟩ := parserUnaryPostfix_returns n (.uop (tokenDupMatch ctx).1 r1.1) r1.2
      (by omega)
    refine ⟨r2, ?_, ?_⟩
    · simp only [parserUnary]
      rw [if_pos hc, hr1]
      exact hr2
    · have ho : (tokenDupMatch ctx).1 = peek ctx.tokens := rfl
      have htag : peek ctx.tokens ∈ unTags := by
        simp only [prefixOps, List.mem_cons, List.mem_nil_iff, or_false] at hmem
        rcases hmem with h1 | h1 | h1 | h1 <;> rw [h1] <;> decide
      exact {
        step := ((isStep_tokenDupMatch ctx).trans hp1.step).trans hp2.step
        progress := fun _ => by
          have h2 := hp2.step.len_le
          omega
        exit := hp2.exit (by simp)
        tags := hp2.tags (by simp [Ast.tagsOk, ho, htag, hp1.tags])
        clean := fun he => by
          have he2 := ((isStep_tokenDupMatch ctx).trans hp1.step).errs_eq hp2.step he
          have hc1 := hp1.clean he2.1
          refine hp2.clean ?_ he2.2
          simp only [Ast.clean] at hc1
          simp [Ast.clean, Ast.cleanAux, hc1] }
  · obtain ⟨r1, hr1, hp1⟩ := hobj ctx (by omega)
    have hle1 := hp1.step.len_le
    obtain ⟨r2, hr2, hp2⟩ := parserUnaryPostfix_returns n r1.1 r1.2 (by omega)
    refine ⟨r2, ?_, ?_⟩
    · simp only [parserUnary]
      rw [if_neg hc, hr1]
      exact hr2
    · exact {
        step := hp1.step.trans hp2.step
        progress := fun hne => by
          have h1 := hp1.progress hne
          have h2 := hp2.step.len_le
          omega
        exit := hp2.exit (by simp)
        tags := hp2.tags hp1.tags
        clean := fun he => by
          have he2 := hp1.step.errs_eq hp2.step he
          exact hp2.clean (hp1.clean he2.1) he2.2 }

theorem tokenTryMatchStr_fst (ctx : ParserCtx) (s : String) :
    (tokenTryMatchStr ctx s).1 = tokenIs ctx s := by
  unfold tokenTryMatchStr
  split <;> simp_all

theorem tokenTryMatchStr_snd_pos {ctx : ParserCtx} {s : String} (h : tokenIs ctx s = true) :
    (tokenTryMatchStr ctx s).2 = tokenMatch ctx := by
  simp [tokenTryMatchStr, h]

theorem tokenTryMatchStr_snd_neg {ctx : ParserCtx} {s : String} (h : ¬ tokenIs ctx s = true) :
    (tokenTryMatchStr ctx s).2 = ctx := by
  simp [tokenTryMatchStr, h]

theorem tokenMatch_length (ctx : ParserCtx) :
    (tokenMatch ctx).tokens.length = ctx.tokens.length - 1 := tokenNext_length ctx

/-- One more unit of fuel for `parserObject`. -/
theorem parserObject_step (env : Env) (n : Nat)
    (hfac : Returns [] 1 (parserFactor env) n)
    (hloop : ReturnsLoop [] [] 2 (parserObjectLoop env) n) :
    Returns [] 3 (parserObject env) (n + 1) := by
  intro ctx hb
  obtain ⟨r1, hr1, hp1⟩ := hfac ctx (by omega)
  have hle1 := hp1.step.len_le
  obtain ⟨r2, hr2, hp2⟩ := hloop r1.1 r1.2 (by omega)
  refine ⟨r2, ?_, ?_⟩
  · simp only [parserObject]
    rw [hr1]
    exact hr2
  · exact {
      step := hp1.step.trans hp2.step
      progress := fun hne => by
        have h1 := hp1.progress hne
        have h2 := hp2.step.len_le
        omega
      exit := by simp
      tags := hp2.tags hp1.tags
      clean := fun he => by
        have he2 := hp1.step.errs_eq hp2.step he
        exact hp2.clean (hp1.clean he2.1) he2.2 }

/-- One more unit of fuel for the loop of `parserObject`. -/
theorem parserObjectLoop_step (env : Env) (n : Nat)
    (hval : Returns exitAssign 18 (parserValue env) n)
    (hloop : ReturnsLoop [] [] 2 (parserObjectLoop env) n) :
    ReturnsLoop [] [] 2 (parserObjectLoop env) (n + 1) := by
  intro acc ctx hb
  by_cases hc : (tokenIs ctx "[" || tokenIs ctx "." || tokenIs ctx "->") = true
  · have hmem : peek ctx.tokens ∈ ["[", ".", "->"] := by
      simpa [tokenIs_eq, or_assoc] using hc
    have hne1 : peek ctx.tokens ≠ "" := by
      intro h0
      rw [h0] at hmem
      exact absurd hmem (by decide)
    have hne := tokens_ne_nil_of_peek rfl hne1
    have hlen := length_pos_of_ne_nil hne
    by_cases hb1 : tokenIs ctx "[" = true
    · -- array or pointer indexing
      have hl1 := tokenMatch_length ctx
      obtain ⟨r1, hr1, hp1⟩ := hval (tokenMatch ctx) (by rw [hl1]; omega)
      have hle1 := hp1.step.len_le
      have hs3 := isStep_tokenMatchStr r1.2 "]"
      have hle3 := hs3.len_le
      obtain ⟨r2, hr2, hp2⟩ := hloop (.index acc r1.1) (tokenMatchStr r1.2 "]") (by omega)
      refine ⟨r2, ?_, ?_⟩
      · simp only [parserObjectLoop]
        rw [if_pos hc, tokenTryMatchStr_fst, if_pos hb1, tokenTryMatchStr_snd_pos hb1, hr1]
        exact hr2
      · have hs12 := (isStep_tokenMatch ctx).trans hp1.step
        exact {
          step := (hs12.trans hs3).trans hp2.step
          exit := fun _ => by simp
          tags := fun ha => hp2.tags (by simp [Ast.tagsOk, ha, hp1.tags])
          clean := fun ha he => by
            have he4 := (hs12.trans hs3).errs_eq hp2.step he
            have he3 := hs12.errs_eq hs3 he4.1
            have hc1 := hp1.clean he3.1
            refine hp2.clean ?_ he4.2
            simp only [Ast.clean] at ha hc1
            simp only [Ast.clean, Ast.cleanAux, ha, hc1, Bool.and_self] }
    · -- member access
      have hmem2 : peek ctx.tokens ∈ [".", "->"] := by
        simp only [tokenIs_eq, beq_iff_eq] at hb1
        simp only [List.mem_cons, List.mem_nil_iff, or_false] at hmem ⊢
        tauto
      have hl1 := tokenDupMatch_length ctx
      have ho : (tokenDupMatch ctx).1 = peek ctx.tokens := rfl
      have hflag : (peek ctx.tokens == "." || peek ctx.tokens == "->") = true := by
        simpa using hmem2
      have htag : peek ctx.tokens ∈ binTags := by
        simp only [List.mem_cons, List.mem_nil_iff, or_false] at hmem2
        rcases hmem2 with h1 | h1 <;> rw [h1] <;> decide
      by_cases hid : tokenIsIdent (tokenDupMatch ctx).2 = true
      · have hs2 := isStep_tokenMatch (tokenDupMatch ctx).2
        have hle2 := hs2.len_le
        obtain ⟨r2, hr2, hp2⟩ := hloop
          (.bop acc (tokenDupMatch ctx).1 (.literalIdent (tokenDupMatch ctx).2.cur.text none))
          (tokenMatch (tokenDupMatch ctx).2) (by omega)
        refine ⟨r2, ?_, ?_⟩
        · simp only [parserObjectLoop]
          rw [if_pos hc, tokenTryMatchStr_fst, if_neg hb1, tokenTryMatchStr_snd_neg hb1]
          simp only [hid, if_true]
          exact hr2
        · have hs12 := (isStep_tokenDupMatch ctx).trans hs2
          exact {
            step := hs12.trans hp2.step
            exit := fun _ => by simp
            tags := fun ha => hp2.tags (by simp [Ast.tagsOk, ho, htag, ha])
            clean := fun ha he => by
              have he2 := hs12.errs_eq hp2.step he
              refine hp2.clean ?_ he2.2
              simp only [Ast.clean] at ha
              simp only [Ast.clean, Ast.cleanAux, ho, hflag, ha, Bool.true_or, Bool.and_self] }
      · have hs2 := (isStep_errorExpected (tokenDupMatch ctx).2 "field name").trans
          (isStep_tokenNext _)
        have hle2 := hs2.len_le
        obtain ⟨r2, hr2, hp2⟩ := hloop
          (.bop acc (tokenDupMatch ctx).1 (.literalIdent (tokenDupMatch ctx).2.cur.text none))
          (tokenNext (errorExpected (tokenDupMatch ctx).2 "field name")) (by omega)
        refine ⟨r2, ?_, ?_⟩
        · simp only [parserObjectLoop]
          rw [if_pos hc, tokenTryMatchStr_fst, if_neg hb1, tokenTryMatchStr_snd_neg hb1]
          simp only [hid, Bool.false_eq_true, if_false]
          exact hr2
        · have hs12 := (isStep_tokenDupMatch ctx).trans hs2
          exact {
            step := hs12.trans hp2.step
            exit := fun _ => by simp
            tags := fun ha => hp2.tags (by simp [Ast.tagsOk, ho, htag, ha])
            clean := fun ha he => by
              have he2 := hs12.errs_eq hp2.step he
              refine hp2.clean ?_ he2.2
              simp only [Ast.clean] at ha
              simp only [Ast.clean, Ast.cleanAux, ho, hflag, ha, Bool.true_or, Bool.and_self] }
  · refine ⟨(acc, ctx), ?_, ?_⟩
    · simp only [parserObjectLoop]
      rw [if_neg hc]
    · exact {
        step := IsStep.refl ctx
        exit := fun _ => by simp
        tags := fun ha => ha
        clean := fun ha _ => ha }

/-- One more unit of fuel for the element loop. -/
theorem parserChildren_step (env : Env) (n : Nat)
    (hval : Returns exitAssign 18 (parserValue env) n)
    (hloop : ReturnsLoop [] [] 19 (parserChildren env) n) :
    ReturnsLoop [] [] 19 (parserChildren env) (n + 1) := by
  intro acc ctx hb
  obtain ⟨r1, hr1, hp1⟩ := hval ctx (by omega)
  have hle1 := hp1.step.len_le
  by_cases hc : tokenIs r1.2 "," = true
  · have hne := tokens_ne_nil_of_tokenIs hc (by decide)
    have hlen := length_pos_of_ne_nil hne
    have hl2 := tokenMatch_length r1.2
    obtain ⟨r2, hr2, hp2⟩ := hloop (astAddChild acc r1.1) (tokenMatch r1.2)
      (by rw [hl2]; omega)
    refine ⟨r2, ?_, ?_⟩
    · simp only [parserChildren]
      rw [hr1]
      simp only [tokenTryMatchStr_fst, hc, if_true, tokenTryMatchStr_snd_pos hc]
      exact hr2
    · have hs12 := hp1.step.trans (isStep_tokenMatch r1.2)
      exact {
        step := hs12.trans hp2.step
        exit := fun _ => by simp
        tags := fun ha => hp2.tags (tagsOk_astAddChild _ _ ha hp1.tags)
        clean := fun ha he => by
          have he3 := hs12.errs_eq hp2.step he
          have he2 := hp1.step.errs_eq (isStep_tokenMatch r1.2) he3.1
          exact hp2.clean (clean_astAddChild _ _ ha (hp1.clean he2.1)) he3.2 }
  · refine ⟨(astAddChild acc r1.1, r1.2), ?_, ?_⟩
    · simp only [parserChildren]
      rw [hr1]
      simp only [tokenTryMatchStr_fst, hc, Bool.false_eq_true, if_false,
        tokenTryMatchStr_snd_neg hc]
    · exact {
        step := hp1.step
        exit := fun _ => by simp
        tags := fun ha => tagsOk_astAddChild _ _ ha hp1.tags
        clean := fun ha he => clean_astAddChild _ _ ha (hp1.clean he) }

/-- One more unit of fuel for `parserTernary`. -/
theorem parserTernary_step (env : Env) (n : Nat)
    (hbool : Returns (exitLevel 5) 15 (parserBool env) n)
    (htern : Returns exitTernary 16 (parserTernary env) n) :
    Returns exitTernary 16 (parserTernary env) (n + 1) := by
  intro ctx hb
  obtain ⟨r1, hr1, hp1⟩ := hbool ctx (by omega)
  have hle1 := hp1.step.len_le
  by_cases hc : tokenIs r1.2 "?" = true
  · have hne := tokens_ne_nil_of_tokenIs hc (by decide)
    have hlen := length_pos_of_ne_nil hne
    have hl2 := tokenMatch_length r1.2
    obtain ⟨r2, hr2, hp2⟩ := htern (tokenMatch r1.2) (by rw [hl2]; omega)
    have hle2 := hp2.step.len_le
    have hs3 := isStep_tokenMatchStr r2.2 ":"
    have hle3 := hs3.len_le
    obtain ⟨r3, hr3, hp3⟩ := htern (tokenMatchStr r2.2 ":") (by omega)
    refine ⟨(.top r1.1 r2.1 r3.1, r3.2), ?_, ?_⟩
    · simp only [parserTernary]
      rw [hr1]
      simp only [tokenTryMatchStr_fst, hc, if_true, tokenTryMatchStr_snd_pos hc]
      rw [hr2]
      simp only []
      rw [hr3]
    · have hsa := hp1.step.trans (isStep_tokenMatch r1.2)
      have hsb := hsa.trans hp2.step
      have hsc := hsb.trans hs3
      exact {
        step := hsc.trans hp3.step
        progress := fun _ => by
          have h3 := hp3.step.len_le
          show r3.2.tokens.length < ctx.tokens.length
          omega
        exit := hp3.exit
        tags := by simp [Ast.tagsOk, hp1.tags, hp2.tags, hp3.tags]
        clean := fun he => by
          have e4 := hsc.errs_eq hp3.step he
          have e3 := hsb.errs_eq hs3 e4.1
          have e2 := hsa.errs_eq hp2.step e3.1
          have e1 := hp1.step.errs_eq (isStep_tokenMatch r1.2) e2.1
          have c1 := hp1.clean e1.1
          have c2 := hp2.clean e2.2
          have c3 := hp3.clean e4.2
          simp only [Ast.clean] at c1 c2 c3
          simp only [Ast.clean, Ast.cleanAux, c1, c2, c3, Bool.and_self] }
  · refine ⟨(r1.1, r1.2), ?_, ?_⟩
    · simp only [parserTernary]
      rw [hr1]
      simp only [tokenTryMatchStr_fst, hc, Bool.false_eq_true, if_false,
        tokenTryMatchStr_snd_neg hc]
    · exact {
        step := hp1.step
        progress := hp1.progress
        exit := fun h1 => by
          simp only [exitTernary, List.mem_cons] at h1
          rcases h1 with h2 | h2
          · exact hc (by simp [tokenIs_eq, h2])
          · exact hp1.exit h2
        tags := hp1.tags
        clean := hp1.clean }

theorem assignOps_tags (o : String) (ho : o ∈ assignOps) :
    o ∈ binTags ∧ o ≠ "" ∧ o ≠ "." ∧ o ≠ "->" := by
  revert o
  decide

/-- One more unit of fuel for `parserAssign`. -/
theorem parserAssign_step (env : Env) (n : Nat)
    (htern : Returns exitTernary 16 (parserTernary env) n)
    (hassign : Returns exitAssign 17 (parserAssign env) n) :
    Returns exitAssign 17 (parserAssign env) (n + 1) := by
  intro ctx hb
  obtain ⟨r1, hr1, hp1⟩ := htern ctx (by omega)
  have hle1 := hp1.step.len_le
  by_cases hc : (tokenIs r1.2 "=" || tokenIs r1.2 "+=" || tokenIs r1.2 "-="
      || tokenIs r1.2 "*=" || tokenIs r1.2 "/=") = true
  · have hmem : peek r1.2.tokens ∈ assignOps := by
      simpa [tokenIs_eq, assignOps, or_assoc] using hc
    obtain ⟨htag, hne1, hdot, harrow⟩ := assignOps_tags _ hmem
    have hne := tokens_ne_nil_of_peek rfl hne1
    have hlen := length_pos_of_ne_nil hne
    have hl2 := tokenDupMatch_length r1.2
    obtain ⟨r2, hr2, hp2⟩ := hassign (tokenDupMatch r1.2).2 (by rw [hl2]; omega)
    refine ⟨(.bop r1.1 (tokenDupMatch r1.2).1 r2.1, r2.2), ?_, ?_⟩
    · simp only [parserAssign]
      rw [hr1]
      simp only []
      rw [if_pos hc, hr2]
    · have ho : (tokenDupMatch r1.2).1 = peek r1.2.tokens := rfl
      have hsa := hp1.step.trans (isStep_tokenDupMatch r1.2)
      exact {
        step := hsa.trans hp2.step
        progress := fun _ => by
          have h2 := hp2.step.len_le
          show r2.2.tokens.length < ctx.tokens.length
          omega
        exit := hp2.exit
        tags := by simp [Ast.tagsOk, ho, htag, hp1.tags, hp2.tags]
        clean := fun he => by
          have e2 := hsa.errs_eq hp2.step he
          have e1 := hp1.step.errs_eq (isStep_tokenDupMatch r1.2) e2.1
          have c1 := hp1.clean e1.1
          have c2 := hp2.clean e2.2
          have hflag : (peek r1.2.tokens == "." || peek r1.2.tokens == "->") = false := by
            simp [hdot, harrow]
          simp only [Ast.clean] at c1 c2
          simp only [Ast.clean, Ast.cleanAux, ho, hflag, c1, c2, Bool.and_self] }
  · refine ⟨(r1.1, r1.2), ?_, ?_⟩
    · simp only [parserAssign]
      rw [hr1]
      simp only []
      rw [if_neg hc]
    · have hmem : peek r1.2.tokens ∉ assignOps := by
        simpa [tokenIs_eq, assignOps, or_assoc] using hc
      exact {
        step := hp1.step
        progress := hp1.progress
        exit := fun h1 => by
          rcases List.mem_append.mp h1 with h2 | h2
          · exact hmem h2
          · exact hp1.exit h2
        tags := hp1.tags
        clean := hp1.clean }

/-- One more unit of fuel for `parserValue`. -/
theorem parserValue_step (env : Env) (n : Nat)
    (hassign : Returns exitAssign 17 (parserAssign env) n) :
    Returns exitAssign 18 (parserValue env) (n + 1) := by
  intro ctx hb
  obtain ⟨r1, hr1, hp1⟩ := hassign ctx (by omega)
  exact ⟨r1, by simp only [parserValue]; exact hr1, hp1⟩

theorem tokens_ne_nil_of_tokenIsIdent {ctx : ParserCtx} (h : tokenIsIdent ctx = true) :
    ctx.tokens ≠ [] := by
  intro h1
  simp [tokenIsIdent, ParserCtx.cur, h1, Token.eof] at h

theorem tokens_ne_nil_of_tokenIsInt {ctx : ParserCtx} (h : tokenIsInt ctx = true) :
    ctx.tokens ≠ [] := by
  intro h1
  simp [tokenIsInt, ParserCtx.cur, h1, Token.eof] at h

theorem errors_ne_of_append {l : List Diag} {e : Diag} : ¬ (l ++ [e] = l) := by
  intro h
  have := congrArg List.length h
  simp at this

/-- The context after the identifier of a primary: the cursor has moved one
token on, and the diagnostics are unchanged only when the lookup succeeded. -/
theorem ident_consumed (env : Env) (ctx : ParserCtx) :
    ∃ ctx1, ctx1 = (if (env.symFind ctx.cur.text).isSome = true then tokenMatch ctx
        else tokenNext (errorUndefSym ctx))
      ∧ IsStep ctx ctx1 ∧ ctx1.tokens.length = ctx.tokens.length - 1
      ∧ (ctx1.errors = ctx.errors → (env.symFind ctx.cur.text).isSome = true) := by
  refine ⟨_, rfl, ?_, ?_, ?_⟩
  · split
    · exact isStep_tokenMatch ctx
    · exact (isStep_errorUndefSym ctx).trans (isStep_tokenNext _)
  · split
    · exact tokenMatch_length ctx
    · simp [tokenNext, errorUndefSym]
  · split
    · intro _
      assumption
    · intro h
      exact absurd h errors_ne_of_append

/-- One more unit of fuel for `parserFactor`. -/
theorem parserFactor_step (env : Env) (henv : EnvOk env) (n : Nat)
    (hobj : Returns [] 3 (parserObject env) n)
    (hval : Returns exitAssign 18 (parserValue env) n)
    (hch : ReturnsLoop [] [] 19 (parserChildren env) n) :
    Returns [] 1 (parserFactor env) (n + 1) := by
  intro ctx hb
  by_cases hparen : tokenIs ctx "(" = true
  · -- cast or parenthesized expression
    have hne := tokens_ne_nil_of_tokenIs hparen (by decide)
    have hlen := length_pos_of_ne_nil hne
    have hl1 := tokenMatch_length ctx
    have hs1 := isStep_tokenMatch ctx
    by_cases hdecl : env.tokenIsDecl (tokenMatch ctx) = true
    · have hs2 := henv (tokenMatch ctx)
      have hs3 := isStep_tokenMatchStr (env.parserType (tokenMatch ctx)).2 ")"
      have hle2 := hs2.len_le
      have hle3 := hs3.len_le
      obtain ⟨r1, hr1, hp1⟩ := hobj (tokenMatchStr (env.parserType (tokenMatch ctx)).2 ")")
        (by omega)
      refine ⟨(.cast (env.parserType (tokenMatch ctx)).1 r1.1, r1.2), ?_, ?_⟩
      · simp only [parserFactor, tokenTryMatchStr_fst, hparen, if_true,
          tokenTryMatchStr_snd_pos hparen, hdecl]
        rw [hr1]
      · have hsa := (hs1.trans hs2).trans hs3
        exact {
          step := hsa.trans hp1.step
          progress := fun _ => by
            have h1 := hp1.step.len_le
            show r1.2.tokens.length < ctx.tokens.length
            omega
          exit := by simp
          tags := by simp [Ast.tagsOk, hp1.tags]
          clean := fun he => by
            have e1 := hsa.errs_eq hp1.step he
            have c1 := hp1.clean e1.2
            simp only [Ast.clean] at c1
            simp only [Ast.clean, Ast.cleanAux, c1] }
    · obtain ⟨r1, hr1, hp1⟩ := hval (tokenMatch ctx) (by omega)
      have hs3 := isStep_tokenMatchStr r1.2 ")"
      refine ⟨(r1.1, tokenMatchStr r1.2 ")"), ?_, ?_⟩
      · simp only [parserFactor, tokenTryMatchStr_fst, hparen, if_true,
          tokenTryMatchStr_snd_pos hparen, hdecl, Bool.false_eq_true, if_false]
        rw [hr1]
      · have hsa := hs1.trans hp1.step
        exact {
          step := hsa.trans hs3
          progress := fun _ => by
            have h1 := hp1.step.len_le
            have h3 := hs3.len_le
            show (tokenMatchStr r1.2 ")").tokens.length < ctx.tokens.length
            omega
          exit := by simp
          tags := hp1.tags
          clean := fun he => by
            have e1 := hsa.errs_eq hs3 he
            have e2 := hs1.errs_eq hp1.step e1.1
            exact hp1.clean e2.2 }
  · by_cases hbrace : tokenIs ctx "\x7b" = true
    · -- struct/array literal
      have hne := tokens_ne_nil_of_tokenIs hbrace (by decide)
      have hlen := length_pos_of_ne_nil hne
      have hl1 := tokenMatch_length ctx
      have hs1 := isStep_tokenMatch ctx
      obtain ⟨r1, hr1, hp1⟩ := hch (.literalArray []) (tokenMatch ctx) (by omega)
      have hs3 := isStep_tokenMatchStr r1.2 "\x7d"
      refine ⟨(r1.1, tokenMatchStr r1.2 "\x7d"), ?_, ?_⟩
      · simp only [parserFactor, tokenTryMatchStr_fst, hparen, hbrace, Bool.false_eq_true,
          if_false, if_true, tokenTryMatchStr_snd_pos hbrace]
        rw [hr1]
      · have hsa := hs1.trans hp1.step
        exact {
          step := hsa.trans hs3
          progress := fun _ => by
            have h1 := hp1.step.len_le
            have h3 := hs3.len_le
            show (tokenMatchStr r1.2 "\x7d").tokens.length < ctx.tokens.length
            omega
          exit := by simp
          tags := hp1.tags (by simp [Ast.tagsOk, tagsOkList])
          clean := fun he => by
            have e1 := hsa.errs_eq hs3 he
            have e2 := hs1.errs_eq hp1.step e1.1
            exact hp1.clean (by simp [Ast.clean, Ast.cleanAux, cleanList]) e2.2 }
    · by_cases hint : tokenIsInt ctx = true
      · -- integer literal
        have hne := tokens_ne_nil_of_tokenIsInt hint
        have hlen := length_pos_of_ne_nil hne
        have hl1 := tokenMatch_length ctx
        refine ⟨(.literalInt (tokenMatchInt ctx).1, (tokenMatchInt ctx).2), ?_, ?_⟩
        · simp only [parserFactor, tokenTryMatchStr_fst, hparen, hbrace, hint,
            Bool.false_eq_true, if_false, if_true]
        · exact {
            step := isStep_tokenMatch ctx
            progress := fun _ => by
              show (tokenMatch ctx).tokens.length < ctx.tokens.length
              omega
            exit := by simp
            tags := by simp [Ast.tagsOk]
            clean := fun _ => by simp [Ast.clean, Ast.cleanAux] }
      · by_cases hbool : (tokenIs ctx "true" || tokenIs ctx "false") = true
        · -- boolean literal
          have hne : ctx.tokens ≠ [] := by
            rcases Bool.or_eq_true _ _ ▸ hbool with h1 | h1
            · exact tokens_ne_nil_of_tokenIs h1 (by decide)
            · exact tokens_ne_nil_of_tokenIs h1 (by decide)
          have hlen := length_pos_of_ne_nil hne
          have hl1 := tokenMatch_length ctx
          refine ⟨(.literalBool (tokenIs ctx "true"), tokenMatch ctx), ?_, ?_⟩
          · simp only [parserFactor, tokenTryMatchStr_fst, hparen, hbrace, hint,
              Bool.false_eq_true, if_false]
            rw [if_pos hbool]
          · exact {
              step := isStep_tokenMatch ctx
              progress := fun _ => by
                show (tokenMatch ctx).tokens.length < ctx.tokens.length
                omega
              exit := by simp
              tags := by simp [Ast.tagsOk]
              clean := fun _ => by simp [Ast.clean, Ast.cleanAux] }
        · by_cases hid : tokenIsIdent ctx = true
          · -- identifier or function call
            have hne := tokens_ne_nil_of_tokenIsIdent hid
            have hlen := length_pos_of_ne_nil hne
            obtain ⟨ctx1, hdef, hs1, hl1, hfound⟩ := ident_consumed env ctx
            have hhead : parserFactor env (n + 1) ctx
                = (if tokenIs ctx1 "(" = true then
                    if (!tokenIs (tokenMatch ctx1) ")") = true then
                      match parserChildren env n
                        (.call (.literalIdent ctx.cur.text (env.symFind ctx.cur.text)) [])
                        (tokenMatch ctx1) with
                      | none => none
                      | some (call, ctx2) => some (call, tokenMatchStr ctx2 ")")
                    else some (.call (.literalIdent ctx.cur.text (env.symFind ctx.cur.text)) [],
                      tokenMatchStr (tokenMatch ctx1) ")")
                  else some (.literalIdent ctx.cur.text (env.symFind ctx.cur.text), ctx1)) := by
              simp only [parserFactor, tokenTryMatchStr_fst, hparen, hbrace, hint,
                Bool.false_eq_true, if_false]
              rw [if_neg hbool, if_pos hid, ← hdef]
            rw [hhead]
            have hnodeTags : (Ast.call (.literalIdent ctx.cur.text (env.symFind ctx.cur.text))
                []).tagsOk = true := by simp [Ast.tagsOk, tagsOkList]
            by_cases hcall : tokenIs ctx1 "(" = true
            · have hne2 := tokens_ne_nil_of_tokenIs hcall (by decide)
              have hlen2 := length_pos_of_ne_nil hne2
              have hl2 := tokenMatch_length ctx1
              have hs2 := isStep_tokenMatch ctx1
              rw [if_pos hcall]
              by_cases hclose : tokenIs (tokenMatch ctx1) ")" = true
              · have hs3 := isStep_tokenMatchStr (tokenMatch ctx1) ")"
                refine ⟨(.call (.literalIdent ctx.cur.text (env.symFind ctx.cur.text)) [],
                  tokenMatchStr (tokenMatch ctx1) ")"),
                  by simp only [hclose, Bool.not_true, Bool.false_eq_true, if_false], ?_⟩
                have hsa := hs1.trans hs2
                exact {
                  step := hsa.trans hs3
                  progress := fun _ => by
                    have h3 := hs3.len_le
                    show (tokenMatchStr (tokenMatch ctx1) ")").tokens.length < ctx.tokens.length
                    omega
                  exit := by simp
                  tags := hnodeTags
                  clean := fun he => by
                    have e1 := hsa.errs_eq hs3 he
                    have e2 := hs1.errs_eq hs2 e1.1
                    have hf := hfound e2.1
                    simp [Ast.clean, Ast.cleanAux, cleanList, hf] }
              · obtain ⟨r1, hr1, hp1⟩ := hch
                  (.call (.literalIdent ctx.cur.text (env.symFind ctx.cur.text)) [])
                  (tokenMatch ctx1) (by omega)
                have hs3 := isStep_tokenMatchStr r1.2 ")"
                refine ⟨(r1.1, tokenMatchStr r1.2 ")"), ?_, ?_⟩
                · simp only [hclose, Bool.not_false, if_true]
                  rw [hr1]
                · have hsa := (hs1.trans hs2).trans hp1.step
                  exact {
                    step := hsa.trans hs3
                    progress := fun _ => by
                      have h1 := hp1.step.len_le
                      have h3 := hs3.len_le
                      show (tokenMatchStr r1.2 ")").tokens.length < ctx.tokens.length
                      omega
                    exit := by simp
                    tags := hp1.tags hnodeTags
                    clean := fun he => by
                      have e1 := hsa.errs_eq hs3 he
                      have e2 := (hs1.trans hs2).errs_eq hp1.step e1.1
                      have e3 := hs1.errs_eq hs2 e2.1
                      have hf := hfound e3.1
                      exact hp1.clean (by simp [Ast.clean, Ast.cleanAux, cleanList, hf]) e2.2 }
            · rw [if_neg hcall]
              refine ⟨_, rfl, ?_⟩
              exact {
                step := hs1
                progress := fun _ => by
                  show ctx1.tokens.length < ctx.tokens.length
                  omega
                exit := by simp
                tags := by simp [Ast.tagsOk]
                clean := fun he => by
                  have hf := hfound he
                  simp [Ast.clean, Ast.cleanAux, hf] }
          · -- no production of Factor starts here
            refine ⟨(.invalid, tokenNext (errorExpected ctx "expression")), ?_, ?_⟩
            · simp only [parserFactor, tokenTryMatchStr_fst, hparen, hbrace, hint,
                Bool.false_eq_true, if_false]
              rw [if_neg hbool, if_neg hid]
            · exact {
                step := (isStep_errorExpected ctx "expression").trans (isStep_tokenNext _)
                progress := fun hne => by
                  have hlen := length_pos_of_ne_nil hne
                  show (tokenNext (errorExpected ctx "expression")).tokens.length
                    < ctx.tokens.length
                  simp only [tokenNext_length, errorExpected]
                  omega
                exit := by simp
                tags := by simp [Ast.tagsOk]
                clean := fun he => absurd he errors_ne_of_append }

theorem levelOps_tags (i : Nat) (hi : i < 5) (o : String) (ho : o ∈ levelOps i) :
    o ∈ binTags ∧ o ≠ "" ∧ o ≠ "." ∧ o ≠ "->" := by
  have h5 : i = 0 ∨ i = 1 ∨ i = 2 ∨ i = 3 ∨ i = 4 := by omega
  revert o
  rcases h5 with h | h | h | h | h <;> subst h <;> decide

/-- Fuel `20 * (remaining tokens) + (grammar level)` is enough for every
routine: each call of a routine of a lower level happens at the same cursor,
and every other call happens after a token has been consumed. -/
theorem allReturn (env : Env) (henv : EnvOk env) (n : Nat) : AllReturn env n := by
  induction n with
  | zero =>
    exact {
      factor := fun ctx hb => by omega
      objectLoop := fun acc ctx hb => by omega
      object := fun ctx hb => by omega
      level := fun i _ ctx hb => by omega
      levelLoop := fun i _ acc ctx hb => by omega
      ternary := fun ctx hb => by omega
      assign := fun ctx hb => by omega
      value := fun ctx hb => by omega
      children := fun acc ctx hb => by omega }
  | succ n ih =>
    exact {
      factor := parserFactor_step env henv n ih.object ih.value ih.children
      objectLoop := parserObjectLoop_step env n ih.value ih.objectLoop
      object := parserObject_step env n ih.factor ih.objectLoop
      level := fun i hi => by
        cases i with
        | zero => exact parserUnary_step env n (ih.level 0 (by omega)) ih.object
        | succ j =>
          exact binLevel_step (levelOps j) (exitLevel j) (exitLevel (j + 1)) (parserLevel env j)
            (5 + 2 * j) (6 + 2 * j) (5 + 2 * (j + 1)) (by omega) (by omega) n
            (ih.level j (by omega)) (ih.levelLoop j (by omega))
      levelLoop := fun i hi =>
        binLoop_step (levelOps i) (exitLevel i) (levelOps_tags i hi) (parserLevel env i)
          (5 + 2 * i) (6 + 2 * i) (by omega) n (ih.level i (by omega)) (ih.levelLoop i hi)
      ternary := parserTernary_step env n
        (by rw [← parserLevel_five]; exact ih.level 5 (by omega)) ih.ternary
      assign := parserAssign_step env n ih.ternary ih.assign
      value := parserValue_step env n ih.assign
      children := parserChildren_step env n ih.value ih.children }

/-- C11: `parserValue` never fails and always makes progress: on every
context with at least one token remaining it returns a node, and the
remaining input afterwards is a strict suffix of the input, whatever the
tokens are (given that the type parser only moves the cursor forward). -/
theorem parserValue_progress (env : Env) (henv : EnvOk env) (ctx : ParserCtx)
    (hne : ctx.tokens ≠ []) (fuel : Nat) (hf : 20 * ctx.tokens.length + 18 ≤ fuel) :
    ∃ node ctx1, parserValue env fuel ctx = some (node, ctx1)
      ∧ ctx1.tokens <:+ ctx.tokens ∧ ctx1.tokens.length < ctx.tokens.length := by
  obtain ⟨r, hr, hp⟩ := (allReturn env henv fuel).value ctx hf
  exact ⟨r.1, r.2, hr, hp.step.1, hp.progress hne⟩

/-- Witness of C11: on the malformed input `) )` a node is returned and the
cursor has moved. -/
theorem parserValue_progress_witness :
    ∃ node ctx1, parserValue ⟨fun _ => none, fun _ => false, fun c => (⟨0⟩, c)⟩ 58
        ⟨[opTok ")", opTok ")"], []⟩ = some (node, ctx1)
      ∧ ctx1.tokens <:+ [opTok ")", opTok ")"]
      ∧ ctx1.tokens.length < [opTok ")", opTok ")"].length :=
  parserValue_progress ⟨fun _ => none, fun _ => false, fun c => (⟨0⟩, c)⟩
    (fun c => IsStep.refl c) ⟨[opTok ")", opTok ")"], []⟩ (by decide) 58 (by decide)

theorem exitAssign_eq : exitAssign
    = ["=", "+=", "-=", "*=", "/=", "?", "&&", "||", "==", "!=", ">", ">=", "<", "<=",
       "+", "-", "*", "/", "++", "--"] := by
  decide

/-- C19: when `parserValue` returns, the token at the cursor is none of
`=`, `+=`, `-=`, `*=`, `/=`, `?`, `&&`, `||`, `==`, `!=`, `>`, `>=`, `<`,
`<=`, `+`, `-`, `*`, `/`, `++`, `--`: it never stops in front of an operator
it could have consumed. -/
theorem parserValue_maximal_munch (env : Env) (henv : EnvOk env) (ctx : ParserCtx)
    (fuel : Nat) (hf : 20 * ctx.tokens.length + 18 ≤ fuel) :
    ∃ r, parserValue env fuel ctx = some r
      ∧ peek r.2.tokens ∉ ["=", "+=", "-=", "*=", "/=", "?", "&&", "||", "==", "!=", ">",
          ">=", "<", "<=", "+", "-", "*", "/", "++", "--"] := by
  obtain ⟨r, hr, hp⟩ := (allReturn env henv fuel).value ctx hf
  refine ⟨r, hr, ?_⟩
  rw [← exitAssign_eq]
  exact hp.exit

/-- Witness of C19: on `1 ++ [ 2` the parse of `1 ++` stops in front of `[`,
which is not one of the operators. -/
theorem parserValue_maximal_munch_witness :
    ∃ r, parserValue ⟨fun _ => none, fun _ => false, fun c => (⟨0⟩, c)⟩ 98
        ⟨[⟨.int, "1"⟩, opTok "++", opTok "[", ⟨.int, "2"⟩], []⟩ = some r
      ∧ peek r.2.tokens ∉ ["=", "+=", "-=", "*=", "/=", "?", "&&", "||", "==", "!=", ">",
          ">=", "<", "<=", "+", "-", "*", "/", "++", "--"] :=
  parserValue_maximal_munch ⟨fun _ => none, fun _ => false, fun c => (⟨0⟩, c)⟩
    (fun c => IsStep.refl c) ⟨[⟨.int, "1"⟩, opTok "++", opTok "[", ⟨.int, "2"⟩], []⟩ 98
    (by decide)

theorem wrapInt_range (n : Int) : -2147483648 ≤ wrapInt n ∧ wrapInt n ≤ 2147483647 := by
  unfold wrapInt
  constructor <;> omega

/-- The value of an integer literal is in the range of the C type `int`. -/
theorem atoi_range (s : String) : -2147483648 ≤ atoi s ∧ atoi s ≤ 2147483647 :=
  wrapInt_range _

theorem tokenMatch_shorter {ctx : ParserCtx} (h : ctx.tokens ≠ []) :
    (tokenMatch ctx).tokens.length < ctx.tokens.length := by
  have h1 := tokenMatch_length ctx
  have h2 := length_pos_of_ne_nil h
  omega

theorem tokens_ne_nil_of_mem {ctx : ParserCtx} {ops : List String}
    (h : peek ctx.tokens ∈ ops) (hops : "" ∉ ops) : ctx.tokens ≠ [] := by
  apply tokens_ne_nil_of_peek rfl
  intro h0
  rw [h0] at h
  exact hops h

theorem result_eq {p : Option (Ast × ParserCtx)} {r r1 : Ast × ParserCtx} (h : p = some r)
    (h1 : p = some r1) : r1 = r := by
  rw [h] at h1
  exact (Option.some.inj h1).symm

/-- Every re-entry into a parsing routine happens at a strictly shorter
input. -/
theorem reentries (env : Env) (henv : EnvOk env) : Reentries env := by
  refine {
    assign := ?_, ternaryThen := ?_, ternaryElse := ?_, boolLoop := ?_, equalityLoop := ?_,
    relLoop := ?_, exprLoop := ?_, termLoop := ?_, unary := ?_, index := ?_, paren := ?_,
    cast := ?_, array := ?_, call := ?_, element := ?_ }
  · intro n ctx r hf hr hc
    obtain ⟨r1, hr1, hp⟩ := (allReturn env henv n).ternary ctx hf
    have he := result_eq hr hr1
    subst he
    have hmem : peek r1.2.tokens ∈ assignOps := by
      simpa [tokenIs_eq, assignOps, or_assoc] using hc
    have hne := tokens_ne_nil_of_mem hmem (by decide)
    have hle := hp.step.len_le
    have hsh := tokenMatch_shorter hne
    obtain ⟨node, ctx1⟩ := r1
    refine ⟨?_, ?_⟩
    · simp only [parserAssign]
      rw [hr]
      simp only []
      rw [if_pos hc]
    · show (tokenMatch ctx1).tokens.length < ctx.tokens.length
      simp only [] at hle hsh
      omega
  · intro n ctx r hf hr hc
    have hb := (allReturn env henv n).level 5 (by omega)
    rw [parserLevel_five] at hb
    obtain ⟨r1, hr1, hp⟩ := hb ctx hf
    have he := result_eq hr hr1
    subst he
    have hne := tokens_ne_nil_of_tokenIs hc (by decide)
    have hle := hp.step.len_le
    have hsh := tokenMatch_shorter hne
    obtain ⟨node, ctx1⟩ := r1
    refine ⟨?_, ?_⟩
    · simp only [parserTernary]
      rw [hr]
      simp only [tokenTryMatchStr_fst, hc, if_true, tokenTryMatchStr_snd_pos hc]
    · simp only [] at hle hsh ⊢
      omega
  · intro n ctx r l hf hr hc hl
    have hb := (allReturn env henv n).level 5 (by omega)
    rw [parserLevel_five] at hb
    obtain ⟨r1, hr1, hp⟩ := hb ctx hf
    have he := result_eq hr hr1
    subst he
    have hne := tokens_ne_nil_of_tokenIs hc (by decide)
    have hle := hp.step.len_le
    have hsh := tokenMatch_shorter hne
    obtain ⟨l1, hl1, hp2⟩ := (allReturn env henv n).ternary (tokenMatch r1.2) (by omega)
    have he2 := result_eq hl hl1
    subst he2
    have hle2 := hp2.step.len_le
    have hle3 := (isStep_tokenMatchStr l1.2 ":").len_le
    omega
  · intro n acc ctx hc
    have hmem : peek ctx.tokens ∈ ["&&", "||"] := by simpa [tokenIs_eq] using hc
    refine ⟨?_, tokenMatch_shorter (tokens_ne_nil_of_mem hmem (by decide))⟩
    simp only [parserBoolLoop]
    rw [if_pos hc]
  · intro n acc ctx hc
    have hmem : peek ctx.tokens ∈ ["==", "!="] := by simpa [tokenIs_eq] using hc
    refine ⟨?_, tokenMatch_shorter (tokens_ne_nil_of_mem hmem (by decide))⟩
    simp only [parserEqualityLoop]
    rw [if_pos hc]
  · intro n acc ctx hc
    have hmem : peek ctx.tokens ∈ [">", ">=", "<", "<="] := by
      simpa [tokenIs_eq, or_assoc] using hc
    refine ⟨?_, tokenMatch_shorter (tokens_ne_nil_of_mem hmem (by decide))⟩
    simp only [parserRelLoop]
    rw [if_pos hc]
  · intro n acc ctx hc
    have hmem : peek ctx.tokens ∈ ["+", "-"] := by simpa [tokenIs_eq] using hc
    refine ⟨?_, tokenMatch_shorter (tokens_ne_nil_of_mem hmem (by decide))⟩
    simp only [parserExprLoop]
    rw [if_pos hc]
  · intro n acc ctx hc
    have hmem : peek ctx.tokens ∈ ["*", "/"] := by simpa [tokenIs_eq] using hc
    refine ⟨?_, tokenMatch_shorter (tokens_ne_nil_of_mem hmem (by decide))⟩
    simp only [parserTermLoop]
    rw [if_pos hc]
  · intro n ctx hc
    have hmem : peek ctx.tokens ∈ prefixOps := by
      simpa [tokenIs_eq, prefixOps, or_assoc] using hc
    refine ⟨?_, tokenMatch_shorter (tokens_ne_nil_of_mem hmem (by decide))⟩
    simp only [parserUnary]
    rw [if_pos hc]
  · intro n acc ctx hc
    refine ⟨?_, tokenMatch_shorter (tokens_ne_nil_of_tokenIs hc (by decide))⟩
    simp only [parserObjectLoop, tokenTryMatchStr_fst, hc, Bool.true_or, if_true,
      tokenTryMatchStr_snd_pos hc]
  · intro n ctx hc hdecl
    refine ⟨?_, tokenMatch_shorter (tokens_ne_nil_of_tokenIs hc (by decide))⟩
    simp only [parserFactor, tokenTryMatchStr_fst, hc, if_true, tokenTryMatchStr_snd_pos hc,
      hdecl, Bool.false_eq_true, if_false]
  · intro n ctx hc hdecl
    refine ⟨?_, ?_⟩
    · simp only [parserFactor, tokenTryMatchStr_fst, hc, if_true, tokenTryMatchStr_snd_pos hc,
        hdecl]
    · have h1 := tokenMatch_shorter (tokens_ne_nil_of_tokenIs hc (by decide))
      have h2 := (henv (tokenMatch ctx)).len_le
      have h3 := (isStep_tokenMatchStr (env.parserType (tokenMatch ctx)).2 ")").len_le
      omega
  · intro n ctx hc
    have hparen : tokenIs ctx "(" = false := by
      have h1 : ctx.cur.text = "\x7b" := by simpa [tokenIs] using hc
      simp [tokenIs, h1]
    refine ⟨?_, tokenMatch_shorter (tokens_ne_nil_of_tokenIs hc (by decide))⟩
    simp only [parserFactor, tokenTryMatchStr_fst, hparen, hc, Bool.false_eq_true, if_false,
      if_true, tokenTryMatchStr_snd_pos hc]
  · intro n ctx hparen hbrace hint hbool hid hcall hclose
    refine ⟨?_, ?_⟩
    · simp only [parserFactor, tokenTryMatchStr_fst, hparen, hbrace, hint, hbool, hid,
        Bool.false_eq_true, if_false, if_true]
      simp only [afterIdent] at hcall hclose
      rw [if_pos hcall]
      simp only [hclose, Bool.not_false, if_true, afterIdent]
    · obtain ⟨ctx1, hdef, hs1, hl1, _⟩ := ident_consumed env ctx
      have h0 : afterIdent env ctx = ctx1 := by rw [hdef]; rfl
      rw [h0] at hcall ⊢
      have h1 := tokenMatch_shorter (tokens_ne_nil_of_tokenIs hcall (by decide))
      omega
  · intro n node ctx r hf hr hc
    obtain ⟨r1, hr1, hp⟩ := (allReturn env henv n).value ctx hf
    have he := result_eq hr hr1
    subst he
    have hle := hp.step.len_le
    have hsh := tokenMatch_shorter (tokens_ne_nil_of_tokenIs hc (by decide))
    obtain ⟨child, ctx1⟩ := r1
    refine ⟨?_, ?_⟩
    · simp only [parserChildren]
      rw [hr]
      simp only [tokenTryMatchStr_fst, hc, if_true, tokenTryMatchStr_snd_pos hc]
    · simp only [] at hle hsh ⊢
      omega


/-- Counterexample to C12 as stated: at end of input an error-recovery step
does not advance the cursor.  A failed required token leaves the empty input
empty, and on the two tokens `( (`, both consumed as opening brackets, three
recovery steps are made. -/
theorem recovery_at_end_of_input :
    tokenMatchStr ⟨[], []⟩ ")" = ⟨[], [Diag.expected ")"]⟩
    ∧ ¬ ((tokenMatchStr ⟨[], []⟩ ")").tokens.length < (⟨[], []⟩ : ParserCtx).tokens.length)
    ∧ parserValue ⟨fun _ => none, fun _ => false, fun c => (⟨0⟩, c)⟩ 58
        ⟨[opTok "(", opTok "("], []⟩
      = some (.invalid, ⟨[], [Diag.expected "expression", Diag.expected ")",
          Diag.expected ")"]⟩) :=
  ⟨rfl, by decide, rfl⟩

/-- C12 (amended): `parserValue` terminates on every finite token stream,
well-formed or not: fuel `20 * (remaining tokens) + (grammar level)` is
enough for each of the ten routines.  Each error-recovery step (failed
required token, missing field name, undefined symbol, unparseable primary)
moves the cursor past exactly one token when a token remains, and at end of
input reports and leaves the cursor in place.  Every re-entry into a parsing
routine is made at a strictly shorter input (`Reentries`), so the mutual
recursion decreases on (remaining tokens, grammar level). -/
theorem parserValue_terminates (env : Env) (henv : EnvOk env) :
    (∀ (ctx : ParserCtx) (fuel : Nat),
      (20 * ctx.tokens.length + 18 ≤ fuel → ∃ r, parserValue env fuel ctx = some r)
      ∧ (20 * ctx.tokens.length + 17 ≤ fuel → ∃ r, parserAssign env fuel ctx = some r)
      ∧ (20 * ctx.tokens.length + 16 ≤ fuel → ∃ r, parserTernary env fuel ctx = some r)
      ∧ (20 * ctx.tokens.length + 15 ≤ fuel → ∃ r, parserBool env fuel ctx = some r)
      ∧ (20 * ctx.tokens.length + 13 ≤ fuel → ∃ r, parserEquality env fuel ctx = some r)
      ∧ (20 * ctx.tokens.length + 11 ≤ fuel → ∃ r, parserRel env fuel ctx = some r)
      ∧ (20 * ctx.tokens.length + 9 ≤ fuel → ∃ r, parserExpr env fuel ctx = some r)
      ∧ (20 * ctx.tokens.length + 7 ≤ fuel → ∃ r, parserTerm env fuel ctx = some r)
      ∧ (20 * ctx.tokens.length + 5 ≤ fuel → ∃ r, parserUnary env fuel ctx = some r)
      ∧ (20 * ctx.tokens.length + 3 ≤ fuel → ∃ r, parserObject env fuel ctx = some r)
      ∧ (20 * ctx.tokens.length + 1 ≤ fuel → ∃ r, parserFactor env fuel ctx = some r))
    ∧ (∀ (t : Token) (rest : List Token) (errs : List Diag) (s : String), t.text ≠ s →
      tokenMatchStr ⟨t :: rest, errs⟩ s = ⟨rest, errs ++ [Diag.expected s]⟩)
    ∧ (∀ (op : String) (t : Token) (base : Ast) (rest : List Token) (errs : List Diag)
        (n : Nat), op ∈ [".", "->"] → t.kind ≠ .ident →
      parserObjectLoop env (n + 1) base ⟨opTok op :: t :: rest, errs⟩
        = parserObjectLoop env n (.bop base op (.literalIdent t.text none))
            ⟨rest, errs ++ [Diag.expected "field name"]⟩)
    ∧ (∀ (t : Token) (rest : List Token) (errs : List Diag) (k : Nat), t.kind = .ident →
        t.text ∉ ["(", "\x7b", "true", "false"] → env.symFind t.text = none →
        peek rest ≠ "(" →
      parserFactor env (k + 1) ⟨t :: rest, errs⟩
        = some (.literalIdent t.text none, ⟨rest, errs ++ [Diag.undefSym t.text]⟩))
    ∧ (∀ (t : Token) (rest : List Token) (errs : List Diag) (k : Nat), t.kind ≠ .int →
        t.kind ≠ .ident → t.text ∉ ["(", "\x7b", "true", "false"] →
      parserFactor env (k + 1) ⟨t :: rest, errs⟩
        = some (.invalid, ⟨rest, errs ++ [Diag.expected "expression"]⟩))
    ∧ (∀ (errs : List Diag) (s : String), s ≠ "" →
      tokenMatchStr ⟨[], errs⟩ s = ⟨[], errs ++ [Diag.expected s]⟩)
    ∧ (∀ (op : String) (base : Ast) (errs : List Diag) (n : Nat), op ∈ [".", "->"] →
      parserObjectLoop env (n + 1) base ⟨[opTok op], errs⟩
        = parserObjectLoop env n (.bop base op (.literalIdent "" none))
            ⟨[], errs ++ [Diag.expected "field name"]⟩)
    ∧ (∀ (errs : List Diag) (k : Nat),
      parserFactor env (k + 1) ⟨[], errs⟩
        = some (.invalid, ⟨[], errs ++ [Diag.expected "expression"]⟩))
    ∧ Reentries env := by
  refine ⟨?_, ?_, ?_, ?_, ?_, ?_, ?_, ?_, reentries env henv⟩
  · intro ctx fuel
    have h := allReturn env henv fuel
    have hl := h.level
    rw [← parserLevel_five, ← parserLevel_four, ← parserLevel_three, ← parserLevel_two,
      ← parserLevel_one]
    refine ⟨fun hf => ?_, fun hf => ?_, fun hf => ?_, fun hf => ?_, fun hf => ?_, fun hf => ?_,
      fun hf => ?_, fun hf => ?_, fun hf => ?_, fun hf => ?_, fun hf => ?_⟩
    · obtain ⟨r, hr, _⟩ := h.value ctx hf
      exact ⟨r, hr⟩
    · obtain ⟨r, hr, _⟩ := h.assign ctx hf
      exact ⟨r, hr⟩
    · obtain ⟨r, hr, _⟩ := h.ternary ctx hf
      exact ⟨r, hr⟩
    · obtain ⟨r, hr, _⟩ := hl 5 (by omega) ctx hf
      exact ⟨r, hr⟩
    · obtain ⟨r, hr, _⟩ := hl 4 (by omega) ctx hf
      exact ⟨r, hr⟩
    · obtain ⟨r, hr, _⟩ := hl 3 (by omega) ctx hf
      exact ⟨r, hr⟩
    · obtain ⟨r, hr, _⟩ := hl 2 (by omega) ctx hf
      exact ⟨r, hr⟩
    · obtain ⟨r, hr, _⟩ := hl 1 (by omega) ctx hf
      exact ⟨r, hr⟩
    · obtain ⟨r, hr, _⟩ := hl 0 (by omega) ctx hf
      exact ⟨r, hr⟩
    · obtain ⟨r, hr, _⟩ := h.object ctx hf
      exact ⟨r, hr⟩
    · obtain ⟨r, hr, _⟩ := h.factor ctx hf
      exact ⟨r, hr⟩
  · intro t rest errs s hts
    simp [tokenMatchStr, hts, errorExpected, tokenNext]
  · intro op t base rest errs n hop hk
    rw [parserObjectLoop_memberStep env op hop t base rest errs n]
    simp [fieldDiag, hk]
  · intro t rest errs k hkind htext hnone hrest
    rw [parserFactor_ident env t hkind htext rest errs hrest k]
    simp [undefDiag, hnone]
  · intro t rest errs k hint hident htext
    exact parserFactor_noProduction env t hint hident htext rest errs k
  · intro errs s hs
    have h1 : ("" == s) = false := by
      simpa using fun h : "" = s => hs h.symm
    simp [tokenMatchStr, h1, errorExpected, tokenNext]
  · intro op base errs n hop
    have hop1 : (op == "[") = false := by
      simp only [List.mem_cons, List.mem_nil_iff, or_false] at hop
      rcases hop with h | h <;> subst h <;> decide
    have hcond : (op == "[" || op == "." || op == "->") = true := by
      simp only [List.mem_cons, List.mem_nil_iff, or_false] at hop
      rcases hop with h | h <;> subst h <;> decide
    simp only [parserObjectLoop, tokenIs_mk, peek_cons, opTok_text, hcond, if_true]
    simp only [tokenTryMatchStr, tokenIs_mk, peek_cons, opTok_text, hop1,
      Bool.false_eq_true, if_false, tokenDupMatch_cons]
    simp [tokenIsIdent, ParserCtx.cur, Token.eof, tokenNext, errorExpected]
  · intro errs k
    simp [parserFactor, tokenTryMatchStr, tokenIs, tokenIsInt, tokenIsIdent, ParserCtx.cur,
      Token.eof, errorExpected, tokenNext]

/-- Witness of C12: on the unbalanced input `( (` of two tokens fuel 58 is
enough for `parserValue`, a missing `)` before `1` skips the `1`, and after
the prefix operator of `- 1` the recursive call is one token further. -/
theorem parserValue_terminates_witness :
    (∃ r, parserValue ⟨fun _ => none, fun _ => false, fun c => (⟨0⟩, c)⟩ 58
        ⟨[opTok "(", opTok "("], []⟩ = some r)
    ∧ tokenMatchStr ⟨(⟨.int, "1"⟩ : Token) :: [], []⟩ ")" = ⟨[], [] ++ [Diag.expected ")"]⟩
    ∧ (tokenDupMatch ⟨[opTok "-", ⟨.int, "1"⟩], []⟩).2.tokens.length
        < (⟨[opTok "-", ⟨.int, "1"⟩], []⟩ : ParserCtx).tokens.length :=
  ⟨((parserValue_terminates ⟨fun _ => none, fun _ => false, fun c => (⟨0⟩, c)⟩
      (fun c => IsStep.refl c)).1 ⟨[opTok "(", opTok "("], []⟩ 58).1 (by decide),
   (parserValue_terminates ⟨fun _ => none, fun _ => false, fun c => (⟨0⟩, c)⟩
      (fun c => IsStep.refl c)).2.1 ⟨.int, "1"⟩ [] [] ")" (by decide),
   ((parserValue_terminates ⟨fun _ => none, fun _ => false, fun c => (⟨0⟩, c)⟩
      (fun c => IsStep.refl c)).2.2.2.2.2.2.2.2.unary 3
        ⟨[opTok "-", ⟨.int, "1"⟩], []⟩ rfl).2⟩

end Fcc
